import Mathlib

/-!
# Verification of the binary type inference core

A shallow embedding, in Lean 4, of the core data structures and algorithms of
the binary type-inference pipeline:

* the field-label / type-variable / constraint algebra (`crate::constraints`,
  modelled from the spec since that module's source is external to the files
  under verification),
* the `MappingGraph` data structure (`src/graph_algos/mapping_graph.rs`),
* the constraint generator (`src/constraint_generation/mod.rs`),
* the register-context collaborator (`src/node_context/register_map.rs`),
* the quotient engine and sketch operations (`src/solver/type_sketch.rs`).

Machine integers in the source (usize, i64, u64) are modelled as `Nat`/`Int`;
none of the verified operations exercises overflow.  Rust panics
(`panic!`, `expect`, `assert!`) are modelled by `Option`/`Except` results.
Rust `HashMap`/`HashSet` iteration order is unspecified; wherever it can
influence a result the embedding fixes a canonical deterministic order and
says so at the definition site.
-/

set_option linter.unusedSectionVars false
set_option linter.unusedVariables false

namespace BTI

/-- Modelled from the spec (§3): `FieldLabel` of `crate::constraints`, whose
source file is not part of the verified tree.  Tagged variants
`In(i)`, `Out(i)`, `Load`, `Store`, `Field{offset, size_bits}`. -/
inductive FieldLabel : Type
  | inL : Nat → FieldLabel
  | outL : Nat → FieldLabel
  | load : FieldLabel
  | store : FieldLabel
  | field : Int → Nat → FieldLabel
  deriving DecidableEq, Repr, Ord

/-- Modelled from the spec (§3, §4.1): `TypeVariable` of `crate::constraints`.
A named symbolic type with an optional call-site tag; variables minted by the
`VariableManager` are kept in a separate constructor, which bakes in the §4.1
contract that fresh names never collide with the naming helpers. -/
inductive TypeVariable : Type
  | named : String → Option String → TypeVariable
  | fresh : Nat → TypeVariable
  deriving DecidableEq, Repr, Ord

/-- `to_callee()` strips the call-site tag (spec §3). -/
def TypeVariable.toCallee : TypeVariable → TypeVariable
  | .named s _ => .named s none
  | .fresh n => .fresh n

/-- Modelled from the spec (§3): `DerivedTypeVar` — a base `TypeVariable` plus
an ordered sequence of `FieldLabel`s. -/
structure DerivedTypeVar : Type where
  base : TypeVariable
  labels : List FieldLabel
  deriving DecidableEq, Repr

/-- `DerivedTypeVar::new`: a bare base variable with no field labels. -/
def DerivedTypeVar.ofBase (tv : TypeVariable) : DerivedTypeVar := ⟨tv, []⟩

/-- `DerivedTypeVar::add_field_label` (append at the end of the path). -/
def DerivedTypeVar.addFieldLabel (d : DerivedTypeVar) (l : FieldLabel) : DerivedTypeVar :=
  ⟨d.base, d.labels ++ [l]⟩

/-- `DerivedTypeVar::to_callee` strips the base variable's call-site tag. -/
def DerivedTypeVar.toCallee (d : DerivedTypeVar) : DerivedTypeVar :=
  ⟨d.base.toCallee, d.labels⟩

/-- Modelled from the spec (§3): `SubtypeConstraint` — an ordered pair
`lhs ⊑ rhs` of derived type variables. -/
structure SubtypeConstraint : Type where
  lhs : DerivedTypeVar
  rhs : DerivedTypeVar
  deriving DecidableEq, Repr

/-- Modelled from the spec (§3): `ConstraintSet`, a set of subtype
constraints.  Embedded as a list with set-semantics insertion, mirroring the
Rust `BTreeSet` (whose ordering never escapes into the verified results;
all statements about constraint sets are membership statements). -/
abbrev ConstraintSet := List SubtypeConstraint

/-- `BTreeSet::insert`: add an element unless already present. -/
def csInsert (c : SubtypeConstraint) (s : ConstraintSet) : ConstraintSet :=
  if c ∈ s then s else c :: s

/-- `x.union(&y).collect()`: set union of two constraint sets. -/
def csUnion (s t : ConstraintSet) : ConstraintSet :=
  s.foldl (fun acc c => csInsert c acc) t

/-- Modelled from the spec (§4.1): the `VariableManager` mints fresh type
variables with a monotonically increasing counter. -/
abbrev VariableManager := Nat

/-- `VariableManager::fresh`: the freshly minted variable and next state. -/
def vmFresh (vm : VariableManager) : TypeVariable × VariableManager :=
  (TypeVariable.fresh vm, vm + 1)

/-! ## List-as-finite-set helpers used throughout the embedding -/

/-- First-occurrence deduplication of a list, with an accumulator of already
seen elements (used to model the `HashSet` membership check of
`quoetient_graph`'s edge-set loop). -/
def dedupFirstAux {α : Type} [DecidableEq α] (seen : List α) : List α → List α
  | [] => []
  | a :: l => if a ∈ seen then dedupFirstAux seen l else a :: dedupFirstAux (a :: seen) l

/-- First-occurrence deduplication of a list. -/
def dedupFirst {α : Type} [DecidableEq α] (l : List α) : List α :=
  dedupFirstAux [] l

theorem mem_dedupFirstAux {α : Type} [DecidableEq α] (l : List α) (seen : List α) (a : α) :
    a ∈ dedupFirstAux seen l ↔ a ∈ l ∧ a ∉ seen := by
  induction l generalizing seen with
  | nil => simp [dedupFirstAux]
  | cons b l ih =>
    by_cases hb : b ∈ seen
    · simp only [dedupFirstAux, if_pos hb, ih, List.mem_cons]
      constructor
      · rintro ⟨h1, h2⟩; exact ⟨Or.inr h1, h2⟩
      · rintro ⟨h1 | h1, h2⟩
        · exact absurd (h1 ▸ hb) h2
        · exact ⟨h1, h2⟩
    · simp only [dedupFirstAux, if_neg hb, List.mem_cons, ih]
      by_cases hab : a = b
      · subst hab; simp [hb]
      · simp [hab]

theorem mem_dedupFirst {α : Type} [DecidableEq α] (l : List α) (a : α) :
    a ∈ dedupFirst l ↔ a ∈ l := by
  simp [dedupFirst, mem_dedupFirstAux]

theorem nodup_dedupFirstAux {α : Type} [DecidableEq α] (l : List α) (seen : List α) :
    (dedupFirstAux seen l).Nodup := by
  induction l generalizing seen with
  | nil => simp [dedupFirstAux]
  | cons b l ih =>
    by_cases hb : b ∈ seen
    · simpa [dedupFirstAux, if_pos hb] using ih seen
    · show (dedupFirstAux seen (b :: l)).Nodup
      rw [dedupFirstAux, if_neg hb]
      refine List.nodup_cons.2 ⟨?_, ih (b :: seen)⟩
      intro hmem
      have := (mem_dedupFirstAux _ _ _).1 hmem
      simp at this

theorem nodup_dedupFirst {α : Type} [DecidableEq α] (l : List α) :
    (dedupFirst l).Nodup := nodup_dedupFirstAux l []

/-- Association-list lookup by decidable equality (models `HashMap::get` /
`BTreeMap::get` on the key maps of the mapping graph). -/
def alookup {κ α : Type} [DecidableEq κ] (l : List (κ × α)) (k : κ) : Option α :=
  (l.find? (fun p => p.1 = k)).map (fun p => p.2)

theorem alookup_nil {κ α : Type} [DecidableEq κ] (k : κ) :
    alookup ([] : List (κ × α)) k = none := rfl

theorem alookup_cons {κ α : Type} [DecidableEq κ] (p : κ × α) (l : List (κ × α)) (k : κ) :
    alookup (p :: l) k = if p.1 = k then some p.2 else alookup l k := by
  by_cases h : p.1 = k <;> simp [alookup, List.find?, h]

theorem alookup_append {κ α : Type} [DecidableEq κ] (l m : List (κ × α)) (k : κ) :
    alookup (l ++ m) k = (alookup l k).or (alookup m k) := by
  induction l with
  | nil => simp [alookup_nil, Option.or]
  | cons p l ih =>
    rw [List.cons_append, alookup_cons, alookup_cons]
    by_cases h : p.1 = k <;> simp [h, ih, Option.or]

/-! ## The mapping graph (`src/graph_algos/mapping_graph.rs`)

`MappingGraph<W, N, E>` wraps a petgraph `StableDiGraph` (stable node
indices, parallel edges allowed) plus a key→index map and its inverse.
The embedding keeps:

* `nodes`  — the stable graph's node table as an association list
  `(index, weight)`; indices are `Nat` and are never reused (`freshIdx` is
  the next never-used index, a sound model of stable indices for the
  operations verified here);
* `edges`  — the edge list as `(source, target, weight)` triples, parallel
  edges represented by duplicate-free-or-not list entries exactly as the
  source allows them;
* `assoc`  — the `nodes: HashMap<N, NodeIndex>` key map.  The inverse map
  `reprs_to_graph_node` is maintained by the source purely as an index of
  `assoc` (invariant (a) of the spec §3); the embedding derives it from
  `assoc` (`keysOf`). -/

structure MappingGraph (W K E : Type) : Type where
  nodes : List (Nat × W)
  edges : List (Nat × Nat × E)
  assoc : List (K × Nat)
  freshIdx : Nat
  deriving Repr, DecidableEq

namespace MappingGraph

variable {W K E : Type} [DecidableEq K] [DecidableEq E] [DecidableEq W]

/-- `MappingGraph::new`. -/
def empty : MappingGraph W K E := ⟨[], [], [], 0⟩

/-- `get_node`: the node index representing a key. -/
def getNode (g : MappingGraph W K E) (k : K) : Option Nat :=
  alookup g.assoc k

/-- The node weight at an index (`node_weight`). -/
def weightAt (g : MappingGraph W K E) (i : Nat) : Option W :=
  alookup g.nodes i

/-- `get_group_for_node`: all keys represented by a node index (the
`reprs_to_graph_node` entry, derived from the forward map). -/
def keysOf (g : MappingGraph W K E) (i : Nat) : List K :=
  (g.assoc.filter (fun p => p.2 = i)).map (fun p => p.1)

/-- `add_edge` (the `MappingGraph` method): insert an edge unless an edge
with the same source, target and weight already exists. -/
def addEdge (g : MappingGraph W K E) (e : Nat × Nat × E) : MappingGraph W K E :=
  if e ∈ g.edges then g else { g with edges := g.edges ++ [e] }

/-- `StableDiGraph::remove_node` by index: drops the node and every edge
incident to it.  The key map is untouched (this is the *graph-level*
removal the source uses at the end of `merge_nodes`). -/
def removeGraphNode (g : MappingGraph W K E) (i : Nat) : MappingGraph W K E :=
  { g with
    nodes := g.nodes.filter (fun p => p.1 ≠ i)
    edges := g.edges.filter (fun e => e.1 ≠ i ∧ e.2.1 ≠ i) }

/-- `MappingGraph::remove_node_by_idx`: drop the node, its incident edges,
and every key association pointing at it. -/
def removeNodeByIdx (g : MappingGraph W K E) (i : Nat) : MappingGraph W K E :=
  { (g.removeGraphNode i) with assoc := g.assoc.filter (fun p => p.2 ≠ i) }

/-- `add_node(key, weight)`: merge the weight into an existing node for the
key with the magma operator `op`, or add a fresh node registered to the
key.  Returns the node index together with the new graph. -/
def addNode (op : W → W → W) (g : MappingGraph W K E) (k : K) (w : W) :
    Nat × MappingGraph W K E :=
  match g.getNode k with
  | some i =>
    (i, { g with nodes := g.nodes.map (fun p => if p.1 = i then (p.1, op p.2 w) else p) })
  | none =>
    (g.freshIdx,
      { g with
        nodes := g.nodes ++ [(g.freshIdx, w)]
        assoc := g.assoc ++ [(k, g.freshIdx)]
        freshIdx := g.freshIdx + 1 })

/-- One of the four edge-copy loops of `merge_nodes`: snapshot the edges
selected by `sel` from the *current* graph, then `add_edge` the re-homed
copy of each (deduplicated). -/
def copyEdges (g : MappingGraph W K E) (sel : Nat × Nat × E → Bool)
    (mk : Nat × Nat × E → Nat × Nat × E) : MappingGraph W K E :=
  (g.edges.filter sel).foldl (fun h e => h.addEdge (mk e)) g

/-- `merge_nodes(key1, key2)` (`src/graph_algos/mapping_graph.rs`):

* neither key known — no-op;
* exactly one known — register the missing key to the existing node;
* both known and distinct — add a fresh node carrying the magma-merge of
  the two weights, re-home all keys of both old nodes to it, copy each old
  node's outgoing and incoming edges onto it (each copy loop snapshots the
  current edge set, as the source's `collect::<Vec<_>>()` does), then
  remove the two old nodes at the graph level. -/
def mergeNodes (op : W → W → W) (g : MappingGraph W K E) (k1 k2 : K) :
    MappingGraph W K E :=
  match g.getNode k1, g.getNode k2 with
  | none, none => g
  | none, some x => { g with assoc := g.assoc ++ [(k1, x)] }
  | some x, none => { g with assoc := g.assoc ++ [(k2, x)] }
  | some fst, some snd =>
    if fst = snd then g
    else
      match g.weightAt fst, g.weightAt snd with
      | some w1, some w2 =>
        let newIdx := g.freshIdx
        let g0 : MappingGraph W K E :=
          { g with
            nodes := g.nodes ++ [(newIdx, op w1 w2)]
            assoc := g.assoc.map
              (fun p => if p.2 = fst ∨ p.2 = snd then (p.1, newIdx) else p)
            freshIdx := newIdx + 1 }
        let g1 := g0.copyEdges (fun e => e.1 = fst) (fun e => (newIdx, e.2.1, e.2.2))
        let g2 := g1.copyEdges (fun e => e.2.1 = fst) (fun e => (e.1, newIdx, e.2.2))
        let g3 := g2.copyEdges (fun e => e.1 = snd) (fun e => (newIdx, e.2.1, e.2.2))
        let g4 := g3.copyEdges (fun e => e.2.1 = snd) (fun e => (e.1, newIdx, e.2.2))
        (g4.removeGraphNode fst).removeGraphNode snd
      | _, _ => g

/-! ### Basic lemmas about the mapping-graph operations -/

theorem addEdge_nodes (g : MappingGraph W K E) (e : Nat × Nat × E) :
    (g.addEdge e).nodes = g.nodes := by
  unfold addEdge; split <;> rfl

theorem addEdge_assoc (g : MappingGraph W K E) (e : Nat × Nat × E) :
    (g.addEdge e).assoc = g.assoc := by
  unfold addEdge; split <;> rfl

theorem addEdge_freshIdx (g : MappingGraph W K E) (e : Nat × Nat × E) :
    (g.addEdge e).freshIdx = g.freshIdx := by
  unfold addEdge; split <;> rfl

theorem mem_addEdge (g : MappingGraph W K E) (e e' : Nat × Nat × E) :
    e' ∈ (g.addEdge e).edges ↔ e' ∈ g.edges ∨ e' = e := by
  unfold addEdge
  split
  · rename_i h
    constructor
    · exact Or.inl
    · rintro (h' | rfl); exacts [h', h]
  · simp

theorem foldl_addEdge_mem (L : List (Nat × Nat × E)) (mk : Nat × Nat × E → Nat × Nat × E)
    (h : MappingGraph W K E) (e : Nat × Nat × E) :
    e ∈ (L.foldl (fun g x => g.addEdge (mk x)) h).edges ↔
      e ∈ h.edges ∨ ∃ x ∈ L, e = mk x := by
  induction L generalizing h with
  | nil => simp
  | cons a L ih =>
    rw [List.foldl_cons, ih, mem_addEdge]
    constructor
    · rintro ((h' | rfl) | ⟨x, hx, rfl⟩)
      · exact Or.inl h'
      · exact Or.inr ⟨a, by simp⟩
      · exact Or.inr ⟨x, by simp [hx]⟩
    · rintro (h' | ⟨x, hx, rfl⟩)
      · exact Or.inl (Or.inl h')
      · rcases List.mem_cons.1 hx with rfl | hx
        · exact Or.inl (Or.inr rfl)
        · exact Or.inr ⟨x, hx, rfl⟩

theorem foldl_addEdge_nodes (L : List (Nat × Nat × E)) (mk : Nat × Nat × E → Nat × Nat × E)
    (h : MappingGraph W K E) :
    (L.foldl (fun g x => g.addEdge (mk x)) h).nodes = h.nodes := by
  induction L generalizing h with
  | nil => rfl
  | cons a L ih => rw [List.foldl_cons, ih, addEdge_nodes]

theorem foldl_addEdge_assoc (L : List (Nat × Nat × E)) (mk : Nat × Nat × E → Nat × Nat × E)
    (h : MappingGraph W K E) :
    (L.foldl (fun g x => g.addEdge (mk x)) h).assoc = h.assoc := by
  induction L generalizing h with
  | nil => rfl
  | cons a L ih => rw [List.foldl_cons, ih, addEdge_assoc]

theorem foldl_addEdge_freshIdx (L : List (Nat × Nat × E)) (mk : Nat × Nat × E → Nat × Nat × E)
    (h : MappingGraph W K E) :
    (L.foldl (fun g x => g.addEdge (mk x)) h).freshIdx = h.freshIdx := by
  induction L generalizing h with
  | nil => rfl
  | cons a L ih => rw [List.foldl_cons, ih, addEdge_freshIdx]

theorem mem_copyEdges (g : MappingGraph W K E) (sel : Nat × Nat × E → Bool)
    (mk : Nat × Nat × E → Nat × Nat × E) (e : Nat × Nat × E) :
    e ∈ (g.copyEdges sel mk).edges ↔
      e ∈ g.edges ∨ ∃ x ∈ g.edges, sel x ∧ e = mk x := by
  unfold copyEdges
  rw [foldl_addEdge_mem]
  simp only [List.mem_filter]
  constructor
  · rintro (h' | ⟨x, ⟨hx, hsel⟩, rfl⟩)
    · exact Or.inl h'
    · exact Or.inr ⟨x, hx, hsel, rfl⟩
  · rintro (h' | ⟨x, hx, hsel, rfl⟩)
    · exact Or.inl h'
    · exact Or.inr ⟨x, ⟨hx, hsel⟩, rfl⟩

theorem copyEdges_nodes (g : MappingGraph W K E) (sel : Nat × Nat × E → Bool)
    (mk : Nat × Nat × E → Nat × Nat × E) : (g.copyEdges sel mk).nodes = g.nodes :=
  foldl_addEdge_nodes _ _ _

theorem copyEdges_assoc (g : MappingGraph W K E) (sel : Nat × Nat × E → Bool)
    (mk : Nat × Nat × E → Nat × Nat × E) : (g.copyEdges sel mk).assoc = g.assoc :=
  foldl_addEdge_assoc _ _ _

theorem copyEdges_freshIdx (g : MappingGraph W K E) (sel : Nat × Nat × E → Bool)
    (mk : Nat × Nat × E → Nat × Nat × E) : (g.copyEdges sel mk).freshIdx = g.freshIdx :=
  foldl_addEdge_freshIdx _ _ _

/-! ### Characterizing the edge set produced by `merge_nodes`

The four copy loops substitute merged endpoints for the fresh node step by
step.  `subIn allowed n a x` says `x` is either the original endpoint `a`
or, when `a` is one of the endpoints already substituted (`allowed`), the
fresh node `n`. -/

/-- Endpoint substitution relation for the intermediate states of
`merge_nodes`. -/
def subIn (allowed : List Nat) (n a x : Nat) : Prop :=
  x = a ∨ (a ∈ allowed ∧ x = n)

theorem subIn_mono {allowed allowed' : List Nat} (hsub : ∀ b ∈ allowed, b ∈ allowed')
    {n a x : Nat} (h : subIn allowed n a x) : subIn allowed' n a x := by
  rcases h with h | ⟨h1, h2⟩
  · exact Or.inl h
  · exact Or.inr ⟨hsub _ h1, h2⟩

/-- The invariant each copy loop preserves: every edge of the current graph
is an endpoint substitution of some original edge. -/
def edgeChar (E0 : List (Nat × Nat × E)) (S D : List Nat) (n : Nat)
    (Ecur : List (Nat × Nat × E)) : Prop :=
  ∀ e : Nat × Nat × E,
    e ∈ Ecur ↔ ∃ a b w, (a, b, w) ∈ E0 ∧ subIn S n a e.1 ∧ subIn D n b e.2.1 ∧ e.2.2 = w

/-- A source-copy loop (`edges_directed(c, Outgoing)` re-homed onto `n`)
extends the source substitution set by `c`. -/
theorem edgeChar_srcStep {E0 : List (Nat × Nat × E)} {S D : List Nat} {n c : Nat}
    (hc : c ≠ n) (g : MappingGraph W K E) (hchar : edgeChar E0 S D n g.edges) :
    edgeChar E0 (c :: S) D n
      (g.copyEdges (fun e => e.1 = c) (fun e => (n, e.2.1, e.2.2))).edges := by
  intro e
  rw [mem_copyEdges]
  constructor
  · rintro (he | ⟨x, hx, hsel, rfl⟩)
    · obtain ⟨a, b, w, hmem, hs, hd, hw⟩ := (hchar e).1 he
      exact ⟨a, b, w, hmem, subIn_mono (fun b hb => List.mem_cons_of_mem _ hb) hs, hd, hw⟩
    · obtain ⟨a, b, w, hmem, hs, hd, hw⟩ := (hchar x).1 hx
      have hxc : x.1 = c := by simpa using hsel
      have hac : a = c := by
        rcases hs with hs | ⟨_, hs⟩
        · rw [← hs, hxc]
        · exact absurd (show c = n by rw [← hxc]; exact hs) hc
      exact ⟨a, b, w, hmem, Or.inr ⟨by simp [hac], rfl⟩, hd, hw⟩
  · rintro ⟨a, b, w, hmem, hs, hd, hw⟩
    rcases hs with hs | ⟨hmemS, hs⟩
    · exact Or.inl ((hchar e).2 ⟨a, b, w, hmem, Or.inl hs, hd, hw⟩)
    · rcases List.mem_cons.1 hmemS with rfl | hmemS
      · -- the substituted source: route through the loop rule via (a, e.2.1, w)
        refine Or.inr ⟨(a, e.2.1, e.2.2), ?_, by simp, Prod.ext hs rfl⟩
        exact (hchar (a, e.2.1, e.2.2)).2 ⟨a, b, w, hmem, Or.inl rfl, hd, hw⟩
      · exact Or.inl ((hchar e).2 ⟨a, b, w, hmem, Or.inr ⟨hmemS, hs⟩, hd, hw⟩)

/-- A target-copy loop (`edges_directed(c, Incoming)` re-homed onto `n`)
extends the target substitution set by `c`. -/
theorem edgeChar_dstStep {E0 : List (Nat × Nat × E)} {S D : List Nat} {n c : Nat}
    (hc : c ≠ n) (g : MappingGraph W K E) (hchar : edgeChar E0 S D n g.edges) :
    edgeChar E0 S (c :: D) n
      (g.copyEdges (fun e => e.2.1 = c) (fun e => (e.1, n, e.2.2))).edges := by
  intro e
  rw [mem_copyEdges]
  constructor
  · rintro (he | ⟨x, hx, hsel, rfl⟩)
    · obtain ⟨a, b, w, hmem, hs, hd, hw⟩ := (hchar e).1 he
      exact ⟨a, b, w, hmem, hs, subIn_mono (fun b hb => List.mem_cons_of_mem _ hb) hd, hw⟩
    · obtain ⟨a, b, w, hmem, hs, hd, hw⟩ := (hchar x).1 hx
      have hxc : x.2.1 = c := by simpa using hsel
      have hbc : b = c := by
        rcases hd with hd | ⟨_, hd⟩
        · rw [← hd, hxc]
        · exact absurd (show c = n by rw [← hxc]; exact hd) hc
      exact ⟨a, b, w, hmem, hs, Or.inr ⟨by simp [hbc], rfl⟩, hw⟩
  · rintro ⟨a, b, w, hmem, hs, hd, hw⟩
    rcases hd with hd | ⟨hmemD, hd⟩
    · exact Or.inl ((hchar e).2 ⟨a, b, w, hmem, hs, Or.inl hd, hw⟩)
    · rcases List.mem_cons.1 hmemD with rfl | hmemD
      · refine Or.inr ⟨(e.1, b, e.2.2), ?_, by simp, Prod.ext rfl (Prod.ext hd rfl)⟩
        exact (hchar (e.1, b, e.2.2)).2 ⟨a, b, w, hmem, hs, Or.inl rfl, hw⟩
      · exact Or.inl ((hchar e).2 ⟨a, b, w, hmem, hs, Or.inr ⟨hmemD, hd⟩, hw⟩)

/-- The endpoint substitution an accomplished merge applies: both merged
nodes become the fresh node, all other endpoints are unchanged. -/
def mergeSubst (fst snd newIdx x : Nat) : Nat :=
  if x = fst ∨ x = snd then newIdx else x

end MappingGraph

theorem alookup_filter_keyne {α : Type} [DecidableEq α] {W : Type}
    (l : List (α × W)) (i k : α) :
    alookup (l.filter (fun p => p.1 ≠ i)) k =
      if k = i then none else alookup l k := by
  induction l with
  | nil => simp [alookup_nil]
  | cons p l ih =>
    by_cases hpi : p.1 = i
    · rw [List.filter_cons_of_neg (by simp [hpi]), ih]
      by_cases hki : k = i
      · simp [hki]
      · rw [if_neg hki, if_neg hki, alookup_cons,
          if_neg (show ¬(p.1 = k) by rw [hpi]; exact fun h => hki h.symm)]
    · rw [List.filter_cons_of_pos (by simp [hpi]), alookup_cons, alookup_cons]
      by_cases hpk : p.1 = k
      · rw [if_pos hpk, if_neg (show ¬(k = i) from fun h => hpi (hpk.trans h)),
          if_pos hpk]
      · rw [if_neg hpk, if_neg hpk, ih]

theorem alookup_map_keyfix {κ α β : Type} [DecidableEq κ]
    (l : List (κ × α)) (f : κ × α → κ × β) (hf : ∀ p, (f p).1 = p.1) (k : κ) :
    alookup (l.map f) k = (l.find? (fun p => p.1 = k)).map (fun p => (f p).2) := by
  induction l with
  | nil => simp [alookup_nil]
  | cons p l ih =>
    rw [List.map_cons, alookup_cons]
    by_cases h : p.1 = k
    · rw [if_pos (by rw [hf]; exact h), List.find?_cons_of_pos _ (by simp [h]), Option.map_some']
    · rw [if_neg (by rw [hf]; exact h), List.find?_cons_of_neg _ (by simp [h]), ih]

namespace MappingGraph

variable {W K E : Type} [DecidableEq K] [DecidableEq E] [DecidableEq W]

/-- The state of `merge_nodes` in its both-keys-exist case after
fresh-node insertion, key re-homing, the four edge-copy loops, and the two
graph-level removals, spelled out flat for reasoning. -/
def mergedCore (op : W → W → W) (g : MappingGraph W K E) (fst snd : Nat) (w1 w2 : W) :
    MappingGraph W K E :=
  (((((({ g with
      nodes := g.nodes ++ [(g.freshIdx, op w1 w2)]
      assoc := g.assoc.map
        (fun p => if p.2 = fst ∨ p.2 = snd then (p.1, g.freshIdx) else p)
      freshIdx := g.freshIdx + 1 } : MappingGraph W K E).copyEdges
        (fun e => e.1 = fst) (fun e => (g.freshIdx, e.2.1, e.2.2))).copyEdges
        (fun e => e.2.1 = fst) (fun e => (e.1, g.freshIdx, e.2.2))).copyEdges
        (fun e => e.1 = snd) (fun e => (g.freshIdx, e.2.1, e.2.2))).copyEdges
        (fun e => e.2.1 = snd) (fun e => (e.1, g.freshIdx, e.2.2))).removeGraphNode
        fst).removeGraphNode snd

theorem mergeNodes_both_def (op : W → W → W) (g : MappingGraph W K E) (k1 k2 : K)
    {fst snd : Nat} {w1 w2 : W}
    (h1 : g.getNode k1 = some fst) (h2 : g.getNode k2 = some snd) (hne : fst ≠ snd)
    (hw1 : g.weightAt fst = some w1) (hw2 : g.weightAt snd = some w2) :
    mergeNodes op g k1 k2 = mergedCore op g fst snd w1 w2 := by
  unfold mergeNodes mergedCore
  rw [h1, h2]
  dsimp only
  rw [if_neg hne, hw1, hw2]

/-- The trivial substitution characterization of the original edge set. -/
theorem edgeChar_refl (E0 : List (Nat × Nat × E)) (n : Nat) : edgeChar E0 [] [] n E0 := by
  intro e'
  constructor
  · intro he
    exact ⟨e'.1, e'.2.1, e'.2.2, he, Or.inl rfl, Or.inl rfl, rfl⟩
  · rintro ⟨a, b, w, hmem, hs | ⟨h, _⟩, hd | ⟨h', _⟩, hw⟩
    · have : e' = (a, b, w) := Prod.ext hs (Prod.ext hd hw)
      rw [this]; exact hmem
    · simp at h'
    · simp at h
    · simp at h

theorem mem_removeGraphNode (g : MappingGraph W K E) (i : Nat) (e : Nat × Nat × E) :
    e ∈ (g.removeGraphNode i).edges ↔ e ∈ g.edges ∧ e.1 ≠ i ∧ e.2.1 ≠ i := by
  simp only [removeGraphNode, List.mem_filter, decide_eq_true_eq, Bool.decide_and,
    Bool.and_eq_true]

/-- After a both-keys merge, the edge set is exactly the image of the old
edge set under endpoint substitution: every incoming and outgoing edge of
both old nodes (including edges running between them, which become
self-loops) is re-homed onto the fresh node, deduplicated. -/
theorem mergeNodes_both_edges (op : W → W → W) (g : MappingGraph W K E) (k1 k2 : K)
    {fst snd : Nat} {w1 w2 : W}
    (h1 : g.getNode k1 = some fst) (h2 : g.getNode k2 = some snd) (hne : fst ≠ snd)
    (hw1 : g.weightAt fst = some w1) (hw2 : g.weightAt snd = some w2)
    (hf1 : fst ≠ g.freshIdx) (hf2 : snd ≠ g.freshIdx) :
    ∀ e : Nat × Nat × E, e ∈ (MappingGraph.mergeNodes op g k1 k2).edges ↔
      ∃ a b w, (a, b, w) ∈ g.edges ∧
        e = (mergeSubst fst snd g.freshIdx a, mergeSubst fst snd g.freshIdx b, w) := by
  intro e
  rw [mergeNodes_both_def op g k1 k2 h1 h2 hne hw1 hw2]
  unfold mergedCore
  have char1 := edgeChar_srcStep (c := fst) (g := { g with
      nodes := g.nodes ++ [(g.freshIdx, op w1 w2)]
      assoc := g.assoc.map
        (fun p => if p.2 = fst ∨ p.2 = snd then (p.1, g.freshIdx) else p)
      freshIdx := g.freshIdx + 1 }) hf1 (edgeChar_refl g.edges g.freshIdx)
  have char2 := edgeChar_dstStep (c := fst) hf1 _ char1
  have char3 := edgeChar_srcStep (c := snd) hf2 _ char2
  have char4 := edgeChar_dstStep (c := snd) hf2 _ char3
  rw [mem_removeGraphNode, mem_removeGraphNode, char4 e]
  constructor
  · rintro ⟨⟨⟨a, b, w, hmem, hs, hd, hw⟩, hs2, hd2⟩, hs1, hd1⟩
    refine ⟨a, b, w, hmem, ?_⟩
    have hsa : e.1 = mergeSubst fst snd g.freshIdx a := by
      rcases hs with hs | ⟨hin, hs⟩
      · have hna : ¬(a = fst ∨ a = snd) := by
          rintro (rfl | rfl)
          · exact hs2 hs
          · exact hs1 hs
        rw [hs, mergeSubst, if_neg hna]
      · have hpa : a = fst ∨ a = snd := by
          rcases List.mem_cons.1 hin with rfl | hin
          · exact Or.inr rfl
          · rcases List.mem_cons.1 hin with rfl | hin
            · exact Or.inl rfl
            · simp at hin
        rw [hs, mergeSubst, if_pos hpa]
    have hdb : e.2.1 = mergeSubst fst snd g.freshIdx b := by
      rcases hd with hd | ⟨hin, hd⟩
      · have hnb : ¬(b = fst ∨ b = snd) := by
          rintro (rfl | rfl)
          · exact hd2 hd
          · exact hd1 hd
        rw [hd, mergeSubst, if_neg hnb]
      · have hpb : b = fst ∨ b = snd := by
          rcases List.mem_cons.1 hin with rfl | hin
          · exact Or.inr rfl
          · rcases List.mem_cons.1 hin with rfl | hin
            · exact Or.inl rfl
            · simp at hin
        rw [hd, mergeSubst, if_pos hpb]
    exact Prod.ext hsa (Prod.ext hdb hw)
  · rintro ⟨a, b, w, hmem, rfl⟩
    have hsub : ∀ x : Nat, mergeSubst fst snd g.freshIdx x ≠ fst ∧
        mergeSubst fst snd g.freshIdx x ≠ snd ∧
        subIn [snd, fst] g.freshIdx x (mergeSubst fst snd g.freshIdx x) := by
      intro x
      unfold mergeSubst
      by_cases hx : x = fst ∨ x = snd
      · rw [if_pos hx]
        refine ⟨fun h => hf1 h.symm, fun h => hf2 h.symm, Or.inr ⟨?_, rfl⟩⟩
        rcases hx with rfl | rfl
        · exact List.mem_cons_of_mem _ (by simp)
        · simp
      · rw [if_neg hx]
        push_neg at hx
        exact ⟨hx.1, hx.2, Or.inl rfl⟩
    obtain ⟨hafst, hasnd, hsubA⟩ := hsub a
    obtain ⟨hbfst, hbsnd, hsubB⟩ := hsub b
    exact ⟨⟨⟨a, b, w, hmem, hsubA, hsubB, rfl⟩, hafst, hbfst⟩, hasnd, hbsnd⟩

theorem removeGraphNode_assoc (g : MappingGraph W K E) (i : Nat) :
    (g.removeGraphNode i).assoc = g.assoc := rfl

theorem removeGraphNode_nodes (g : MappingGraph W K E) (i : Nat) :
    (g.removeGraphNode i).nodes = g.nodes.filter (fun p => p.1 ≠ i) := rfl

theorem mergedCore_assoc (op : W → W → W) (g : MappingGraph W K E)
    (fst snd : Nat) (w1 w2 : W) :
    (mergedCore op g fst snd w1 w2).assoc = g.assoc.map
      (fun p => if p.2 = fst ∨ p.2 = snd then (p.1, g.freshIdx) else p) := by
  unfold mergedCore
  rw [removeGraphNode_assoc, removeGraphNode_assoc, copyEdges_assoc, copyEdges_assoc,
    copyEdges_assoc, copyEdges_assoc]

theorem mergedCore_nodes (op : W → W → W) (g : MappingGraph W K E)
    (fst snd : Nat) (w1 w2 : W) :
    (mergedCore op g fst snd w1 w2).nodes =
      ((g.nodes ++ [(g.freshIdx, op w1 w2)]).filter
        (fun p => p.1 ≠ fst)).filter (fun p => p.1 ≠ snd) := by
  unfold mergedCore
  rw [removeGraphNode_nodes, removeGraphNode_nodes, copyEdges_nodes, copyEdges_nodes,
    copyEdges_nodes, copyEdges_nodes]

/-- After a both-keys merge every key previously mapping to either merged
node maps to the fresh node and all other keys are untouched. -/
theorem mergeNodes_both_getNode (op : W → W → W) (g : MappingGraph W K E) (k1 k2 : K)
    {fst snd : Nat} {w1 w2 : W}
    (h1 : g.getNode k1 = some fst) (h2 : g.getNode k2 = some snd) (hne : fst ≠ snd)
    (hw1 : g.weightAt fst = some w1) (hw2 : g.weightAt snd = some w2) :
    ∀ k : K, (MappingGraph.mergeNodes op g k1 k2).getNode k =
      (g.getNode k).map (mergeSubst fst snd g.freshIdx) := by
  intro k
  rw [mergeNodes_both_def op g k1 k2 h1 h2 hne hw1 hw2]
  unfold getNode
  rw [mergedCore_assoc]
  rw [alookup_map_keyfix _ _
    (fun p => by by_cases h : p.2 = fst ∨ p.2 = snd <;> simp [h])]
  show _ = (alookup g.assoc k).map (mergeSubst fst snd g.freshIdx)
  unfold alookup
  cases hfind : g.assoc.find? (fun p => p.1 = k) with
  | none => rfl
  | some p =>
    dsimp only [Option.map_some']
    congr 1
    unfold mergeSubst
    split <;> rfl

/-- After a both-keys merge the fresh node carries the magma-merge of the
old weights; the two old nodes are gone; all other nodes are untouched. -/
theorem mergeNodes_both_weightAt (op : W → W → W) (g : MappingGraph W K E) (k1 k2 : K)
    {fst snd : Nat} {w1 w2 : W}
    (h1 : g.getNode k1 = some fst) (h2 : g.getNode k2 = some snd) (hne : fst ≠ snd)
    (hw1 : g.weightAt fst = some w1) (hw2 : g.weightAt snd = some w2)
    (hfresh : g.weightAt g.freshIdx = none)
    (hf1 : fst ≠ g.freshIdx) (hf2 : snd ≠ g.freshIdx) :
    ∀ i : Nat, (MappingGraph.mergeNodes op g k1 k2).weightAt i =
      if i = g.freshIdx then some (op w1 w2)
      else if i = fst ∨ i = snd then none
      else g.weightAt i := by
  intro i
  rw [mergeNodes_both_def op g k1 k2 h1 h2 hne hw1 hw2]
  unfold weightAt
  rw [mergedCore_nodes, alookup_filter_keyne, alookup_filter_keyne]
  by_cases hisnd : i = snd
  · subst hisnd
    rw [if_pos rfl, if_neg hf2, if_pos (Or.inr rfl)]
  · rw [if_neg hisnd]
    by_cases hifst : i = fst
    · subst hifst
      rw [if_pos rfl, if_neg hf1, if_pos (Or.inl rfl)]
    · rw [if_neg hifst, alookup_append]
      by_cases hin : i = g.freshIdx
      · subst hin
        rw [if_pos rfl, show alookup g.nodes g.freshIdx = none from hfresh,
          alookup_cons, if_pos rfl]
        rfl
      · rw [if_neg hin, if_neg (fun h => hin (by tauto))]
        cases halk : alookup g.nodes i with
        | none =>
          simp only [Option.none_or]
          rw [alookup_cons, if_neg (fun h : g.freshIdx = i => hin h.symm), alookup_nil]
        | some w => rfl

/-- `merge_nodes` when only the second key exists: the first key is
registered as an additional key of the existing node; nothing else changes. -/
theorem mergeNodes_left_missing (op : W → W → W) (g : MappingGraph W K E) (k1 k2 : K)
    {x : Nat} (h1 : g.getNode k1 = none) (h2 : g.getNode k2 = some x) :
    mergeNodes op g k1 k2 = { g with assoc := g.assoc ++ [(k1, x)] } := by
  unfold mergeNodes
  rw [h1, h2]

/-- `merge_nodes` when only the first key exists. -/
theorem mergeNodes_right_missing (op : W → W → W) (g : MappingGraph W K E) (k1 k2 : K)
    {x : Nat} (h1 : g.getNode k1 = some x) (h2 : g.getNode k2 = none) :
    mergeNodes op g k1 k2 = { g with assoc := g.assoc ++ [(k2, x)] } := by
  unfold mergeNodes
  rw [h1, h2]

/-- `merge_nodes` when neither key exists: a no-op. -/
theorem mergeNodes_none (op : W → W → W) (g : MappingGraph W K E) (k1 k2 : K)
    (h1 : g.getNode k1 = none) (h2 : g.getNode k2 = none) :
    mergeNodes op g k1 k2 = g := by
  unfold mergeNodes
  rw [h1, h2]

theorem addEdge_nodup (g : MappingGraph W K E) (e : Nat × Nat × E)
    (h : g.edges.Nodup) : (g.addEdge e).edges.Nodup := by
  unfold addEdge
  split
  · exact h
  · rename_i hmem
    simpa [List.nodup_append] using ⟨h, hmem⟩

theorem foldl_addEdge_nodup (L : List (Nat × Nat × E)) (mk : Nat × Nat × E → Nat × Nat × E)
    (h : MappingGraph W K E) (hn : h.edges.Nodup) :
    (L.foldl (fun g x => g.addEdge (mk x)) h).edges.Nodup := by
  induction L generalizing h with
  | nil => exact hn
  | cons a L ih => exact ih _ (addEdge_nodup _ _ hn)

/-- `merge_nodes` never introduces a duplicate parallel edge: if no two
equal `(source, target, label)` triples existed before, none exist after. -/
theorem mergeNodes_edges_nodup (op : W → W → W) (g : MappingGraph W K E) (k1 k2 : K)
    (h : g.edges.Nodup) : (MappingGraph.mergeNodes op g k1 k2).edges.Nodup := by
  unfold mergeNodes
  split
  · exact h
  · exact h
  · exact h
  · split
    · exact h
    · split
      · dsimp only
        exact List.Nodup.filter _ (List.Nodup.filter _
          (foldl_addEdge_nodup _ _ _ (foldl_addEdge_nodup _ _ _
            (foldl_addEdge_nodup _ _ _ (foldl_addEdge_nodup _ _ _ h)))))
      · exact h

end MappingGraph

/-! ## Reachability, path exploration and path lookup

`get_reachable_idxs` runs a petgraph `Dfs`; `explore_paths` and `find_node`
live in `graph_algos/mod.rs`, which is outside the verified tree, so they
are modelled from the spec (§4.3): `explore_paths` enumerates every
forward-reachable node once, together with the sequence of edge weights of
the path by which it was first discovered (breadth-first here — the spec
fixes only that one label path from the key is recorded per node);
`find_node` follows a label path from a start node, taking the first edge
that carries the wanted label. -/

/-- Keep the first recorded path per node. -/
def dedupByNodeAux {σ E : Type} [DecidableEq σ] (seen : List σ) :
    List (List E × σ) → List (List E × σ)
  | [] => []
  | p :: l =>
    if p.2 ∈ seen then dedupByNodeAux seen l
    else p :: dedupByNodeAux (p.2 :: seen) l

/-- Breadth-first levels: emit the newly discovered `(path, node)` pairs of
each level, then expand along outgoing edges. -/
def exploreLevels {σ E : Type} [DecidableEq σ] (edges : List (σ × σ × E)) :
    Nat → List (List E × σ) → List σ → List (List E × σ)
  | 0, _, _ => []
  | fuel + 1, frontier, visited =>
    let freshP := dedupByNodeAux visited (frontier.filter (fun p => p.2 ∉ visited))
    if freshP.isEmpty then []
    else
      freshP ++ exploreLevels edges fuel
        (freshP.flatMap (fun p =>
          (edges.filter (fun e => e.1 = p.2)).map (fun e => (p.1 ++ [e.2.2], e.2.1))))
        (visited ++ freshP.map (fun p => p.2))

/-- Modelled from the spec: `graph_algos::explore_paths`
(`graph_algos/mod.rs`, not under the verified tree) — all `(label path,
node)` pairs forward-reachable from the start, one path per node.  The fuel
`edges.length + 2` exceeds the number of breadth-first levels (each level
visits at least one new edge target). -/
def explorePaths {σ E : Type} [DecidableEq σ] (edges : List (σ × σ × E)) (start : σ) :
    List (List E × σ) :=
  exploreLevels edges (edges.length + 2) [([], start)] []

/-- `get_reachable_idxs`: the forward-reachable node set (the source runs a
petgraph `Dfs`; the embedding reuses the breadth-first enumeration, which
computes the same set of nodes). -/
def MappingGraph.getReachableIdxs {W K E : Type} [DecidableEq K] [DecidableEq E]
    (g : MappingGraph W K E) (start : Nat) : List Nat :=
  (explorePaths g.edges start).map (fun p => p.2)

/-- Modelled from the spec: `graph_algos::find_node` (`graph_algos/mod.rs`,
not under the verified tree) — follow a label path from a node, stepping
along the first outgoing edge carrying each label. -/
def findNode {σ E : Type} [DecidableEq σ] [DecidableEq E]
    (edges : List (σ × σ × E)) : σ → List E → Option σ
  | n, [] => some n
  | n, l :: p =>
    match (edges.filter (fun e => e.1 = n ∧ e.2.2 = l)).head? with
    | none => none
    | some e => findNode edges e.2.1 p

/-! ## Monotone reachability closure (used for the DFA products) -/

/-- One closure step: targets of edges leaving the current set that are not
yet in it. -/
def stepSuccs {σ E : Type} [DecidableEq σ] (edges : List (σ × σ × E)) (S : List σ) :
    List σ :=
  ((edges.filter (fun e => e.1 ∈ S)).map (fun e => e.2.1)).filter (fun x => x ∉ S)

/-- Iterated closure with fuel. -/
def reachExpand {σ E : Type} [DecidableEq σ] (edges : List (σ × σ × E)) :
    Nat → List σ → List σ
  | 0, S => S
  | fuel + 1, S =>
    let add := dedupFirst (stepSuccs edges S)
    if add.isEmpty then S else reachExpand edges fuel (S ++ add)

/-- The forward-reachable state set from a start state. -/
def reachableStates {σ E : Type} [DecidableEq σ] (edges : List (σ × σ × E)) (s : σ) :
    List σ :=
  reachExpand edges (edges.length + 1) [s]

/-! ## The quotient graph (`quoetient_graph`, `src/graph_algos/mapping_graph.rs`) -/

namespace MappingGraph

variable {W K E : Type} [DecidableEq K] [DecidableEq E] [DecidableEq W]

/-- The magma-reduce of a group's weights, in group order (`reduce` over
`grp.iter()`); `none` when a member has no weight (the source would panic)
or the group is empty. -/
def groupWeight (op : W → W → W) (g : MappingGraph W K E) (grp : List Nat) : Option W :=
  match grp.mapM (fun i => g.weightAt i) with
  | none => none
  | some [] => none
  | some (w :: ws) => some (ws.foldl op w)

/-- The new node index of the group containing an old index: its position
among the (nonempty) groups, matching the insertion order of
`group_to_new_node`. -/
def reprIdxOf (gs : List (List Nat)) (i : Nat) : Option Nat :=
  gs.findIdx? (fun grp => i ∈ grp)

/-- `quoetient_graph(groups)`: one node per nonempty group (weight =
magma-reduce of members), edges re-pointed at group representatives and
deduplicated by the `eset` membership check, the key map following the
partition.  `none` models the source's `unwrap` panics when a node with an
edge or key lies in no group, or a group member has no weight. -/
def quoetientGraph (op : W → W → W) (g : MappingGraph W K E)
    (groups : List (List Nat)) : Option (MappingGraph W K E) :=
  let gs := groups.filter (fun grp => ¬grp.isEmpty)
  match gs.mapM (groupWeight op g),
      g.edges.mapM (fun e =>
        (reprIdxOf gs e.1).bind (fun rs =>
          (reprIdxOf gs e.2.1).map (fun rd => (rs, rd, e.2.2)))),
      g.assoc.mapM (fun p => (reprIdxOf gs p.2).map (fun r => (p.1, r))) with
  | some ws, some es, some asc =>
    some { nodes := (List.range gs.length).zip ws, edges := dedupFirst es,
           assoc := asc, freshIdx := gs.length }
  | _, _, _ => none

end MappingGraph

/-! ## `replace_node` (`src/graph_algos/mapping_graph.rs`) -/

/-- `BTreeMap::entry(k).or_insert(v)` on an association list: insert only
when the key is absent. -/
def orInsertAssoc {K : Type} [DecidableEq K] (l : List (K × Nat)) (k : K) (v : Nat) :
    List (K × Nat) :=
  if (alookup l k).isSome then l else l ++ [(k, v)]

namespace MappingGraph

variable {W K E : Type} [DecidableEq K] [DecidableEq E] [DecidableEq W]

/-- The new index given to an inserted node of the replacement graph: fresh
indices in the order of the replacement's node table (the source allocates
them lazily through `old_idx_to_new_idx_mapping`; the choice of order only
renames the fresh indices). -/
def newIdxOf (g repl : MappingGraph W K E) (old : Nat) : Option Nat :=
  ((repl.nodes.map (fun p => p.1)).findIdx? (fun x => x = old)).map
    (fun j => g.freshIdx + j)

/-- Step 1 of `replace_node`: the recorded outside edges, as
`(weight, outside source, label path from the key's node to the target)`. -/
def recordedEdges (g : MappingGraph W K E) (origIdx : Nat) : List (E × Nat × List E) :=
  (explorePaths g.edges origIdx).flatMap (fun pr =>
    (g.edges.filter (fun e => e.2.1 = pr.2 ∧ e.1 ∉ g.getReachableIdxs origIdx)).map
      (fun e => (e.2.2, e.1, pr.1)))

/-- Step 2 of `replace_node`: old keys of removed nodes, paired with the
replacement node reached from the replacement's root by the recorded path
(dropped when none exists). -/
def recordedLabels (g repl : MappingGraph W K E) (origIdx rroot : Nat) :
    List (K × Nat) :=
  (explorePaths g.edges origIdx).flatMap (fun pr =>
    (g.keysOf pr.2).filterMap (fun k0 =>
      (findNode repl.edges rroot pr.1).map (fun t => (k0, t))))

/-- Step 3 of `replace_node`: remove every reachable node. -/
def removedGraph (g : MappingGraph W K E) (R : List Nat) : MappingGraph W K E :=
  R.foldl (fun h nd => h.removeNodeByIdx nd) g

/-- Step 5 of `replace_node`: the replacement's keys, re-pointed at the
fresh indices of their nodes. -/
def keyAddsOf (g repl : MappingGraph W K E) : List (K × Nat) :=
  repl.nodes.enum.flatMap (fun q =>
    (repl.keysOf q.2.1).map (fun k0 => (k0, g.freshIdx + q.1)))

/-- One step 6 re-attachment: follow the recorded path in the replacement;
lacking a node there, drop the edge; otherwise graph-level `add_edge` it
(the asserts are `none`). -/
def reattachStep (g repl : MappingGraph W K E) (rroot : Nat)
    (h : MappingGraph W K E) (tr : E × Nat × List E) : Option (MappingGraph W K E) :=
  match findNode repl.edges rroot tr.2.2 with
  | none => some h
  | some oldT =>
    match newIdxOf g repl oldT with
    | none => none
    | some nidx =>
      if tr.2.1 = nidx then none
      else some { h with edges := h.edges ++ [(tr.2.1, nidx, tr.1)] }

/-- The edges step 6 adds, when no assert fires. -/
def attachOf (g repl : MappingGraph W K E) (rroot : Nat)
    (L : List (E × Nat × List E)) : List (Nat × Nat × E) :=
  L.filterMap (fun tr =>
    (findNode repl.edges rroot tr.2.2).bind (fun t =>
      (newIdxOf g repl t).map (fun nt => (tr.2.1, nt, tr.1))))

/-- `replace_node(key, grph)`:

1. collect, over one path exploration from the key's node, every edge
   entering the reachable set `R` from outside, as
   `(weight, source, label path to its target)`;
2. collect every key labeling a node of `R` together with the node of the
   replacement graph reachable from the replacement's own node for `key`
   by the same label path (when one exists);
3. remove all nodes of `R` (with their keys and incident edges);
4. insert the replacement's nodes and internal edges under fresh indices;
5. relabel: surviving keys, then the replacement's keys (panic if one
   collides with a surviving key), then the collected old keys
   (`or_insert` — never overwriting);
6. re-attach each recorded outside edge to the inserted node reached by
   its recorded path from the replacement's root, dropping it when no such
   node exists (panic if the source equals the target's fresh index).

`none` models the panics. -/
def replaceNode (g : MappingGraph W K E) (key : K) (repl : MappingGraph W K E) :
    Option (MappingGraph W K E) :=
  match g.getNode key with
  | none => none
  | some origIdx =>
    match repl.getNode key with
    | none => none
    | some rroot =>
      let g1 := removedGraph g (g.getReachableIdxs origIdx)
      if repl.nodes.isEmpty then none
      else
        match repl.edges.mapM (fun e =>
            (newIdxOf g repl e.1).bind (fun s =>
              (newIdxOf g repl e.2.1).map (fun d => (s, d, e.2.2)))) with
        | none => none
        | some newEdges =>
          if (keyAddsOf g repl).any (fun p => (alookup g1.assoc p.1).isSome) then none
          else
            let lab2 := (recordedLabels g repl origIdx rroot).foldl (fun acc pr =>
              match newIdxOf g repl pr.2 with
              | some nidx => orInsertAssoc acc pr.1 nidx
              | none => acc) (g1.assoc ++ keyAddsOf g repl)
            let gPre : MappingGraph W K E :=
              { nodes := g1.nodes ++ repl.nodes.enum.map
                  (fun q => (g.freshIdx + q.1, q.2.2)),
                edges := g1.edges ++ newEdges,
                assoc := lab2,
                freshIdx := g.freshIdx + repl.nodes.length }
            (recordedEdges g origIdx).foldlM (reattachStep g repl rroot) gPre

end MappingGraph

/-! ## The quotient engine (`src/solver/type_sketch.rs`)

`generate_quotient_groups` unions nodes named equal by subtype constraints,
then closes under edge implications (equal labels, or the Load/Store
collapse: equal sources imply equal targets).  The union-find is modelled
by its labeling (`into_labeling`): a list assigning each node index its
class representative.  Rust `HashSet` iteration order is unspecified; the
embedding processes implications in the deterministic order of the edge
list's cartesian product. -/

/-- `EdgeImplication { eq, edge }`: equivalence of the `eq` pair implies
equivalence of the `edge` pair. -/
structure EdgeImplication : Type where
  eq : Nat × Nat
  edge : Nat × Nat
  deriving DecidableEq, Repr

/-- A union-find state as its labeling: entry `i` holds the class
representative of node `i`. -/
abbrev Labeling := List Nat

/-- The representative label of index `i`. -/
def labGet (L : Labeling) (i : Nat) : Nat := L.getD i i

/-- `UnionFind::union`: merge the class of `a` into the class of `b`. -/
def ufUnion (L : Labeling) (a b : Nat) : Labeling :=
  L.map (fun x => if x = labGet L a then labGet L b else x)

/-- `UnionFind::new(n)`: the discrete labeling on `0..n-1`. -/
def initLabeling (n : Nat) : Labeling := List.range n

/-- The number of equivalence classes of a labeling: the number of
distinct representatives. -/
def numClasses (L : Labeling) : Nat := L.toFinset.card

/-- `get_edge_set`: all ordered pairs of edges whose weights are equal or
form a Load→Store pair, as implications (`src/solver/type_sketch.rs`).
The `HashSet` is modelled as the first-occurrence-deduplicated list in
cartesian-product order. -/
def getEdgeSet {W K : Type} [DecidableEq K]
    (g : BTI.MappingGraph W K FieldLabel) : List EdgeImplication :=
  dedupFirst
    ((g.edges.flatMap (fun e1 => g.edges.map (fun e2 => (e1, e2)))).filterMap
      (fun q =>
        if q.1.2.2 = q.2.2.2 ∨ (q.1.2.2 = FieldLabel.load ∧ q.2.2.2 = FieldLabel.store)
        then some ⟨(q.1.1, q.2.1), (q.1.2.1, q.2.2.1)⟩ else none))

/-- `constraint_quotients`: start from the discrete union-find of size
`max_index + 1` and union the nodes of each subtype constraint's sides.
`none` models the panics on an empty graph or a constraint variable with no
node. -/
def constraintQuotients {W : Type} (g : BTI.MappingGraph W DerivedTypeVar FieldLabel)
    (cons : ConstraintSet) : Option Labeling :=
  match (g.nodes.map (fun p => p.1)).max? with
  | none => none
  | some mx =>
    let L0 := initLabeling (mx + 1)
    if cons.isEmpty then some L0
    else
      cons.foldlM (fun L c =>
        (g.getNode c.lhs).bind (fun lt =>
          (g.getNode c.rhs).map (fun gt => ufUnion L lt gt))) L0

/-- One pass of the fixpoint loop: process every pending implication in
order; an implication whose `eq` pair is currently equivalent is removed
and its `edge` pair unioned. -/
def sweepStep : List EdgeImplication → Labeling → List EdgeImplication × Labeling
  | [], L => ([], L)
  | im :: rest, L =>
    if labGet L im.eq.1 = labGet L im.eq.2 then
      sweepStep rest (ufUnion L im.edge.1 im.edge.2)
    else
      let p := sweepStep rest L
      (im :: p.1, p.2)

/-- The do-while loop of `generate_quotient_groups`: sweep until the
labeling stops changing.  Structural fuel; `pendingImplications.length + 1`
is enough (each continuing sweep removes at least one implication). -/
def quotientLoop : Nat → List EdgeImplication → Labeling →
    List EdgeImplication × Labeling
  | 0, EI, L => (EI, L)
  | fuel + 1, EI, L =>
    let p := sweepStep EI L
    if p.2 = L then p else quotientLoop fuel p.1 p.2

/-- `generate_quotient_groups`: constraint unions, edge-implication
closure, then the partition of the graph's node indices by final
representative.  Groups are ordered by smallest member — a canonical
determinization of the source's `HashMap::into_values` order. -/
def generateQuotientGroups {W : Type} (g : BTI.MappingGraph W DerivedTypeVar FieldLabel)
    (cons : ConstraintSet) : Option (List (List Nat)) :=
  (constraintQuotients g cons).map (fun L0 =>
    let EI := getEdgeSet g
    let Lf := (quotientLoop (EI.length + 1) EI L0).2
    let ids := (List.range L0.length).filter (fun i => (g.weightAt i).isSome)
    let reps := dedupFirst (ids.map (labGet Lf))
    reps.map (fun r => ids.filter (fun i => labGet Lf i = r)))

/-! ## The intermediate representation (external collaborator, spec §6.5)

The IR types come from the external `cwe_checker_lib` crate; the spec fixes
only the shape the constraint generator consumes, which is what is
modelled here. -/

/-- Modelled from the spec (§3): `Tid`, an opaque identifier with a
canonical string form. -/
structure Tid : Type where
  name : String
  deriving DecidableEq, Repr

/-- `Tid::get_str_repr`. -/
def Tid.getStrRepr (t : Tid) : String := t.name

/-- Modelled from the spec: an IR register variable with its byte size. -/
structure Variable : Type where
  name : String
  size : Nat
  deriving DecidableEq, Repr

/-- Modelled from the spec (§4.2): IR expressions — the generator only
distinguishes a direct register read from everything else (which it
handles by minting a fresh variable and warning). -/
inductive Expression : Type
  | var : Variable → Expression
  | unhandled : Nat → Nat → Expression
  deriving DecidableEq, Repr

/-- `Expression::bytesize`. -/
def Expression.bytesize : Expression → Nat
  | .var v => v.size
  | .unhandled _ sz => sz

/-- Modelled from the spec: an IR term with its `Tid`. -/
structure Term (α : Type) : Type where
  tid : Tid
  term : α
  deriving DecidableEq, Repr

/-- Modelled from the spec (§6.5): IR definitions. -/
inductive Def : Type
  | load : Variable → Expression → Def
  | store : Expression → Expression → Def
  | assign : Variable → Expression → Def
  deriving DecidableEq, Repr

/-- Modelled from the spec (§6.5): IR jumps — the generator only inspects
call jumps. -/
inductive Jmp : Type
  | call : Tid → Option Tid → Jmp
  | other : Jmp
  deriving DecidableEq, Repr

/-- Modelled from the spec (§6.5): an IR block. -/
structure Blk : Type where
  defs : List (Term Def)
  jmps : List (Term Jmp)
  deriving DecidableEq, Repr

/-- Modelled from the spec (§6.3): an argument specification — register
passed or stack passed. -/
inductive Arg : Type
  | register : Variable → Arg
  | stack : Nat → Arg
  deriving DecidableEq, Repr

/-- Modelled from the spec (§6.5): an IR subprocedure with formal argument
and return specifications. -/
structure Sub : Type where
  name : String
  formalArgs : List Arg
  formalRets : List Arg
  deriving DecidableEq, Repr

/-- Modelled from the spec (§4.2): the four ICFG node kinds of the
interprocedural CFG the generator walks. -/
inductive IcfgNode : Type
  | blkStart : Term Blk → Term Sub → IcfgNode
  | blkEnd : Term Blk → Term Sub → IcfgNode
  | callSource : (Term Blk × Term Sub) → (Term Blk × Term Sub) → IcfgNode
  | callReturn : (Term Blk × Term Sub) → (Term Blk × Term Sub) → IcfgNode

/-- A Rust panic (`panic!`, failed `expect`/`assert`). -/
inductive RustPanic : Type
  | panic
  deriving DecidableEq, Repr

/-- `TypeVariableAccess` (`src/constraint_generation/mod.rs`): an abstract
memory cell with access size (bytes) and optional constant offset. -/
structure TypeVariableAccess : Type where
  tyVar : TypeVariable
  sz : Nat
  offset : Option Int
  deriving DecidableEq, Repr

/-- `ArgTvar` (`src/constraint_generation/mod.rs`). -/
inductive ArgTvar : Type
  | memTvar : TypeVariableAccess → ArgTvar
  | variableTvar : TypeVariable → ArgTvar
  deriving DecidableEq, Repr

/-! ## Constraint generation (`src/constraint_generation/mod.rs`) -/

/-- `tid_indexed_by_variable`. -/
def tidIndexedByVariable (tid : Tid) (var : Variable) : TypeVariable :=
  TypeVariable.named (tid.getStrRepr ++ "_" ++ var.name) none

/-- `tid_to_tvar`. -/
def tidToTvar (tid : Tid) : TypeVariable := TypeVariable.named tid.getStrRepr none

/-- `term_to_tvar`. -/
def termToTvar {α : Type} (t : Term α) : TypeVariable := tidToTvar t.tid

/-- `arg_tvar`: the actual-argument type variable `arg_<sub>_<index>`. -/
def argTvar (index : Nat) (targetSub : Tid) : TypeVariable :=
  TypeVariable.named ("arg_" ++ targetSub.getStrRepr ++ "_" ++ toString index) none

/-- The three collaborator contracts of the generator (§6.1–6.3), as
capability functions; each may mint fresh variables, so it threads the
variable manager. -/
structure NodeContext : Type where
  regMap : Variable → VariableManager → TypeVariable × ConstraintSet × VariableManager
  pointsTo : Expression → Nat → VariableManager →
    List TypeVariableAccess × VariableManager
  subprocLoc : Arg → VariableManager →
    List ArgTvar × ConstraintSet × VariableManager

/-- `evaluate_expression`: a register read delegates to the register
mapping; any other expression warns and substitutes a fresh variable with
no constraints.  The fourth component collects warnings. -/
def evaluateExpression (ctx : NodeContext) (value : Expression)
    (vm : VariableManager) :
    TypeVariable × ConstraintSet × VariableManager × List String :=
  match value with
  | .var v =>
    let r := ctx.regMap v vm
    (r.1, r.2.1, r.2.2, [])
  | .unhandled _ _ =>
    let f := vmFresh vm
    (f.1, [], f.2, ["Unhandled expression"])

/-- `generate_expression_constraint`: evaluate and add `T_e ⊑ T_lhs`. -/
def generateExpressionConstraint (ctx : NodeContext) (lhsTypeVar : TypeVariable)
    (value : Expression) (vm : VariableManager) :
    ConstraintSet × VariableManager × List String :=
  let r := evaluateExpression ctx value vm
  (csInsert ⟨DerivedTypeVar.ofBase r.1, DerivedTypeVar.ofBase lhsTypeVar⟩ r.2.1,
    r.2.2.1, r.2.2.2)

/-- `apply_assign`. -/
def applyAssign (ctx : NodeContext) (tid : Tid) (var : Variable) (value : Expression)
    (vm : VariableManager) : ConstraintSet × VariableManager × List String :=
  generateExpressionConstraint ctx (tidIndexedByVariable tid var) value vm

/-- `make_mem_tvar`: `tv.<label>[.Field(offset, size_bits)]` with
`size_bits = access size in bytes * 8` appended exactly when the offset is
present. -/
def makeMemTvar (v : TypeVariableAccess) (label : FieldLabel) : DerivedTypeVar :=
  let d := (DerivedTypeVar.ofBase v.tyVar).addFieldLabel label
  match v.offset with
  | some off => d.addFieldLabel (FieldLabel.field off (v.sz * 8))
  | none => d

/-- `make_loaded_tvar`. -/
def makeLoadedTvar (v : TypeVariableAccess) : DerivedTypeVar :=
  makeMemTvar v FieldLabel.load

/-- `make_store_tvar`. -/
def makeStoreTvar (v : TypeVariableAccess) : DerivedTypeVar :=
  makeMemTvar v FieldLabel.store

/-- `Memop` (`src/constraint_generation/mod.rs`). -/
structure Memop : Type where
  sz : Nat
  addr : Expression
  regValue : TypeVariable
  regConstraints : ConstraintSet

/-- `Memop::apply_mem_op`: one constraint per points-to target, oriented
by `memop_is_upcasted` (memory ⊑ register for loads, register ⊑ memory for
stores), inserted into the incoming register constraints. -/
def Memop.applyMemOp (m : Memop) (pointsTo : Expression → Nat → VariableManager →
      List TypeVariableAccess × VariableManager)
    (vm : VariableManager) (makeTypeVar : TypeVariableAccess → DerivedTypeVar)
    (memopIsUpcasted : Bool) : ConstraintSet × VariableManager :=
  let pt := pointsTo m.addr m.sz vm
  let allDtvars := dedupFirst (pt.1.map makeTypeVar)
  let newCons := allDtvars.foldl (fun acc memopTvar =>
    let regTvar := DerivedTypeVar.ofBase m.regValue
    csInsert (if memopIsUpcasted then ⟨memopTvar, regTvar⟩ else ⟨regTvar, memopTvar⟩)
      acc) m.regConstraints
  (newCons, pt.2)

/-- `apply_load`. -/
def applyLoad (ctx : NodeContext) (tid : Tid) (vInto : Variable) (address : Expression)
    (vm : VariableManager) : ConstraintSet × VariableManager :=
  let memop : Memop :=
    { sz := vInto.size, addr := address,
      regValue := tidIndexedByVariable tid vInto, regConstraints := [] }
  memop.applyMemOp ctx.pointsTo vm makeLoadedTvar true

/-- `apply_store`. -/
def applyStore (ctx : NodeContext) (tid : Tid) (valueFrom : Expression)
    (addressInto : Expression) (vm : VariableManager) :
    ConstraintSet × VariableManager × List String :=
  let r := evaluateExpression ctx valueFrom vm
  let memop : Memop :=
    { sz := valueFrom.bytesize, addr := addressInto,
      regValue := r.1, regConstraints := r.2.1 }
  let s := memop.applyMemOp ctx.pointsTo r.2.2.1 makeStoreTvar false
  (s.1, s.2, r.2.2.2)

/-- `handle_def`. -/
def handleDef (ctx : NodeContext) (df : Term Def) (vm : VariableManager) :
    ConstraintSet × VariableManager × List String :=
  match df.term with
  | .load var address =>
    let r := applyLoad ctx df.tid var address vm
    (r.1, r.2, [])
  | .store address value => applyStore ctx df.tid value address vm
  | .assign var value => applyAssign ctx df.tid var value vm

/-- `handle_block_start`: process the block's definitions in program
order, unioning their constraint sets. -/
def handleBlockStart (ctx : NodeContext) (blk : Term Blk) (vm : VariableManager) :
    ConstraintSet × VariableManager × List String :=
  blk.term.defs.foldl (fun acc df =>
    let r := handleDef ctx df acc.2.1
    (csUnion r.1 acc.1, r.2.1, acc.2.2 ++ r.2.2)) ([], vm, [])

/-- `argtvar_to_dtv`. -/
def argtvarToDtv : ArgTvar → DerivedTypeVar
  | .variableTvar tv => DerivedTypeVar.ofBase tv
  | .memTvar tvAccess => makeLoadedTvar tvAccess

/-- `arg_to_constraints`. -/
def argToConstraints (ctx : NodeContext) (arg : Arg) (formal : DerivedTypeVar)
    (vm : VariableManager) (argIsSubtypeOfRepresentations : Bool) :
    ConstraintSet × VariableManager :=
  let r := ctx.subprocLoc arg vm
  (r.1.foldl (fun acc tvar =>
      csInsert
        (if argIsSubtypeOfRepresentations then ⟨formal, argtvarToDtv tvar⟩
         else ⟨argtvarToDtv tvar, formal⟩) acc) r.2.1,
    r.2.2)

/-- `create_actual_args`. -/
def createActualArgs (sz : Nat) (targetFunc : Term Sub) : List DerivedTypeVar :=
  (List.range sz).map (fun idx => DerivedTypeVar.ofBase (argTvar idx targetFunc.tid))

instance : Inhabited DerivedTypeVar :=
  ⟨DerivedTypeVar.ofBase (TypeVariable.named "" none)⟩

/-- `handle_function_args`: per index, form the formal
`sub.<label>(index)`, constrain it against the argument's type variables
and against the actual slot (`formal ⊑ actual`, the deliberate mangling of
`generate_formal_constraint`).  The `assert_eq!` on lengths is a panic. -/
def handleFunctionArgs (ctx : NodeContext) (targetFunc : Term Sub)
    (actualTypevars : List DerivedTypeVar) (args : List Arg) (vm : VariableManager)
    (indexToFieldLabel : Nat → FieldLabel) (argIsSubtypeOfRepresentations : Bool) :
    Except RustPanic (ConstraintSet × VariableManager) :=
  if args.length ≠ actualTypevars.length then .error .panic
  else
    .ok (args.enum.foldl (fun acc q =>
      let formal := (DerivedTypeVar.ofBase (termToTvar targetFunc)).addFieldLabel
        (indexToFieldLabel q.1)
      let r := argToConstraints ctx q.2 formal acc.2 argIsSubtypeOfRepresentations
      let cons := csInsert ⟨formal, actualTypevars.getD q.1 default⟩ r.1
      (csUnion cons acc.1, r.2)) ([], vm))

/-- `handle_call`. -/
def handleCall (ctx : NodeContext) (targetFunc : Term Sub) (vm : VariableManager) :
    Except RustPanic (ConstraintSet × VariableManager) :=
  handleFunctionArgs ctx targetFunc
    (createActualArgs targetFunc.term.formalArgs.length targetFunc)
    targetFunc.term.formalArgs vm (fun ind => FieldLabel.inL ind) false

/-- `create_actual_rets`: one actual-return variable per register formal
return; a stack formal return is `panic!("Cannot handle return value on
the stack")`. -/
def createActualRets (call : Term Jmp) (rets : List Arg) :
    Except RustPanic (List DerivedTypeVar) :=
  rets.mapM (fun arg =>
    match arg with
    | .register var =>
      .ok (DerivedTypeVar.ofBase (tidIndexedByVariable call.tid var))
    | .stack _ => .error RustPanic.panic)

/-- `handle_return`. -/
def handleReturn (ctx : NodeContext) (call : Term Jmp) (returnFrom : Term Sub)
    (vm : VariableManager) : Except RustPanic (ConstraintSet × VariableManager) :=
  match createActualRets call returnFrom.term.formalRets with
  | .error p => .error p
  | .ok actRets =>
    handleFunctionArgs ctx returnFrom actRets returnFrom.term.formalRets vm
      (fun ind => FieldLabel.outL ind) false

/-- The `Context` of the generator: the ICFG nodes (indexable) and the
per-node flow-sensitive contexts. -/
structure GenContext : Type where
  graph : List IcfgNode
  nodeContexts : List (Nat × NodeContext)

/-- `call_blk_to_call`: find a call jump of the block targeting the
function. -/
def callBlkToCall (callingBlk : Term Blk) (targetFunc : Term Sub) : Option (Term Jmp) :=
  callingBlk.term.jmps.find? (fun jmp =>
    match jmp.term with
    | .call tid _ => tid = targetFunc.tid
    | .other => false)

/-- `generate_constraints_for_node`: index the graph (a panic when the
index is invalid — the source indexes before checking for a context), then
dispatch on the node kind, or return the empty set when the node has no
context. -/
def generateConstraintsForNode (ctx : GenContext) (ndInd : Nat) (vm : VariableManager) :
    Except RustPanic (ConstraintSet × VariableManager × List String) :=
  let ndCont := alookup ctx.nodeContexts ndInd
  match ctx.graph.get? ndInd with
  | none => .error .panic
  | some nd =>
    match ndCont with
    | none => .ok ([], vm, [])
    | some c =>
      match nd with
      | .blkStart blk _ => .ok (handleBlockStart c blk vm)
      | .callReturn callPair returnPair =>
        match callBlkToCall callPair.1 returnPair.2 with
        | none => .error .panic
        | some call =>
          (handleReturn c call returnPair.2 vm).map (fun r => (r.1, r.2, []))
      | .callSource _ targetPair =>
        (handleCall c targetPair.2 vm).map (fun r => (r.1, r.2, []))
      | .blkEnd _ _ => .ok ([], vm, [])

/-! ## The register context (`src/node_context/register_map.rs`) -/

/-- `TermSet`: the reaching-definition `Tid`s of a register. -/
abbrev TermSet := List Tid

/-- `RegisterContext`: register → reaching definitions. -/
structure RegisterContext : Type where
  mapping : List (Variable × TermSet)

/-- `create_empty_var_name`: a fresh variable (the register itself is
ignored by the source). -/
def RegisterContext.createEmptyVarName (_var : Variable) (vm : VariableManager) :
    TypeVariable × VariableManager :=
  vmFresh vm

/-- `create_def_constraint`: `T_{def,var} ⊑ repr`. -/
def createDefConstraint (repr : TypeVariable) (definedVar : Variable) (defTid : Tid) :
    SubtypeConstraint :=
  ⟨DerivedTypeVar.ofBase (tidIndexedByVariable defTid definedVar),
    DerivedTypeVar.ofBase repr⟩

/-- `generate_multi_def_constraint`: a fresh representative plus one
`def ⊑ repr` constraint per reaching definition. -/
def generateMultiDefConstraint (definedVar : Variable) (defs : TermSet)
    (vm : VariableManager) : (TypeVariable × ConstraintSet) × VariableManager :=
  let f := vmFresh vm
  ((f.1, dedupFirst (defs.map (createDefConstraint f.1 definedVar))), f.2)

/-- `RegisterContext::access` (the `RegisterMapping` implementation): a
single reaching definition names the definition's variable directly;
multiple reaching definitions are joined through a fresh representative;
no reaching definition yields a fresh variable and no constraints. -/
def RegisterContext.access (rc : RegisterContext) (var : Variable)
    (vm : VariableManager) : TypeVariable × ConstraintSet × VariableManager :=
  match alookup rc.mapping var with
  | some ts =>
    if ts.length = 1 then
      (tidIndexedByVariable (ts.headD ⟨""⟩) var, [], vm)
    else
      let r := generateMultiDefConstraint var ts vm
      (r.1.1, r.1.2, r.2)
  | none =>
    let f := RegisterContext.createEmptyVarName var vm
    (f.1, [], f.2)

/-! ## Sketches and DFA operations (`src/solver/type_sketch.rs`, §4.6)

A sketch is a reachable subgraph of a labeled mapping graph with a
designated root (`representing`).  Viewed as a DFA: entry = root node,
alphabet = field labels, every state accepting, so the language is the set
of label paths traceable from the root. -/

/-- Word acceptance from a state: every state is accepting, so a word is
accepted iff it can be traced along edges. -/
def acceptsB {σ E : Type} [DecidableEq σ] [DecidableEq E]
    (edges : List (σ × σ × E)) : σ → List E → Bool
  | _, [] => true
  | s, l :: w =>
    (edges.filter (fun e => e.1 = s ∧ e.2.2 = l)).any (fun e => acceptsB edges e.2.1 w)

/-- `Sketch<U>` (`src/solver/type_sketch.rs`). -/
structure Sketch (U : Type) : Type where
  quotientGraph : MappingGraph U DerivedTypeVar FieldLabel
  representing : DerivedTypeVar
  defaultLabel : U

/-- `Sketch::get_entry` (an `expect` in the source — `none` is the panic). -/
def Sketch.getEntry {U : Type} (s : Sketch U) : Option Nat :=
  s.quotientGraph.getNode s.representing

/-- The language of a sketch: label paths traceable from the entry. -/
def sketchAccepts {U : Type} (s : Sketch U) (w : List FieldLabel) : Bool :=
  match s.getEntry with
  | none => false
  | some e => acceptsB s.quotientGraph.edges e w

/-- The `DFA` view the source exposes through the `DFA` trait: entry
index, all node indices, and the edge list. -/
structure DfaGraph (σ : Type) : Type where
  entry : σ
  states : List σ
  edges : List (σ × σ × FieldLabel)

/-- `Sketch`'s `DFA` implementation (`none` when the represented node is
missing, which the source's `expect` turns into a panic). -/
def Sketch.toDfa {U : Type} (s : Sketch U) : Option (DfaGraph Nat) :=
  s.getEntry.map (fun e =>
    { entry := e, states := s.quotientGraph.nodes.map (fun p => p.1),
      edges := s.quotientGraph.edges })

/-- Deterministic step: the first outgoing edge with the wanted label. -/
def dfaStep {σ : Type} [DecidableEq σ] (edges : List (σ × σ × FieldLabel)) (s : σ)
    (l : FieldLabel) : Option σ :=
  ((edges.filter (fun e => e.1 = s ∧ e.2.2 = l)).head?).map (fun e => e.2.1)

/-- All intersection-product edges: a label steps iff both sides step. -/
def prodEdgesInter {σ τ : Type} [DecidableEq σ] [DecidableEq τ]
    (E1 : List (σ × σ × FieldLabel)) (E2 : List (τ × τ × FieldLabel)) :
    List ((σ × τ) × (σ × τ) × FieldLabel) :=
  E1.flatMap (fun e1 =>
    (E2.filter (fun e2 => e2.2.2 = e1.2.2)).map (fun e2 =>
      ((e1.1, e2.1), (e1.2.1, e2.2.1), e1.2.2)))

/-- Modelled from the spec (§2, §4.6): `dfa_operations::intersection`
(`src/solver/dfa_operations.rs`, not under the verified tree) — the
product automaton over pairs reachable from the pair of entries, stepping
on a label iff both sides step (language ∩). -/
def dfaIntersection {σ τ : Type} [DecidableEq σ] [DecidableEq τ]
    (d1 : DfaGraph σ) (d2 : DfaGraph τ) : DfaGraph (σ × τ) :=
  let allE := prodEdgesInter d1.edges d2.edges
  let S := reachableStates allE (d1.entry, d2.entry)
  { entry := (d1.entry, d2.entry), states := S,
    edges := allE.filter (fun e => e.1 ∈ S ∧ e.2.1 ∈ S) }

/-- Step of one side of a union product (`none` is the dead side). -/
def stepO {σ : Type} [DecidableEq σ] (edges : List (σ × σ × FieldLabel)) :
    Option σ → FieldLabel → Option σ
  | none, _ => none
  | some s, l => dfaStep edges s l

/-- The outgoing labels and successor pairs of a union-product state: a
label steps iff at least one side steps. -/
def unionSuccs {σ τ : Type} [DecidableEq σ] [DecidableEq τ]
    (E1 : List (σ × σ × FieldLabel)) (E2 : List (τ × τ × FieldLabel))
    (st : Option σ × Option τ) : List (FieldLabel × Option σ × Option τ) :=
  let ls := dedupFirst
    ((match st.1 with
      | some s => (E1.filter (fun e => e.1 = s)).map (fun e => e.2.2)
      | none => []) ++
     (match st.2 with
      | some t => (E2.filter (fun e => e.1 = t)).map (fun e => e.2.2)
      | none => []))
  ls.map (fun l => (l, stepO E1 st.1 l, stepO E2 st.2 l))

/-- All union-product edges over the padded state space. -/
def prodEdgesUnionAll {σ τ : Type} [DecidableEq σ] [DecidableEq τ]
    (d1 : DfaGraph σ) (d2 : DfaGraph τ) :
    List ((Option σ × Option τ) × (Option σ × Option τ) × FieldLabel) :=
  let sts := ((none :: d1.states.map some).flatMap (fun a =>
    (none :: d2.states.map some).map (fun b => (a, b)))).filter
      (fun st => ¬(st.1 = none ∧ st.2 = none))
  sts.flatMap (fun st =>
    (unionSuccs d1.edges d2.edges st).map (fun q => (st, (q.2.1, q.2.2), q.1)))

/-- Modelled from the spec (§2, §4.6): `dfa_operations::union`
(`src/solver/dfa_operations.rs`, not under the verified tree) — the padded
product automaton, stepping on a label iff at least one side steps
(language ∪). -/
def dfaUnion {σ τ : Type} [DecidableEq σ] [DecidableEq τ]
    (d1 : DfaGraph σ) (d2 : DfaGraph τ) : DfaGraph (Option σ × Option τ) :=
  let allE := prodEdgesUnionAll d1 d2
  let S := reachableStates allE (some d1.entry, some d2.entry)
  { entry := (some d1.entry, some d2.entry), states := S,
    edges := allE.filter (fun e => e.1 ∈ S ∧ e.2.1 ∈ S) }

/-- `create_graph_from_dfa`: a stable graph with one node per DFA state
(weighted with the default label) and the DFA's edges; returns the entry's
node index.  `none` models the `expect`s on missing indices. -/
def createGraphFromDfa {σ U : Type} [DecidableEq σ] (d : DfaGraph σ)
    (defaultLabel : U) : Option (Nat × MappingGraph U DerivedTypeVar FieldLabel) :=
  match d.edges.mapM (fun e =>
      (d.states.indexOf? e.1).bind (fun a =>
        (d.states.indexOf? e.2.1).map (fun b => (a, b, e.2.2)))) with
  | none => none
  | some es =>
    match d.states.indexOf? d.entry with
    | none => none
    | some eidx =>
      some (eidx,
        { nodes := (List.range d.states.length).map (fun i => (i, defaultLabel)),
          edges := es, assoc := [], freshIdx := d.states.length })

/-- The re-weighting pass of `binop_sketch`
(`find_representative_nodes_for_new_nodes` plus the label join): walk every
path of the resultant graph from its entry and combine, with the lattice
operation, the bounds of the nodes the two source sketches reach by the
same path. -/
def weightedOf {U : Type} [DecidableEq U] (self other : Sketch U)
    (latticeOp : U → U → U) (selfEntry otherEntry entry : Nat)
    (grph0 : MappingGraph U DerivedTypeVar FieldLabel) :
    MappingGraph U DerivedTypeVar FieldLabel :=
  (explorePaths grph0.edges entry).foldl (fun h pr =>
    let o1 := findNode self.quotientGraph.edges selfEntry pr.1
    let o2 := findNode other.quotientGraph.edges otherEntry pr.1
    let selfLabel := (o1.bind (fun i => self.quotientGraph.weightAt i)).getD
      self.defaultLabel
    let otherLabel := (o2.bind (fun i => other.quotientGraph.weightAt i)).getD
      self.defaultLabel
    { h with nodes := h.nodes.map (fun p =>
        if p.1 = pr.2 then (p.1, latticeOp selfLabel otherLabel) else p) })
    grph0

/-- `binop_sketch`: build the resultant DFA's graph, re-walk paths from the
entry to combine each node's lattice bounds from the two source sketches
(`find_representative_nodes_for_new_nodes`), re-quotient by pure
edge-implication, and re-key the entry by the represented variable.
`none` models the asserts/expects (different represented callees, missing
entries).  `latticeOp` is the bound-combining operation (meet for
intersect, join for union); `magmaOp` is the weight magma used by the
re-quotient. -/
def binopSketch {σ U : Type} [DecidableEq σ] [DecidableEq U]
    (self other : Sketch U) (latticeOp : U → U → U) (magmaOp : U → U → U)
    (resultant : DfaGraph σ) : Option (Sketch U) :=
  if self.representing.toCallee = other.representing.toCallee then
    match self.getEntry, other.getEntry with
    | some selfEntry, some otherEntry =>
      match createGraphFromDfa resultant self.defaultLabel with
      | none => none
      | some (entry, grph0) =>
        let weighted := weightedOf self other latticeOp selfEntry otherEntry entry grph0
        match generateQuotientGroups weighted [] with
        | none => none
        | some groups =>
          match weighted.quoetientGraph magmaOp groups with
          | none => none
          | some quotG =>
            some { quotientGraph := { quotG with assoc := [(self.representing, entry)] },
                   representing := self.representing,
                   defaultLabel := self.defaultLabel }
    | _, _ => none
  else none

/-- `Sketch::intersect`: lattice meet on bounds over the *union* product
automaton. -/
def Sketch.intersectS {U : Type} [DecidableEq U] (joinOp meetOp magmaOp : U → U → U)
    (self other : Sketch U) : Option (Sketch U) :=
  match self.toDfa, other.toDfa with
  | some d1, some d2 => binopSketch self other meetOp magmaOp (dfaUnion d1 d2)
  | _, _ => none

/-- `Sketch::union`: lattice join on bounds over the *intersection*
product automaton. -/
def Sketch.unionS {U : Type} [DecidableEq U] (joinOp meetOp magmaOp : U → U → U)
    (self other : Sketch U) : Option (Sketch U) :=
  match self.toDfa, other.toDfa with
  | some d1, some d2 => binopSketch self other joinOp magmaOp (dfaIntersection d1 d2)
  | _, _ => none

/-- The callsite-merge fold of `refine_formal`: the per-callsite sketches
gathered from all parents are reduced with the merge operator
(`Sketch::union` for input formals, `Sketch::intersect` for output
formals); with no callsites the original representation is kept
(`unwrap_or(orig_repr)`). -/
def mergeCallsiteSketches {U : Type} (merge : Sketch U → Sketch U → Option (Sketch U))
    (callsites : List (Sketch U)) (orig : Sketch U) : Option (Sketch U) :=
  match callsites with
  | [] => some orig
  | s :: rest => rest.foldlM merge s

/-! ## Helper lemmas for the constraint-generation claims -/

theorem mem_csInsert (c c' : SubtypeConstraint) (s : ConstraintSet) :
    c' ∈ csInsert c s ↔ c' ∈ s ∨ c' = c := by
  unfold csInsert
  split
  · rename_i h
    constructor
    · exact Or.inl
    · rintro (h' | rfl); exacts [h', h]
  · simp [or_comm]

theorem mem_foldl_csInsert {α : Type} (L : List α) (f : α → SubtypeConstraint)
    (s : ConstraintSet) (c : SubtypeConstraint) :
    c ∈ L.foldl (fun acc x => csInsert (f x) acc) s ↔ c ∈ s ∨ ∃ x ∈ L, c = f x := by
  induction L generalizing s with
  | nil => simp
  | cons a L ih =>
    rw [List.foldl_cons, ih, mem_csInsert]
    constructor
    · rintro ((h' | rfl) | ⟨x, hx, rfl⟩)
      · exact Or.inl h'
      · exact Or.inr ⟨a, by simp⟩
      · exact Or.inr ⟨x, by simp [hx]⟩
    · rintro (h' | ⟨x, hx, rfl⟩)
      · exact Or.inl (Or.inl h')
      · rcases List.mem_cons.1 hx with rfl | hx
        · exact Or.inl (Or.inr rfl)
        · exact Or.inr ⟨x, hx, rfl⟩

theorem makeLoadedTvar_eq (tv : TypeVariable) (sz : Nat) (off : Option Int) :
    makeLoadedTvar ⟨tv, sz, off⟩ =
      ⟨tv, [FieldLabel.load] ++ (match off with
        | some o => [FieldLabel.field o (sz * 8)]
        | none => [])⟩ := by
  cases off <;> rfl

/-! ## C7 — Load constraints -/

/-- C7: for an IR load `v := *a`, the generated constraint set consists of
exactly one constraint `tv.Load[.Field(offset, access_size*8)] ⊑ T_{tid,v}`
per `TypeVariableAccess` returned by the points-to mapping, the `Field`
label appended exactly when the offset is present; an empty points-to
result yields no memory constraints. -/
theorem applyLoad_constraint_shape (ctx : NodeContext) (tid : Tid) (v : Variable)
    (addr : Expression) (vm : VariableManager) (c : SubtypeConstraint) :
    c ∈ (applyLoad ctx tid v addr vm).1 ↔
      ∃ tv sz off, (⟨tv, sz, off⟩ : TypeVariableAccess) ∈ (ctx.pointsTo addr v.size vm).1 ∧
        c = ⟨⟨tv, [FieldLabel.load] ++ (match off with
              | some o => [FieldLabel.field o (sz * 8)]
              | none => [])⟩,
             DerivedTypeVar.ofBase (tidIndexedByVariable tid v)⟩ := by
  unfold applyLoad Memop.applyMemOp
  rw [mem_foldl_csInsert]
  constructor
  · rintro (h | ⟨x, hx, rfl⟩)
    · cases h
    · obtain ⟨a, ha, rfl⟩ := List.mem_map.1 ((mem_dedupFirst _ _).1 hx)
      obtain ⟨tv, sz, off⟩ := a
      refine ⟨tv, sz, off, ha, ?_⟩
      rw [if_pos rfl, makeLoadedTvar_eq]
  · rintro ⟨tv, sz, off, hmem, rfl⟩
    refine Or.inr ⟨makeLoadedTvar ⟨tv, sz, off⟩,
      (mem_dedupFirst _ _).2 (List.mem_map.2 ⟨⟨tv, sz, off⟩, hmem, rfl⟩), ?_⟩
    rw [if_pos rfl, makeLoadedTvar_eq]

/-! ## C8 — register access with no reaching definition -/

/-- C8: when no reaching definition is recorded for the register, `access`
returns the variable freshly minted from the manager's current counter,
together with an empty constraint set (and the advanced manager). -/
theorem registerContext_access_no_def (rc : RegisterContext) (var : Variable)
    (vm : VariableManager) (h : alookup rc.mapping var = none) :
    rc.access var vm = (TypeVariable.fresh vm, [], vm + 1) := by
  unfold RegisterContext.access
  rw [h]
  rfl

theorem registerContext_access_no_def_witness :
    alookup (RegisterContext.mk []).mapping ⟨"RAX", 8⟩ = none ∧
      (RegisterContext.mk []).access ⟨"RAX", 8⟩ 0 = (TypeVariable.fresh 0, [], 1) :=
  ⟨rfl, registerContext_access_no_def (RegisterContext.mk []) ⟨"RAX", 8⟩ 0 rfl⟩

/-! ## C2 — stack formal returns -/

theorem createActualRets_stack_aux (call : Term Jmp) :
    ∀ (rets : List Arg) (n : Nat), Arg.stack n ∈ rets →
      createActualRets call rets = .error RustPanic.panic := by
  intro rets
  induction rets with
  | nil => intro n h; cases h
  | cons a l ih =>
    intro n hmem
    rcases List.mem_cons.1 hmem with heq | hmem'
    · rw [← heq]
      unfold createActualRets
      rw [List.mapM_cons]
      rfl
    · cases a with
      | register v =>
        have hl := ih n hmem'
        unfold createActualRets at hl ⊢
        rw [List.mapM_cons, hl]
        rfl
      | stack m =>
        unfold createActualRets
        rw [List.mapM_cons]
        rfl

theorem createActualRets_stack_panics (call : Term Jmp) (rets : List Arg)
    (h : ∃ n, Arg.stack n ∈ rets) :
    createActualRets call rets = .error RustPanic.panic := by
  obtain ⟨n, hmem⟩ := h
  exact createActualRets_stack_aux call rets n hmem

/-- C2: a function whose formal return specification uses a stack slot
does not produce a recoverable `UnsupportedStackReturn` error: the source
panics (`panic!("Cannot handle return value on the stack")`), aborting
constraint generation entirely rather than skipping only that function. -/
theorem handleReturn_stack_panics (ctx : NodeContext) (call : Term Jmp)
    (returnFrom : Term Sub) (vm : VariableManager)
    (h : ∃ n, Arg.stack n ∈ returnFrom.term.formalRets) :
    handleReturn ctx call returnFrom vm = .error RustPanic.panic := by
  unfold handleReturn
  rw [createActualRets_stack_panics call _ h]

/-- Trivial collaborators, for concrete instantiations. -/
def trivialNodeContext : NodeContext :=
  { regMap := fun _ vm => (TypeVariable.fresh vm, [], vm + 1),
    pointsTo := fun _ _ vm => ([], vm),
    subprocLoc := fun _ vm => ([], [], vm) }

theorem handleReturn_stack_panics_witness :
    (∃ n, Arg.stack n ∈ (Term.mk (Tid.mk "sub_ret") (Sub.mk "f" [] [Arg.stack 4])).term.formalRets) ∧
    handleReturn trivialNodeContext (Term.mk (Tid.mk "call_00") Jmp.other)
      (Term.mk (Tid.mk "sub_ret") (Sub.mk "f" [] [Arg.stack 4])) 0 =
      .error RustPanic.panic :=
  ⟨⟨4, by simp⟩,
    handleReturn_stack_panics trivialNodeContext _ _ 0 ⟨4, by simp⟩⟩

/-! ## C10 — ICFG nodes with no registered context -/

/-- C10: a valid ICFG node index with no `NodeContext` in the context map
yields the empty constraint set — no error, no warning, and the variable
manager is returned unchanged. -/
theorem generateConstraintsForNode_no_context (ctx : GenContext) (ndInd : Nat)
    (vm : VariableManager) (hvalid : ndInd < ctx.graph.length)
    (hnone : alookup ctx.nodeContexts ndInd = none) :
    generateConstraintsForNode ctx ndInd vm = .ok ([], vm, []) := by
  unfold generateConstraintsForNode
  rw [hnone]
  cases hget : ctx.graph.get? ndInd with
  | none =>
    exact absurd (List.get?_eq_none.1 hget) (by omega)
  | some nd => rfl

theorem generateConstraintsForNode_no_context_witness :
    (0 < (GenContext.mk [IcfgNode.blkEnd (Term.mk (Tid.mk "blk") (Blk.mk [] []))
        (Term.mk (Tid.mk "sub") (Sub.mk "f" [] []))] []).graph.length) ∧
    (alookup (GenContext.mk [IcfgNode.blkEnd (Term.mk (Tid.mk "blk") (Blk.mk [] []))
        (Term.mk (Tid.mk "sub") (Sub.mk "f" [] []))] []).nodeContexts 0 = none) ∧
    generateConstraintsForNode (GenContext.mk [IcfgNode.blkEnd
        (Term.mk (Tid.mk "blk") (Blk.mk [] []))
        (Term.mk (Tid.mk "sub") (Sub.mk "f" [] []))] []) 0 7 = .ok ([], 7, []) :=
  ⟨by decide, rfl,
    generateConstraintsForNode_no_context _ 0 7 (by decide) rfl⟩

/-! ## C9 — merge_nodes with missing keys -/

/-- C9: `merge_nodes` never fails on missing keys: with exactly one key
known, the missing key is registered to the existing node (both keys then
map to the same node; weights and edges unchanged); with neither key
known, the call is a no-op. -/
theorem mergeNodes_partial_keys {W K E : Type} [DecidableEq K] [DecidableEq E]
    [DecidableEq W] (op : W → W → W) (g : MappingGraph W K E) (k1 k2 : K) :
    (∀ x : Nat, g.getNode k1 = none → g.getNode k2 = some x →
      (MappingGraph.mergeNodes op g k1 k2).getNode k1 = some x ∧
      (MappingGraph.mergeNodes op g k1 k2).getNode k2 = some x ∧
      (MappingGraph.mergeNodes op g k1 k2).nodes = g.nodes ∧
      (MappingGraph.mergeNodes op g k1 k2).edges = g.edges) ∧
    (∀ x : Nat, g.getNode k1 = some x → g.getNode k2 = none →
      (MappingGraph.mergeNodes op g k1 k2).getNode k1 = some x ∧
      (MappingGraph.mergeNodes op g k1 k2).getNode k2 = some x ∧
      (MappingGraph.mergeNodes op g k1 k2).nodes = g.nodes ∧
      (MappingGraph.mergeNodes op g k1 k2).edges = g.edges) ∧
    (g.getNode k1 = none → g.getNode k2 = none → MappingGraph.mergeNodes op g k1 k2 = g) := by
  refine ⟨?_, ?_, ?_⟩
  · intro x h1 h2
    rw [MappingGraph.mergeNodes_left_missing op g k1 k2 h1 h2]
    have hne : k1 ≠ k2 := by
      intro he
      rw [he, h2] at h1
      cases h1
    refine ⟨?_, ?_, rfl, rfl⟩
    · show alookup (g.assoc ++ [(k1, x)]) k1 = some x
      rw [alookup_append, show alookup g.assoc k1 = none from h1, alookup_cons,
        if_pos rfl]
      rfl
    · show alookup (g.assoc ++ [(k1, x)]) k2 = some x
      rw [alookup_append, show alookup g.assoc k2 = some x from h2]
      rfl
  · intro x h1 h2
    rw [MappingGraph.mergeNodes_right_missing op g k1 k2 h1 h2]
    have hne : k2 ≠ k1 := by
      intro he
      rw [he, h1] at h2
      cases h2
    refine ⟨?_, ?_, rfl, rfl⟩
    · show alookup (g.assoc ++ [(k2, x)]) k1 = some x
      rw [alookup_append, show alookup g.assoc k1 = some x from h1]
      rfl
    · show alookup (g.assoc ++ [(k2, x)]) k2 = some x
      rw [alookup_append, show alookup g.assoc k2 = none from h2, alookup_cons,
        if_pos rfl]
      rfl
  · intro h1 h2
    exact MappingGraph.mergeNodes_none op g k1 k2 h1 h2

/-- A small concrete mapping graph: three nodes, two edges, keys 10→0,
11→1, 12→0. -/
def gW3 : MappingGraph Nat Nat FieldLabel :=
  { nodes := [(0, 1), (1, 2), (2, 5)],
    edges := [(0, 1, FieldLabel.load), (2, 0, FieldLabel.store)],
    assoc := [(10, 0), (11, 1), (12, 0)],
    freshIdx := 3 }

theorem mergeNodes_partial_keys_witness :
    (gW3.getNode 99 = none ∧ gW3.getNode 11 = some 1 ∧
      (MappingGraph.mergeNodes (fun a b => a + b) gW3 99 11).getNode 99 = some 1 ∧
      (MappingGraph.mergeNodes (fun a b => a + b) gW3 99 11).getNode 11 = some 1 ∧
      (MappingGraph.mergeNodes (fun a b => a + b) gW3 99 11).nodes = gW3.nodes ∧
      (MappingGraph.mergeNodes (fun a b => a + b) gW3 99 11).edges = gW3.edges) ∧
    (gW3.getNode 98 = none ∧ gW3.getNode 97 = none ∧
      MappingGraph.mergeNodes (fun a b => a + b) gW3 98 97 = gW3) := by
  have h := mergeNodes_partial_keys (fun a b => a + b) gW3 99 11
  have h' := mergeNodes_partial_keys (fun a b => a + b) gW3 98 97
  exact ⟨⟨rfl, rfl, h.1 1 rfl rfl⟩, rfl, rfl, h'.2.2 rfl rfl⟩

/-! ## C3 — merge_nodes with both keys present -/

/-- C3: merging two distinct existing nodes creates the fresh node with
the magma-merged weight, re-homes every key of either old node to it,
copies every incoming and outgoing edge of both old nodes onto it
(deduplicated, endpoints substituted — in particular an edge between the
merged nodes survives as a self-loop), and deletes the two old nodes. -/
theorem mergeNodes_both_merge_spec {W K E : Type} [DecidableEq K] [DecidableEq E]
    [DecidableEq W] (op : W → W → W) (g : MappingGraph W K E) (k1 k2 : K)
    {fst snd : Nat} {w1 w2 : W}
    (h1 : g.getNode k1 = some fst) (h2 : g.getNode k2 = some snd) (hne : fst ≠ snd)
    (hw1 : g.weightAt fst = some w1) (hw2 : g.weightAt snd = some w2)
    (hfresh : g.weightAt g.freshIdx = none) :
    (MappingGraph.mergeNodes op g k1 k2).weightAt g.freshIdx = some (op w1 w2) ∧
    (MappingGraph.mergeNodes op g k1 k2).weightAt fst = none ∧
    (MappingGraph.mergeNodes op g k1 k2).weightAt snd = none ∧
    (∀ i : Nat, i ≠ g.freshIdx → i ≠ fst → i ≠ snd →
      (MappingGraph.mergeNodes op g k1 k2).weightAt i = g.weightAt i) ∧
    (∀ k : K, (MappingGraph.mergeNodes op g k1 k2).getNode k =
      (g.getNode k).map (MappingGraph.mergeSubst fst snd g.freshIdx)) ∧
    (∀ e : Nat × Nat × E, e ∈ (MappingGraph.mergeNodes op g k1 k2).edges ↔
      ∃ a b w, (a, b, w) ∈ g.edges ∧
        e = (MappingGraph.mergeSubst fst snd g.freshIdx a,
             MappingGraph.mergeSubst fst snd g.freshIdx b, w)) ∧
    (∀ w : E, (fst, snd, w) ∈ g.edges →
      (g.freshIdx, g.freshIdx, w) ∈ (MappingGraph.mergeNodes op g k1 k2).edges) ∧
    (g.edges.Nodup → (MappingGraph.mergeNodes op g k1 k2).edges.Nodup) := by
  have hf1 : fst ≠ g.freshIdx := by
    intro h
    rw [h, hfresh] at hw1
    cases hw1
  have hf2 : snd ≠ g.freshIdx := by
    intro h
    rw [h, hfresh] at hw2
    cases hw2
  have hwAt := MappingGraph.mergeNodes_both_weightAt op g k1 k2 h1 h2 hne hw1 hw2
    hfresh hf1 hf2
  have hedges := MappingGraph.mergeNodes_both_edges op g k1 k2 h1 h2 hne hw1 hw2 hf1 hf2
  refine ⟨?_, ?_, ?_, ?_, ?_, hedges, ?_, ?_⟩
  · rw [hwAt g.freshIdx, if_pos rfl]
  · rw [hwAt fst, if_neg hf1, if_pos (Or.inl rfl)]
  · rw [hwAt snd, if_neg hf2, if_pos (Or.inr rfl)]
  · intro i hn hfst hsnd
    rw [hwAt i, if_neg hn, if_neg (by rintro (rfl | rfl) <;> [exact hfst rfl; exact hsnd rfl])]
  · exact MappingGraph.mergeNodes_both_getNode op g k1 k2 h1 h2 hne hw1 hw2
  · intro w hmem
    refine (hedges (g.freshIdx, g.freshIdx, w)).2 ⟨fst, snd, w, hmem, ?_⟩
    unfold MappingGraph.mergeSubst
    rw [if_pos (Or.inl rfl), if_pos (Or.inr rfl)]
  · exact MappingGraph.mergeNodes_edges_nodup op g k1 k2

theorem mergeNodes_both_merge_spec_witness :
    (gW3.getNode 10 = some 0 ∧ gW3.getNode 11 = some 1 ∧ (0 : Nat) ≠ 1 ∧
      gW3.weightAt 0 = some 1 ∧ gW3.weightAt 1 = some 2 ∧
      gW3.weightAt gW3.freshIdx = none) ∧
    (MappingGraph.mergeNodes (fun a b => a + b) gW3 10 11).weightAt 3 = some 3 ∧
    (MappingGraph.mergeNodes (fun a b => a + b) gW3 10 11).getNode 12 = some 3 ∧
    (3, 3, FieldLabel.load) ∈ (MappingGraph.mergeNodes (fun a b => a + b) gW3 10 11).edges := by
  have h := mergeNodes_both_merge_spec (fun a b => a + b) gW3 10 11 rfl rfl
    (by decide) rfl rfl rfl
  refine ⟨⟨rfl, rfl, by decide, rfl, rfl, rfl⟩, h.1, ?_, ?_⟩
  · rw [h.2.2.2.2.1 12]
    rfl
  · exact h.2.2.2.2.2.2.1 FieldLabel.load (by decide)

/-! ## C5 — outgoing-edge label uniqueness -/

/-- Two nodes with same-labeled edges to different targets, to be merged. -/
def g5 : MappingGraph Nat Nat FieldLabel :=
  { nodes := [(0, 0), (1, 0), (2, 0), (3, 0)],
    edges := [(0, 2, FieldLabel.load), (1, 3, FieldLabel.load)],
    assoc := [(100, 0), (101, 1)],
    freshIdx := 4 }

/-- C5 counterexample: after `merge_nodes` a node can carry two outgoing
edges with the same `FieldLabel` toward two *different* targets — the
claimed per-label uniqueness fails (only duplicate parallel edges are
prevented). -/
theorem mergeNodes_two_load_edges_counterexample :
    (4, 2, FieldLabel.load) ∈ (MappingGraph.mergeNodes (fun a b => a + b) g5 100 101).edges ∧
    (4, 3, FieldLabel.load) ∈ (MappingGraph.mergeNodes (fun a b => a + b) g5 100 101).edges ∧
    (2 : Nat) ≠ 3 := by
  decide

/-- C5 amended: after `merge_nodes` (on a graph without duplicate edges)
or after `quoetient_graph`, for every node `N`, label `ℓ` and target `M`,
at most one edge `N → M` bears `ℓ`: the edge list never contains a
duplicate `(source, target, label)` triple.  (Per-label uniqueness over
*all* targets does not hold — see the counterexample.) -/
theorem merge_quotient_edge_dedup {W K E : Type} [DecidableEq K] [DecidableEq E]
    [DecidableEq W] (op : W → W → W) (g : MappingGraph W K E) (k1 k2 : K)
    (groups : List (List Nat)) :
    (g.edges.Nodup → (MappingGraph.mergeNodes op g k1 k2).edges.Nodup) ∧
    (∀ q : MappingGraph W K E,
      MappingGraph.quoetientGraph op g groups = some q → q.edges.Nodup) := by
  refine ⟨MappingGraph.mergeNodes_edges_nodup op g k1 k2, ?_⟩
  intro q hq
  simp only [MappingGraph.quoetientGraph] at hq
  split at hq
  · rename_i ws es asc hws hes hasc
    cases hq
    exact nodup_dedupFirst es
  · cases hq

theorem merge_quotient_edge_dedup_witness :
    g5.edges.Nodup ∧
    (MappingGraph.mergeNodes (fun a b => a + b) g5 100 101).edges.Nodup ∧
    MappingGraph.quoetientGraph (fun a b => a + b) g5 [[0], [1], [2], [3]] = some g5 ∧
    g5.edges.Nodup := by
  have h := merge_quotient_edge_dedup (fun a b => a + b) g5 100 101 [[0], [1], [2], [3]]
  exact ⟨by decide, h.1 (by decide), by decide, h.2 g5 (by decide)⟩

/-! ## C6 — the edge-implication fixpoint loop -/

theorem labGet_mem (L : Labeling) (i : Nat) (h : i < L.length) : labGet L i ∈ L := by
  unfold labGet
  rw [List.getD_eq_getElem?_getD, List.getElem?_eq_getElem h]
  exact List.getElem_mem h

theorem sweepStep_cons_pos (im : EdgeImplication) (rest : List EdgeImplication)
    (L : Labeling) (h : labGet L im.eq.1 = labGet L im.eq.2) :
    sweepStep (im :: rest) L = sweepStep rest (ufUnion L im.edge.1 im.edge.2) := by
  simp only [sweepStep]
  rw [if_pos h]

theorem sweepStep_cons_neg (im : EdgeImplication) (rest : List EdgeImplication)
    (L : Labeling) (h : ¬labGet L im.eq.1 = labGet L im.eq.2) :
    sweepStep (im :: rest) L =
      (im :: (sweepStep rest L).1, (sweepStep rest L).2) := by
  simp only [sweepStep]
  rw [if_neg h]

theorem list_toFinset_map {α β : Type} [DecidableEq α] [DecidableEq β]
    (f : α → β) (l : List α) : (l.map f).toFinset = l.toFinset.image f := by
  induction l with
  | nil => simp
  | cons a l ih => simp [ih]

theorem ufUnion_length (L : Labeling) (a b : Nat) :
    (ufUnion L a b).length = L.length := by
  unfold ufUnion
  exact List.length_map _ _

theorem ufUnion_of_equiv (L : Labeling) (a b : Nat)
    (h : labGet L a = labGet L b) : ufUnion L a b = L := by
  unfold ufUnion
  rw [h]
  have : ∀ x ∈ L, (fun x => if x = labGet L b then labGet L b else x) x = id x := by
    intro x _
    by_cases hx : x = labGet L b <;> simp [hx]
  rw [List.map_congr_left this, List.map_id]

theorem numClasses_ufUnion_le (L : Labeling) (a b : Nat) :
    numClasses (ufUnion L a b) ≤ numClasses L := by
  unfold numClasses ufUnion
  rw [list_toFinset_map]
  calc (Finset.image _ L.toFinset).card ≤ L.toFinset.card := Finset.card_image_le

theorem numClasses_ufUnion_cases (L : Labeling) (a b : Nat)
    (ha : a < L.length) (hb : b < L.length) :
    ufUnion L a b = L ∨ numClasses (ufUnion L a b) < numClasses L := by
  by_cases heq : labGet L a = labGet L b
  · exact Or.inl (ufUnion_of_equiv L a b heq)
  · refine Or.inr ?_
    unfold numClasses ufUnion
    rw [list_toFinset_map]
    apply Finset.card_lt_card
    constructor
    · intro x hx
      obtain ⟨y, hy, rfl⟩ := Finset.mem_image.1 hx
      by_cases hya : y = labGet L a
      · simpa [hya] using List.mem_toFinset.2 (labGet_mem L b hb)
      · simpa [hya] using hy
    · intro hsub
      have hmemA : labGet L a ∈ L.toFinset := List.mem_toFinset.2 (labGet_mem L a ha)
      have := hsub hmemA
      obtain ⟨y, hy, hyeq⟩ := Finset.mem_image.1 this
      by_cases hya : y = labGet L a
      · rw [if_pos hya] at hyeq
        exact heq hyeq.symm
      · rw [if_neg hya] at hyeq
        exact hya hyeq

theorem sweepStep_kept_le (E : List EdgeImplication) (L : Labeling) :
    (sweepStep E L).1.length ≤ E.length := by
  induction E generalizing L with
  | nil => simp [sweepStep]
  | cons im rest ih =>
    by_cases heq : labGet L im.eq.1 = labGet L im.eq.2
    · rw [sweepStep_cons_pos im rest L heq]
      exact Nat.le_succ_of_le (ih _)
    · rw [sweepStep_cons_neg im rest L heq]
      simpa using Nat.succ_le_succ (ih L)

theorem sweepStep_kept_subset (E : List EdgeImplication) (L : Labeling) :
    ∀ im ∈ (sweepStep E L).1, im ∈ E := by
  induction E generalizing L with
  | nil => simp [sweepStep]
  | cons im rest ih =>
    by_cases heq : labGet L im.eq.1 = labGet L im.eq.2
    · rw [sweepStep_cons_pos im rest L heq]
      intro x hx
      exact List.mem_cons_of_mem _ (ih _ x hx)
    · rw [sweepStep_cons_neg im rest L heq]
      intro x hx
      rcases List.mem_cons.1 hx with rfl | hx
      · simp
      · exact List.mem_cons_of_mem _ (ih L x hx)

theorem sweepStep_labeling_length (E : List EdgeImplication) (L : Labeling) :
    (sweepStep E L).2.length = L.length := by
  induction E generalizing L with
  | nil => rfl
  | cons im rest ih =>
    by_cases heq : labGet L im.eq.1 = labGet L im.eq.2
    · rw [sweepStep_cons_pos im rest L heq, ih, ufUnion_length]
    · rw [sweepStep_cons_neg im rest L heq]
      exact ih L

theorem sweepStep_numClasses_le (E : List EdgeImplication) (L : Labeling) :
    numClasses (sweepStep E L).2 ≤ numClasses L := by
  induction E generalizing L with
  | nil => exact le_rfl
  | cons im rest ih =>
    by_cases heq : labGet L im.eq.1 = labGet L im.eq.2
    · rw [sweepStep_cons_pos im rest L heq]
      exact le_trans (ih _) (numClasses_ufUnion_le L _ _)
    · rw [sweepStep_cons_neg im rest L heq]
      exact ih L

theorem sweepStep_changed_lt (E : List EdgeImplication) (L : Labeling)
    (h : (sweepStep E L).2 ≠ L) : (sweepStep E L).1.length < E.length := by
  induction E generalizing L with
  | nil => exact absurd rfl h
  | cons im rest ih =>
    by_cases heq : labGet L im.eq.1 = labGet L im.eq.2
    · rw [sweepStep_cons_pos im rest L heq]
      exact Nat.lt_succ_of_le (sweepStep_kept_le rest _)
    · rw [sweepStep_cons_neg im rest L heq] at h ⊢
      simpa using Nat.succ_lt_succ (ih L h)

theorem sweepStep_nochange_no_equiv (E : List EdgeImplication) (L : Labeling)
    (hbound : ∀ im ∈ E, im.edge.1 < L.length ∧ im.edge.2 < L.length)
    (h : (sweepStep E L).2 = L) :
    ∀ im ∈ (sweepStep E L).1, labGet L im.eq.1 ≠ labGet L im.eq.2 := by
  induction E generalizing L with
  | nil => simp [sweepStep]
  | cons im rest ih =>
    by_cases heq : labGet L im.eq.1 = labGet L im.eq.2
    · rw [sweepStep_cons_pos im rest L heq] at h ⊢
      obtain ⟨hb1, hb2⟩ := hbound im (by simp)
      have hL1 : ufUnion L im.edge.1 im.edge.2 = L := by
        rcases numClasses_ufUnion_cases L im.edge.1 im.edge.2 hb1 hb2 with hu | hu
        · exact hu
        · exfalso
          have h1 := sweepStep_numClasses_le rest (ufUnion L im.edge.1 im.edge.2)
          rw [h] at h1
          omega
      rw [hL1] at h ⊢
      exact ih L (fun x hx => hbound x (List.mem_cons_of_mem _ hx)) h
    · rw [sweepStep_cons_neg im rest L heq] at h ⊢
      intro x hx
      rcases List.mem_cons.1 hx with rfl | hx
      · exact heq
      · exact ih L (fun y hy => hbound y (List.mem_cons_of_mem _ hy)) h x hx

theorem sweepStep_no_fire (E : List EdgeImplication) (L : Labeling)
    (h : ∀ im ∈ E, labGet L im.eq.1 ≠ labGet L im.eq.2) : sweepStep E L = (E, L) := by
  induction E with
  | nil => rfl
  | cons im rest ih =>
    rw [sweepStep_cons_neg im rest L (h im (by simp)),
      ih (fun x hx => h x (List.mem_cons_of_mem _ hx))]

theorem quotientLoop_fixpoint (fuel : Nat) :
    ∀ (E : List EdgeImplication) (L : Labeling),
    (∀ im ∈ E, im.edge.1 < L.length ∧ im.edge.2 < L.length) →
    E.length < fuel →
    sweepStep (quotientLoop fuel E L).1 (quotientLoop fuel E L).2 =
      quotientLoop fuel E L := by
  induction fuel with
  | zero => intro E L _ hfuel; omega
  | succ fuel ih =>
    intro E L hbound hfuel
    unfold quotientLoop
    by_cases hch : (sweepStep E L).2 = L
    · rw [if_pos hch]
      have hnofire := sweepStep_no_fire (sweepStep E L).1 (sweepStep E L).2
        (by rw [hch]; exact sweepStep_nochange_no_equiv E L hbound hch)
      exact hnofire
    · rw [if_neg hch]
      apply ih
      · intro im him
        have hmem := sweepStep_kept_subset E L im him
        rw [sweepStep_labeling_length]
        exact hbound im hmem
      · have := sweepStep_changed_lt E L hch
        omega

/-- C6 amended: the fixpoint loop terminates, but the strictly decreasing
measure is `|pending implications| + #classes` (each continuing sweep
removes at least one implication and never splits a class), not
`|pending implications| + (n − #classes)` — see the counterexample.  With
fuel `|implications| + 1` the loop reaches a genuine fixpoint: a further
sweep changes nothing. -/
theorem quotient_loop_terminates (E : List EdgeImplication) (L : Labeling)
    (hbound : ∀ im ∈ E, im.edge.1 < L.length ∧ im.edge.2 < L.length) :
    ((sweepStep E L).2 ≠ L →
      (sweepStep E L).1.length + numClasses (sweepStep E L).2 <
        E.length + numClasses L) ∧
    sweepStep (quotientLoop (E.length + 1) E L).1 (quotientLoop (E.length + 1) E L).2 =
      quotientLoop (E.length + 1) E L := by
  constructor
  · intro hch
    have h1 := sweepStep_changed_lt E L hch
    have h2 := sweepStep_numClasses_le E L
    omega
  · exact quotientLoop_fixpoint (E.length + 1) E L hbound (by omega)

/-- A mapping graph whose edge implications make the loop's second sweep
continue without decreasing the claimed measure: a Load edge `1→3`, a
Store edge `2→4`, and two `In(0)` edges `0→1`, `0→2`. -/
def g6 : MappingGraph Nat DerivedTypeVar FieldLabel :=
  { nodes := [(0, 0), (1, 0), (2, 0), (3, 0), (4, 0)],
    edges := [(1, 3, FieldLabel.load), (2, 4, FieldLabel.store),
              (0, 1, FieldLabel.inL 0), (0, 2, FieldLabel.inL 0)],
    assoc := [],
    freshIdx := 5 }

/-- C6 counterexample: on `g6` with no constraints, the loop's second
sweep continues (the labeling still changes) yet the claimed measure
`|edge_implications| + (n − #classes)` stays exactly equal: the removed
implication's union merges a class, so the two summands cancel. -/
theorem quotient_measure_claim_counterexample :
    constraintQuotients g6 ([] : ConstraintSet) = some [0, 1, 2, 3, 4] ∧
    (sweepStep (sweepStep (getEdgeSet g6) [0, 1, 2, 3, 4]).1
        (sweepStep (getEdgeSet g6) [0, 1, 2, 3, 4]).2).2 ≠
      (sweepStep (getEdgeSet g6) [0, 1, 2, 3, 4]).2 ∧
    (sweepStep (getEdgeSet g6) [0, 1, 2, 3, 4]).1.length +
        (5 - numClasses (sweepStep (getEdgeSet g6) [0, 1, 2, 3, 4]).2) =
      (sweepStep (sweepStep (getEdgeSet g6) [0, 1, 2, 3, 4]).1
          (sweepStep (getEdgeSet g6) [0, 1, 2, 3, 4]).2).1.length +
        (5 - numClasses (sweepStep (sweepStep (getEdgeSet g6) [0, 1, 2, 3, 4]).1
          (sweepStep (getEdgeSet g6) [0, 1, 2, 3, 4]).2).2) := by
  decide

/-! ## C4 — helper lemmas for `replace_node` -/

theorem dedupByNodeAux_sub {σ E : Type} [DecidableEq σ] (seen : List σ)
    (l : List (List E × σ)) :
    ∀ p ∈ dedupByNodeAux seen l, p ∈ l ∧ p.2 ∉ seen := by
  induction l generalizing seen with
  | nil => simp [dedupByNodeAux]
  | cons q l ih =>
    intro p hp
    by_cases hq : q.2 ∈ seen
    · rw [dedupByNodeAux, if_pos hq] at hp
      obtain ⟨h1, h2⟩ := ih seen p hp
      exact ⟨List.mem_cons_of_mem _ h1, h2⟩
    · rw [dedupByNodeAux, if_neg hq] at hp
      rcases List.mem_cons.1 hp with rfl | hp
      · exact ⟨by simp, hq⟩
      · obtain ⟨h1, h2⟩ := ih (q.2 :: seen) p hp
        exact ⟨List.mem_cons_of_mem _ h1, fun hc => h2 (List.mem_cons_of_mem _ hc)⟩

theorem dedupByNodeAux_nodes_nodup {σ E : Type} [DecidableEq σ] (seen : List σ)
    (l : List (List E × σ)) :
    ((dedupByNodeAux seen l).map (fun p => p.2)).Nodup := by
  induction l generalizing seen with
  | nil => simp [dedupByNodeAux]
  | cons q l ih =>
    by_cases hq : q.2 ∈ seen
    · rw [dedupByNodeAux, if_pos hq]
      exact ih seen
    · rw [dedupByNodeAux, if_neg hq, List.map_cons]
      refine List.nodup_cons.2 ⟨?_, ih (q.2 :: seen)⟩
      intro hc
      obtain ⟨p, hp, hpq⟩ := List.mem_map.1 hc
      have := (dedupByNodeAux_sub _ _ p hp).2
      rw [hpq] at this
      exact this (by simp)

theorem exploreLevels_nodes_nodup {σ E : Type} [DecidableEq σ]
    (edges : List (σ × σ × E)) :
    ∀ (fuel : Nat) (frontier : List (List E × σ)) (visited : List σ),
      (((exploreLevels edges fuel frontier visited).map (fun p => p.2)).Nodup ∧
        ∀ pr ∈ exploreLevels edges fuel frontier visited, pr.2 ∉ visited) := by
  intro fuel
  induction fuel with
  | zero => intro frontier visited; simp [exploreLevels]
  | succ fuel ih =>
    intro frontier visited
    rw [exploreLevels]
    by_cases hempty :
      (dedupByNodeAux visited (frontier.filter (fun p => p.2 ∉ visited))).isEmpty
    · rw [if_pos hempty]
      simp
    · rw [if_neg hempty]
      set freshP := dedupByNodeAux visited (frontier.filter (fun p => p.2 ∉ visited))
        with hfreshP
      obtain ⟨ihn, ihv⟩ := ih
        (freshP.flatMap (fun p =>
          (edges.filter (fun e => e.1 = p.2)).map (fun e => (p.1 ++ [e.2.2], e.2.1))))
        (visited ++ freshP.map (fun p => p.2))
      constructor
      · rw [List.map_append, List.nodup_append]
        refine ⟨dedupByNodeAux_nodes_nodup _ _, ihn, ?_⟩
        intro x hx hx2
        obtain ⟨pr, hpr, rfl⟩ := List.mem_map.1 hx2
        have := ihv pr hpr
        exact this (by
          rw [List.mem_append]
          exact Or.inr hx)
      · intro pr hpr
        rcases List.mem_append.1 hpr with hpr | hpr
        · exact (dedupByNodeAux_sub _ _ pr hpr).2
        · intro hc
          exact ihv pr hpr (List.mem_append.2 (Or.inl hc))

theorem explorePaths_nodes_nodup {σ E : Type} [DecidableEq σ]
    (edges : List (σ × σ × E)) (start : σ) :
    ((explorePaths edges start).map (fun p => p.2)).Nodup :=
  (exploreLevels_nodes_nodup edges _ _ _).1

theorem alookup_eq_none_iff {κ : Type} [DecidableEq κ] {α : Type}
    (l : List (κ × α)) (k : κ) :
    alookup l k = none ↔ ∀ p ∈ l, p.1 ≠ k := by
  unfold alookup
  rw [Option.map_eq_none', List.find?_eq_none]
  constructor
  · intro h p hp
    have := h p hp
    simpa using this
  · intro h p hp
    simpa using h p hp

theorem alookup_eq_of_mem_nodup {κ : Type} [DecidableEq κ] {α : Type}
    (l : List (κ × α)) (k : κ) (v : α) (hn : (l.map Prod.fst).Nodup)
    (hmem : (k, v) ∈ l) : alookup l k = some v := by
  induction l with
  | nil => cases hmem
  | cons p l ih =>
    rw [List.map_cons, List.nodup_cons] at hn
    rcases List.mem_cons.1 hmem with rfl | hmem
    · rw [alookup_cons, if_pos rfl]
    · have hne : p.1 ≠ k := by
        intro he
        exact hn.1 (he ▸ (List.mem_map.2 ⟨(k, v), hmem, rfl⟩))
      rw [alookup_cons, if_neg hne]
      exact ih hn.2 hmem

theorem mem_eq_of_nodup_keys {κ : Type} [DecidableEq κ] {α : Type}
    (l : List (κ × α)) (k : κ) (v w : α) (hn : (l.map Prod.fst).Nodup)
    (h1 : (k, v) ∈ l) (h2 : (k, w) ∈ l) : v = w := by
  have e1 := alookup_eq_of_mem_nodup l k v hn h1
  have e2 := alookup_eq_of_mem_nodup l k w hn h2
  rw [e1] at e2
  exact Option.some_injective _ e2

theorem alookup_of_unique_entry {κ : Type} [DecidableEq κ] {α : Type}
    (l : List (κ × α)) (k : κ) (v : α) (hmem : (k, v) ∈ l)
    (huniq : ∀ w, (k, w) ∈ l → w = v) : alookup l k = some v := by
  induction l with
  | nil => cases hmem
  | cons p l ih =>
    by_cases hp : p.1 = k
    · rw [alookup_cons, if_pos hp]
      have : (k, p.2) ∈ p :: l := by
        rw [show (k, p.2) = p from Prod.ext hp.symm rfl]
        simp
      rw [huniq p.2 this]
    · rw [alookup_cons, if_neg hp]
      rcases List.mem_cons.1 hmem with heq | hmem'
      · exact absurd (congrArg Prod.fst heq).symm hp
      · exact ih hmem' (fun w hw => huniq w (List.mem_cons_of_mem _ hw))

theorem alookup_some_mem {κ α : Type} [DecidableEq κ] (l : List (κ × α)) (k : κ)
    (v : α) (h : alookup l k = some v) : (k, v) ∈ l := by
  unfold alookup at h
  obtain ⟨p, hp, hv⟩ := Option.map_eq_some'.1 h
  have hk : p.1 = k := by
    have := List.find?_some hp
    simpa using this
  rw [show (k, v) = p from Prod.ext hk.symm hv.symm]
  exact List.mem_of_find?_eq_some hp

theorem mem_eq_of_nodup_snd {κ α : Type} (l : List (α × κ)) (k : κ) (v w : α)
    (hn : (l.map Prod.snd).Nodup) (h1 : (v, k) ∈ l) (h2 : (w, k) ∈ l) : v = w := by
  induction l with
  | nil => cases h1
  | cons p l ih =>
    rw [List.map_cons, List.nodup_cons] at hn
    rcases List.mem_cons.1 h1 with he1 | h1'
    · rcases List.mem_cons.1 h2 with he2 | h2'
      · rw [← he2] at he1
        exact congrArg Prod.fst he1
      · exfalso
        apply hn.1
        rw [show p.2 = k from (congrArg Prod.snd he1).symm]
        exact List.mem_map.2 ⟨(w, k), h2', rfl⟩
    · rcases List.mem_cons.1 h2 with he2 | h2'
      · exfalso
        apply hn.1
        rw [show p.2 = k from (congrArg Prod.snd he2).symm]
        exact List.mem_map.2 ⟨(v, k), h1', rfl⟩
      · exact ih hn.2 h1' h2'

namespace MappingGraph

variable {W K E : Type} [DecidableEq K] [DecidableEq E] [DecidableEq W]

theorem removeNodeByIdx_assoc (g : MappingGraph W K E) (i : Nat) :
    (g.removeNodeByIdx i).assoc = g.assoc.filter (fun p => p.2 ≠ i) := rfl

theorem removeNodeByIdx_edges (g : MappingGraph W K E) (i : Nat) :
    (g.removeNodeByIdx i).edges = g.edges.filter (fun e => e.1 ≠ i ∧ e.2.1 ≠ i) := rfl

theorem removedGraph_assoc (R : List Nat) (g : MappingGraph W K E) :
    (removedGraph g R).assoc = g.assoc.filter (fun p => decide (p.2 ∉ R)) := by
  induction R generalizing g with
  | nil =>
    unfold removedGraph
    rw [List.foldl_nil]
    simp
  | cons r R ih =>
    unfold removedGraph at ih ⊢
    rw [List.foldl_cons, ih, removeNodeByIdx_assoc, List.filter_filter]
    apply List.filter_congr
    intro p _
    by_cases h1 : p.2 = r <;> by_cases h2 : p.2 ∈ R <;> simp [h1, h2]

theorem removedGraph_edges (R : List Nat) (g : MappingGraph W K E) :
    (removedGraph g R).edges =
      g.edges.filter (fun e => decide (e.1 ∉ R) && decide (e.2.1 ∉ R)) := by
  induction R generalizing g with
  | nil =>
    unfold removedGraph
    rw [List.foldl_nil]
    simp
  | cons r R ih =>
    unfold removedGraph at ih ⊢
    rw [List.foldl_cons, ih, removeNodeByIdx_edges, List.filter_filter]
    apply List.filter_congr
    intro e _
    by_cases h1 : e.1 = r <;> by_cases h2 : e.1 ∈ R <;>
      by_cases h3 : e.2.1 = r <;> by_cases h4 : e.2.1 ∈ R <;>
      simp [h1, h2, h3, h4]

theorem findNode_mem_ids (ids : List Nat) (edges : List (Nat × Nat × E))
    (hcl : ∀ e ∈ edges, e.2.1 ∈ ids) :
    ∀ (p : List E) (n : Nat), n ∈ ids → ∀ t, findNode edges n p = some t → t ∈ ids := by
  intro p
  induction p with
  | nil =>
    intro n hn t ht
    unfold findNode at ht
    cases ht
    exact hn
  | cons l p ih =>
    intro n hn t ht
    unfold findNode at ht
    cases hhead : (edges.filter (fun e => e.1 = n ∧ e.2.2 = l)).head? with
    | none => rw [hhead] at ht; cases ht
    | some e =>
      rw [hhead] at ht
      have hemem : e ∈ edges := by
        have := List.mem_of_mem_head? hhead
        exact (List.mem_filter.1 this).1
      exact ih e.2.1 (hcl e hemem) t ht

theorem findIdx?_of_mem {α : Type} [DecidableEq α] (l : List α) (a : α)
    (h : a ∈ l) : ∃ j, l.findIdx? (fun x => x = a) = some j := by
  induction l with
  | nil => cases h
  | cons b l ih =>
    rw [List.findIdx?_cons]
    by_cases hb : b = a
    · exact ⟨0, by simp [hb]⟩
    · rcases List.mem_cons.1 h with rfl | h'
      · exact absurd rfl hb
      · obtain ⟨j, hj⟩ := ih h'
        refine ⟨j + 1, ?_⟩
        simp [hb, hj]

theorem newIdxOf_of_mem (g repl : MappingGraph W K E) (t : Nat)
    (h : t ∈ repl.nodes.map (fun p => p.1)) :
    ∃ nt, newIdxOf g repl t = some nt ∧ g.freshIdx ≤ nt := by
  obtain ⟨j, hj⟩ := findIdx?_of_mem (repl.nodes.map (fun p => p.1)) t h
  exact ⟨g.freshIdx + j, by unfold newIdxOf; rw [hj]; rfl, by omega⟩

theorem mem_keysOf (g : MappingGraph W K E) (i : Nat) (k : K) :
    k ∈ g.keysOf i ↔ (k, i) ∈ g.assoc := by
  unfold keysOf
  constructor
  · intro h
    obtain ⟨p, hp, rfl⟩ := List.mem_map.1 h
    have hm := List.mem_filter.1 hp
    have hpi : p.2 = i := by simpa using hm.2
    rw [show (p.1, i) = p from Prod.ext rfl hpi.symm]
    exact hm.1
  · intro h
    exact List.mem_map.2 ⟨(k, i), List.mem_filter.2 ⟨h, by simp⟩, rfl⟩

theorem mem_recordedEdges (g : MappingGraph W K E) (origIdx : Nat)
    (tr : E × Nat × List E) :
    tr ∈ recordedEdges g origIdx ↔
      ∃ p tgt s w, (p, tgt) ∈ explorePaths g.edges origIdx ∧ (s, tgt, w) ∈ g.edges ∧
        s ∉ g.getReachableIdxs origIdx ∧ tr = (w, s, p) := by
  unfold recordedEdges
  rw [List.mem_flatMap]
  constructor
  · rintro ⟨pr, hpr, hmem⟩
    obtain ⟨e, he, rfl⟩ := List.mem_map.1 hmem
    have hm := List.mem_filter.1 he
    have hcond : e.2.1 = pr.2 ∧ e.1 ∉ g.getReachableIdxs origIdx := by
      simpa using hm.2
    refine ⟨pr.1, pr.2, e.1, e.2.2, hpr, ?_, hcond.2, rfl⟩
    rw [show (e.1, pr.2, e.2.2) = e from Prod.ext rfl (Prod.ext hcond.1.symm rfl)]
    exact hm.1
  · rintro ⟨p, tgt, s, w, hpt, hsw, hout, rfl⟩
    refine ⟨(p, tgt), hpt, List.mem_map.2 ⟨(s, tgt, w), ?_, rfl⟩⟩
    exact List.mem_filter.2 ⟨hsw, by simp [hout]⟩

theorem mem_recordedLabels (g repl : MappingGraph W K E) (origIdx rroot : Nat)
    (q : K × Nat) :
    q ∈ recordedLabels g repl origIdx rroot ↔
      ∃ p nd, (p, nd) ∈ explorePaths g.edges origIdx ∧ q.1 ∈ g.keysOf nd ∧
        findNode repl.edges rroot p = some q.2 := by
  unfold recordedLabels
  rw [List.mem_flatMap]
  constructor
  · rintro ⟨pr, hpr, hmem⟩
    obtain ⟨k0, hk0, hfm⟩ := List.mem_filterMap.1 hmem
    obtain ⟨t, ht, hteq⟩ := Option.map_eq_some'.1 hfm
    cases hteq
    exact ⟨pr.1, pr.2, hpr, hk0, ht⟩
  · rintro ⟨p, nd, hpt, hk, hfind⟩
    refine ⟨(p, nd), hpt, List.mem_filterMap.2 ⟨q.1, hk, ?_⟩⟩
    rw [hfind]
    rfl

theorem mem_keyAddsOf_exists (g repl : MappingGraph W K E) (q : K × Nat)
    (h : q ∈ keyAddsOf g repl) : ∃ i, (q.1, i) ∈ repl.assoc := by
  unfold keyAddsOf at h
  obtain ⟨pr, hpr, hmem⟩ := List.mem_flatMap.1 h
  obtain ⟨k0, hk0, rfl⟩ := List.mem_map.1 hmem
  exact ⟨pr.2.1, (mem_keysOf repl pr.2.1 k0).1 hk0⟩

theorem newIdxOf_ge (g repl : MappingGraph W K E) (t nt : Nat)
    (h : newIdxOf g repl t = some nt) : g.freshIdx ≤ nt := by
  unfold newIdxOf at h
  cases hf : (repl.nodes.map (fun p => p.1)).findIdx? (fun x => x = t) with
  | none => rw [hf] at h; cases h
  | some j =>
    rw [hf] at h
    cases h
    show g.freshIdx ≤ g.freshIdx + j
    exact Nat.le_add_right _ _

theorem mem_attachOf (g repl : MappingGraph W K E) (rroot : Nat)
    (L : List (E × Nat × List E)) (x : Nat × Nat × E) :
    x ∈ attachOf g repl rroot L ↔
      ∃ tr ∈ L, ∃ t nt, findNode repl.edges rroot tr.2.2 = some t ∧
        newIdxOf g repl t = some nt ∧ x = (tr.2.1, nt, tr.1) := by
  unfold attachOf
  rw [List.mem_filterMap]
  constructor
  · rintro ⟨tr, htr, hb⟩
    obtain ⟨t, ht, hmap⟩ := Option.bind_eq_some.1 hb
    obtain ⟨nt, hnt, hx⟩ := Option.map_eq_some'.1 hmap
    exact ⟨tr, htr, t, nt, ht, hnt, hx.symm⟩
  · rintro ⟨tr, htr, t, nt, ht, hnt, rfl⟩
    refine ⟨tr, htr, ?_⟩
    rw [ht]
    show (newIdxOf g repl t).map _ = _
    rw [hnt]
    rfl

theorem foldlM_reattach (g repl : MappingGraph W K E) (rroot : Nat)
    (L : List (E × Nat × List E)) :
    ∀ h0 : MappingGraph W K E,
      (∀ tr ∈ L, ∀ t, findNode repl.edges rroot tr.2.2 = some t →
        ∃ nt, newIdxOf g repl t = some nt ∧ tr.2.1 ≠ nt) →
      L.foldlM (reattachStep g repl rroot) h0 =
        some { h0 with edges := h0.edges ++ attachOf g repl rroot L } := by
  induction L with
  | nil =>
    intro h0 _
    show some h0 = _
    rw [show attachOf g repl rroot [] = [] from rfl, List.append_nil]
  | cons tr L ih =>
    intro h0 hside
    have htail : ∀ tr' ∈ L, ∀ t, findNode repl.edges rroot tr'.2.2 = some t →
        ∃ nt, newIdxOf g repl t = some nt ∧ tr'.2.1 ≠ nt :=
      fun tr' htr' => hside tr' (List.mem_cons_of_mem _ htr')
    rw [List.foldlM_cons]
    cases hfind : findNode repl.edges rroot tr.2.2 with
    | none =>
      have hstep : reattachStep g repl rroot h0 tr = some h0 := by
        unfold reattachStep
        rw [hfind]
      have hat : attachOf g repl rroot (tr :: L) = attachOf g repl rroot L := by
        unfold attachOf
        rw [List.filterMap_cons]
        have hn : ((findNode repl.edges rroot tr.2.2).bind fun t =>
            (newIdxOf g repl t).map fun nt => (tr.2.1, nt, tr.1)) = none := by
          rw [hfind]
          rfl
        rw [hn]
      rw [hstep]
      show L.foldlM (reattachStep g repl rroot) h0 = _
      rw [ih h0 htail, hat]
    | some t =>
      obtain ⟨nt, hnt, hne⟩ := hside tr (by simp) t hfind
      have hstep : reattachStep g repl rroot h0 tr =
          some { h0 with edges := h0.edges ++ [(tr.2.1, nt, tr.1)] } := by
        unfold reattachStep
        split
        · next heq => rw [heq] at hfind; cases hfind
        · next oldT heq =>
          rw [hfind] at heq
          cases heq
          split
          · next heq2 => rw [hnt] at heq2; cases heq2
          · next nidx heq2 =>
            rw [hnt] at heq2
            cases heq2
            exact if_neg hne
      have hat : attachOf g repl rroot (tr :: L) =
          (tr.2.1, nt, tr.1) :: attachOf g repl rroot L := by
        unfold attachOf
        rw [List.filterMap_cons]
        have hs : ((findNode repl.edges rroot tr.2.2).bind fun t =>
            (newIdxOf g repl t).map fun nt => (tr.2.1, nt, tr.1)) =
            some (tr.2.1, nt, tr.1) := by
          rw [hfind]
          show ((newIdxOf g repl t).map fun nt => (tr.2.1, nt, tr.1)) = _
          rw [hnt]
          rfl
        rw [hs]
      rw [hstep]
      show L.foldlM (reattachStep g repl rroot) _ = _
      rw [ih _ htail, hat]
      have he : (h0.edges ++ [(tr.2.1, nt, tr.1)]) ++ attachOf g repl rroot L =
          h0.edges ++ (tr.2.1, nt, tr.1) :: attachOf g repl rroot L := by
        simp
      show some { h0 with
          edges := (h0.edges ++ [(tr.2.1, nt, tr.1)]) ++ attachOf g repl rroot L } =
        some { h0 with
          edges := h0.edges ++ (tr.2.1, nt, tr.1) :: attachOf g repl rroot L }
      rw [he]

end MappingGraph

theorem option_mapM_eq_some_of_forall {α β : Type} (f : α → Option β) :
    ∀ l : List α, (∀ a ∈ l, ∃ b, f a = some b) → ∃ l', l.mapM f = some l' := by
  intro l
  induction l with
  | nil => intro _; exact ⟨[], rfl⟩
  | cons a l ih =>
    intro h
    obtain ⟨b, hb⟩ := h a (by simp)
    obtain ⟨l', hl'⟩ := ih (fun x hx => h x (List.mem_cons_of_mem _ hx))
    refine ⟨b :: l', ?_⟩
    rw [List.mapM_cons, hb, hl']
    rfl

theorem option_mapM_mem {α β : Type} (f : α → Option β) :
    ∀ (l : List α) (l' : List β), l.mapM f = some l' →
      ∀ b ∈ l', ∃ a ∈ l, f a = some b := by
  intro l
  induction l with
  | nil =>
    intro l' h b hb
    cases h
    cases hb
  | cons a l ih =>
    intro l' h b hb
    rw [List.mapM_cons] at h
    cases hfa : f a with
    | none => rw [hfa] at h; cases h
    | some b0 =>
      rw [hfa] at h
      cases hml : l.mapM f with
      | none => rw [hml] at h; cases h
      | some bs =>
        rw [hml] at h
        have : b0 :: bs = l' := by
          simpa using h
        rw [← this] at hb
        rcases List.mem_cons.1 hb with rfl | hb'
        · exact ⟨a, by simp, hfa⟩
        · obtain ⟨a', ha', hfa'⟩ := ih bs hml b hb'
          exact ⟨a', List.mem_cons_of_mem _ ha', hfa'⟩

theorem alookup_foldl_orInsert {K : Type} [DecidableEq K] (L : List (K × Nat)) :
    ∀ (init : List (K × Nat)) (k : K),
      alookup (L.foldl (fun acc pr => orInsertAssoc acc pr.1 pr.2) init) k =
        (alookup init k).or (alookup L k) := by
  induction L with
  | nil =>
    intro init k
    rw [List.foldl_nil, alookup_nil, Option.or_none]
  | cons pr L ih =>
    intro init k
    rw [List.foldl_cons, ih]
    unfold orInsertAssoc
    by_cases hs : (alookup init pr.1).isSome
    · rw [if_pos hs]
      by_cases hk : pr.1 = k
      · subst hk
        obtain ⟨v, hv⟩ := Option.isSome_iff_exists.1 hs
        rw [hv]
        rfl
      · rw [alookup_cons, if_neg hk]
    · rw [if_neg hs, alookup_append, Option.or_assoc]
      congr 1
      rw [alookup_cons pr ([] : List (K × Nat)) k, alookup_cons pr L k, alookup_nil]
      by_cases hk : pr.1 = k
      · rw [if_pos hk, if_pos hk]
        rfl
      · rw [if_neg hk, if_neg hk]
        rfl

theorem foldl_orInsert_match {W K E : Type} [DecidableEq K] [DecidableEq E]
    [DecidableEq W] (g repl : MappingGraph W K E) (L : List (K × Nat)) :
    ∀ init : List (K × Nat),
      L.foldl (fun acc pr =>
        match MappingGraph.newIdxOf g repl pr.2 with
        | some nidx => orInsertAssoc acc pr.1 nidx
        | none => acc) init =
      (L.filterMap (fun pr =>
        (MappingGraph.newIdxOf g repl pr.2).map (fun n => (pr.1, n)))).foldl
        (fun acc pr => orInsertAssoc acc pr.1 pr.2) init := by
  induction L with
  | nil => intro init; rfl
  | cons pr L ih =>
    intro init
    cases hnew : MappingGraph.newIdxOf g repl pr.2 with
    | none =>
      rw [List.foldl_cons, List.filterMap_cons]
      simp only [hnew]
      exact ih init
    | some nidx =>
      rw [List.foldl_cons, List.filterMap_cons]
      simp only [hnew, Option.map_some']
      rw [List.foldl_cons]
      exact ih _

theorem quotient_loop_terminates_witness :
    (∀ im ∈ getEdgeSet g6, im.edge.1 < ([0, 1, 2, 3, 4] : Labeling).length ∧
      im.edge.2 < ([0, 1, 2, 3, 4] : Labeling).length) ∧
    (sweepStep (getEdgeSet g6) [0, 1, 2, 3, 4]).2 ≠ [0, 1, 2, 3, 4] ∧
    (sweepStep (getEdgeSet g6) [0, 1, 2, 3, 4]).1.length +
        numClasses (sweepStep (getEdgeSet g6) [0, 1, 2, 3, 4]).2 <
      (getEdgeSet g6).length + numClasses [0, 1, 2, 3, 4] ∧
    sweepStep (quotientLoop ((getEdgeSet g6).length + 1) (getEdgeSet g6)
        [0, 1, 2, 3, 4]).1
      (quotientLoop ((getEdgeSet g6).length + 1) (getEdgeSet g6) [0, 1, 2, 3, 4]).2 =
      quotientLoop ((getEdgeSet g6).length + 1) (getEdgeSet g6) [0, 1, 2, 3, 4] := by
  have h := quotient_loop_terminates (getEdgeSet g6) [0, 1, 2, 3, 4] (by decide)
  exact ⟨by decide, by decide, h.1 (by decide), h.2⟩

/-! ## Language lemmas for the sketch binary operations (C1)

`acceptsB` is the traceability semantics of a sketch graph viewed as a DFA
with every state accepting.  The lemmas characterize the languages of the
product automata and of the graphs `binop_sketch` builds from them. -/

theorem acceptsB_congr {σ E : Type} [DecidableEq σ] [DecidableEq E]
    (E1 E2 : List (σ × σ × E)) (hmem : ∀ e, e ∈ E1 ↔ e ∈ E2) :
    ∀ (w : List E) (s : σ), acceptsB E1 s w = acceptsB E2 s w := by
  intro w
  induction w with
  | nil => intro s; rfl
  | cons l w ih =>
    intro s
    show (E1.filter _).any _ = (E2.filter _).any _
    rw [Bool.eq_iff_iff, List.any_eq_true, List.any_eq_true]
    constructor
    · rintro ⟨e, he, hacc⟩
      have hm := List.mem_filter.1 he
      refine ⟨e, List.mem_filter.2 ⟨(hmem e).1 hm.1, hm.2⟩, ?_⟩
      rw [← ih e.2.1]
      exact hacc
    · rintro ⟨e, he, hacc⟩
      have hm := List.mem_filter.1 he
      refine ⟨e, List.mem_filter.2 ⟨(hmem e).2 hm.1, hm.2⟩, ?_⟩
      rw [ih e.2.1]
      exact hacc

theorem stepSuccs_eq_nil_iff {σ E : Type} [DecidableEq σ]
    (edges : List (σ × σ × E)) (S : List σ) :
    stepSuccs edges S = [] ↔ ∀ e ∈ edges, e.1 ∈ S → e.2.1 ∈ S := by
  unfold stepSuccs
  rw [List.filter_eq_nil]
  constructor
  · intro h e he h1
    by_contra hc
    have hmm : e.2.1 ∈ (edges.filter (fun e => e.1 ∈ S)).map (fun e => e.2.1) :=
      List.mem_map.2 ⟨e, List.mem_filter.2 ⟨he, by simpa using h1⟩, rfl⟩
    have hns := h e.2.1 hmm
    simp at hns
    exact hc hns
  · intro h x hx
    obtain ⟨e, he, rfl⟩ := List.mem_map.1 hx
    have hm := List.mem_filter.1 he
    have h1 : e.1 ∈ S := by simpa using hm.2
    simpa using h e hm.1 h1

theorem reachExpand_closed {σ E : Type} [DecidableEq σ] (edges : List (σ × σ × E)) :
    ∀ (fuel : Nat) (S : List σ),
      ((edges.map (fun e => e.2.1)).toFinset \ S.toFinset).card < fuel →
      ((∀ e ∈ edges, e.1 ∈ reachExpand edges fuel S → e.2.1 ∈ reachExpand edges fuel S) ∧
        ∀ x ∈ S, x ∈ reachExpand edges fuel S) := by
  intro fuel
  induction fuel with
  | zero => intro S h; omega
  | succ fuel ih =>
    intro S h
    simp only [reachExpand]
    by_cases hempty : (dedupFirst (stepSuccs edges S)).isEmpty
    · rw [if_pos hempty]
      have hnil : stepSuccs edges S = [] := by
        cases hss : stepSuccs edges S with
        | nil => rfl
        | cons a l =>
          exfalso
          have ha : a ∈ dedupFirst (stepSuccs edges S) :=
            (mem_dedupFirst _ _).2 (by rw [hss]; simp)
          rw [List.isEmpty_iff] at hempty
          rw [hempty] at ha
          cases ha
      exact ⟨(stepSuccs_eq_nil_iff edges S).1 hnil, fun x hx => hx⟩
    · rw [if_neg hempty]
      have hadd : ∃ a, a ∈ dedupFirst (stepSuccs edges S) := by
        cases hd : dedupFirst (stepSuccs edges S) with
        | nil => rw [List.isEmpty_iff.2 hd] at hempty; exact absurd rfl hempty
        | cons a l => exact ⟨a, by simp⟩
      obtain ⟨a, ha⟩ := hadd
      have haS : a ∈ stepSuccs edges S ∧ a ∉ S := by
        have hm := (mem_dedupFirst _ _).1 ha
        refine ⟨hm, ?_⟩
        unfold stepSuccs at hm
        have := (List.mem_filter.1 hm).2
        simpa using this
      have haT : a ∈ (edges.map (fun e => e.2.1)) := by
        have hm := haS.1
        unfold stepSuccs at hm
        have := (List.mem_filter.1 hm).1
        obtain ⟨e, he, rfl⟩ := List.mem_map.1 this
        exact List.mem_map.2 ⟨e, (List.mem_filter.1 he).1, rfl⟩
      have hmono : ((edges.map (fun e => e.2.1)).toFinset \
          (S ++ dedupFirst (stepSuccs edges S)).toFinset).card < fuel := by
        have hss : ((edges.map (fun e => e.2.1)).toFinset \
            (S ++ dedupFirst (stepSuccs edges S)).toFinset) ⊂
            ((edges.map (fun e => e.2.1)).toFinset \ S.toFinset) := by
          rw [Finset.ssubset_iff_of_subset]
          · refine ⟨a, ?_, ?_⟩
            · rw [Finset.mem_sdiff]
              exact ⟨List.mem_toFinset.2 haT, fun hc => haS.2 (List.mem_toFinset.1 hc)⟩
            · rw [Finset.mem_sdiff]
              intro hc
              exact hc.2 (List.mem_toFinset.2 (List.mem_append.2 (Or.inr ha)))
          · apply Finset.sdiff_subset_sdiff (Finset.Subset.refl _)
            intro x hx
            exact List.mem_toFinset.2 (List.mem_append.2 (Or.inl (List.mem_toFinset.1 hx)))
        have := Finset.card_lt_card hss
        omega
      obtain ⟨hcl, hsub⟩ := ih (S ++ dedupFirst (stepSuccs edges S)) hmono
      exact ⟨hcl, fun x hx => hsub x (List.mem_append.2 (Or.inl hx))⟩

theorem reachableStates_closed {σ E : Type} [DecidableEq σ]
    (edges : List (σ × σ × E)) (s : σ) :
    ∀ e ∈ edges, e.1 ∈ reachableStates edges s → e.2.1 ∈ reachableStates edges s := by
  have h := reachExpand_closed edges (edges.length + 1) [s] (by
    have h1 : ((edges.map (fun e => e.2.1)).toFinset \ ([s] : List σ).toFinset).card ≤
        (edges.map (fun e => e.2.1)).toFinset.card :=
      Finset.card_le_card (Finset.sdiff_subset)
    have h2 : (edges.map (fun e => e.2.1)).toFinset.card ≤
        (edges.map (fun e => e.2.1)).length := List.toFinset_card_le _
    rw [List.length_map] at h2
    omega)
  exact h.1

theorem reachableStates_self {σ E : Type} [DecidableEq σ]
    (edges : List (σ × σ × E)) (s : σ) : s ∈ reachableStates edges s := by
  have h := reachExpand_closed edges (edges.length + 1) [s] (by
    have h1 : ((edges.map (fun e => e.2.1)).toFinset \ ([s] : List σ).toFinset).card ≤
        (edges.map (fun e => e.2.1)).toFinset.card :=
      Finset.card_le_card (Finset.sdiff_subset)
    have h2 : (edges.map (fun e => e.2.1)).toFinset.card ≤
        (edges.map (fun e => e.2.1)).length := List.toFinset_card_le _
    rw [List.length_map] at h2
    omega)
  exact h.2 s (by simp)

theorem acceptsB_filter_closed {σ E : Type} [DecidableEq σ] [DecidableEq E]
    (edges : List (σ × σ × E)) (p : (σ × σ × E) → Bool) (S : List σ)
    (hp : ∀ e ∈ edges, e.1 ∈ S → p e = true)
    (hcl : ∀ e ∈ edges, e.1 ∈ S → e.2.1 ∈ S) :
    ∀ (w : List E) (s : σ), s ∈ S →
      acceptsB (edges.filter p) s w = acceptsB edges s w := by
  intro w
  induction w with
  | nil => intro s _; rfl
  | cons l w ih =>
    intro s hs
    show ((edges.filter _).filter _).any _ = (edges.filter _).any _
    rw [Bool.eq_iff_iff, List.any_eq_true, List.any_eq_true]
    constructor
    · rintro ⟨e, he, hacc⟩
      have hm1 := List.mem_filter.1 he
      have hm2 := List.mem_filter.1 hm1.1
      have hsl : e.1 = s ∧ e.2.2 = l := by simpa using hm1.2
      have hS1 : e.1 ∈ S := hsl.1 ▸ hs
      have hS2 : e.2.1 ∈ S := hcl e hm2.1 hS1
      refine ⟨e, List.mem_filter.2 ⟨hm2.1, hm1.2⟩, ?_⟩
      rw [← ih e.2.1 hS2]
      exact hacc
    · rintro ⟨e, he, hacc⟩
      have hm := List.mem_filter.1 he
      have hsl : e.1 = s ∧ e.2.2 = l := by simpa using hm.2
      have hS1 : e.1 ∈ S := hsl.1 ▸ hs
      have hS2 : e.2.1 ∈ S := hcl e hm.1 hS1
      refine ⟨e, List.mem_filter.2 ⟨List.mem_filter.2 ⟨hm.1, hp e hm.1 hS1⟩, hm.2⟩, ?_⟩
      rw [ih e.2.1 hS2]
      exact hacc

/-- Determinism of an edge list: at most one target per (source, label)
pair. -/
def EdgeDet {σ : Type} (E : List (σ × σ × FieldLabel)) : Prop :=
  ∀ e ∈ E, ∀ e' ∈ E, e.1 = e'.1 → e.2.2 = e'.2.2 → e.2.1 = e'.2.1

/-- Acceptance from a padded (`Option`) state: the dead side accepts
nothing. -/
def acceptsO {σ : Type} [DecidableEq σ] (E : List (σ × σ × FieldLabel)) :
    Option σ → List FieldLabel → Bool
  | none, _ => false
  | some s, w => acceptsB E s w

theorem acceptsB_cons_iff {σ E : Type} [DecidableEq σ] [DecidableEq E]
    (edges : List (σ × σ × E)) (s : σ) (l : E) (w : List E) :
    acceptsB edges s (l :: w) = true ↔
      ∃ e ∈ edges, e.1 = s ∧ e.2.2 = l ∧ acceptsB edges e.2.1 w = true := by
  show (edges.filter _).any _ = true ↔ _
  rw [List.any_eq_true]
  constructor
  · rintro ⟨e, he, hacc⟩
    have hm := List.mem_filter.1 he
    have hc : e.1 = s ∧ e.2.2 = l := by simpa using hm.2
    exact ⟨e, hm.1, hc.1, hc.2, hacc⟩
  · rintro ⟨e, he, h1, h2, hacc⟩
    exact ⟨e, List.mem_filter.2 ⟨he, by simp [h1, h2]⟩, hacc⟩

theorem mem_prodEdgesInter {σ τ : Type} [DecidableEq σ] [DecidableEq τ]
    (E1 : List (σ × σ × FieldLabel)) (E2 : List (τ × τ × FieldLabel))
    (q : (σ × τ) × (σ × τ) × FieldLabel) :
    q ∈ prodEdgesInter E1 E2 ↔
      ∃ e1 ∈ E1, ∃ e2 ∈ E2, e2.2.2 = e1.2.2 ∧
        q = ((e1.1, e2.1), (e1.2.1, e2.2.1), e1.2.2) := by
  unfold prodEdgesInter
  rw [List.mem_flatMap]
  constructor
  · rintro ⟨e1, he1, hq⟩
    obtain ⟨e2, he2, rfl⟩ := List.mem_map.1 hq
    have hm := List.mem_filter.1 he2
    exact ⟨e1, he1, e2, hm.1, by simpa using hm.2, rfl⟩
  · rintro ⟨e1, he1, e2, he2, hl, rfl⟩
    exact ⟨e1, he1, List.mem_map.2 ⟨e2, List.mem_filter.2 ⟨he2, by simp [hl]⟩, rfl⟩⟩

theorem acceptsB_prodInter {σ τ : Type} [DecidableEq σ] [DecidableEq τ]
    (E1 : List (σ × σ × FieldLabel)) (E2 : List (τ × τ × FieldLabel)) :
    ∀ (w : List FieldLabel) (s : σ) (t : τ),
      acceptsB (prodEdgesInter E1 E2) (s, t) w =
        (acceptsB E1 s w && acceptsB E2 t w) := by
  intro w
  induction w with
  | nil => intro s t; rfl
  | cons l w ih =>
    intro s t
    rw [Bool.eq_iff_iff, Bool.and_eq_true, acceptsB_cons_iff, acceptsB_cons_iff,
      acceptsB_cons_iff]
    constructor
    · rintro ⟨q, hq, hq1, hq2, hacc⟩
      obtain ⟨e1, he1, e2, he2, hl2, hqe⟩ := (mem_prodEdgesInter E1 E2 q).1 hq
      subst hqe
      have hs : e1.1 = s := congrArg Prod.fst hq1
      have ht : e2.1 = t := congrArg Prod.snd hq1
      have hl1 : e1.2.2 = l := hq2
      have hboth : (acceptsB E1 e1.2.1 w && acceptsB E2 e2.2.1 w) = true := by
        rw [← ih e1.2.1 e2.2.1]
        exact hacc
      rw [Bool.and_eq_true] at hboth
      exact ⟨⟨e1, he1, hs, hl1, hboth.1⟩,
             ⟨e2, he2, ht, by rw [hl2, hl1], hboth.2⟩⟩
    · rintro ⟨⟨e1, he1, hs, hl1, hacc1⟩, ⟨e2, he2, ht, hl2, hacc2⟩⟩
      refine ⟨((e1.1, e2.1), (e1.2.1, e2.2.1), e1.2.2), (mem_prodEdgesInter E1 E2 _).2
        ⟨e1, he1, e2, he2, by rw [hl2, hl1], rfl⟩, ?_, hl1, ?_⟩
      · show (e1.1, e2.1) = (s, t)
        rw [hs, ht]
      · show acceptsB _ (e1.2.1, e2.2.1) w = true
        rw [ih]
        simp [hacc1, hacc2]

theorem dfaStep_eq_some_iff {σ : Type} [DecidableEq σ]
    (E : List (σ × σ × FieldLabel)) (hdet : EdgeDet E) (s t : σ) (l : FieldLabel) :
    dfaStep E s l = some t ↔ (s, t, l) ∈ E := by
  unfold dfaStep
  cases hf : E.filter (fun e => e.1 = s ∧ e.2.2 = l) with
  | nil =>
    constructor
    · intro h
      cases h
    · intro hmem
      exfalso
      have hin : (s, t, l) ∈ E.filter (fun e => e.1 = s ∧ e.2.2 = l) :=
        List.mem_filter.2 ⟨hmem, by simp⟩
      rw [hf] at hin
      cases hin
  | cons e rest =>
    have hef : e ∈ E.filter (fun e => e.1 = s ∧ e.2.2 = l) := by rw [hf]; simp
    have hm := List.mem_filter.1 hef
    have hcond : e.1 = s ∧ e.2.2 = l := by simpa using hm.2
    constructor
    · intro h
      have ht : e.2.1 = t := Option.some_injective _ h
      rw [show (s, t, l) = e from Prod.ext hcond.1.symm (Prod.ext ht.symm hcond.2.symm)]
      exact hm.1
    · intro hmem
      show some e.2.1 = some t
      have hd := hdet e hm.1 (s, t, l) hmem (by rw [hcond.1]) (by rw [hcond.2])
      rw [hd]

theorem dfaStep_eq_none_iff {σ : Type} [DecidableEq σ]
    (E : List (σ × σ × FieldLabel)) (s : σ) (l : FieldLabel) :
    dfaStep E s l = none ↔ ∀ e ∈ E, ¬(e.1 = s ∧ e.2.2 = l) := by
  unfold dfaStep
  rw [Option.map_eq_none', List.head?_eq_none_iff, List.filter_eq_nil]
  simp

theorem dfaStep_isSome_of_mem {σ : Type} [DecidableEq σ]
    (E : List (σ × σ × FieldLabel)) (s : σ) (l : FieldLabel) (e : σ × σ × FieldLabel)
    (he : e ∈ E) (h1 : e.1 = s) (h2 : e.2.2 = l) : ∃ u, dfaStep E s l = some u := by
  unfold dfaStep
  cases hf : E.filter (fun e => e.1 = s ∧ e.2.2 = l) with
  | nil =>
    exfalso
    have hin : e ∈ E.filter (fun e => e.1 = s ∧ e.2.2 = l) :=
      List.mem_filter.2 ⟨he, by simp [h1, h2]⟩
    rw [hf] at hin
    cases hin
  | cons e0 rest => exact ⟨e0.2.1, rfl⟩

theorem acceptsB_det_cons {σ : Type} [DecidableEq σ]
    (E : List (σ × σ × FieldLabel)) (hdet : EdgeDet E) (s : σ) (l : FieldLabel)
    (w : List FieldLabel) :
    acceptsB E s (l :: w) = acceptsO E (dfaStep E s l) w := by
  cases hstep : dfaStep E s l with
  | none =>
    show (E.filter _).any _ = false
    rw [dfaStep_eq_none_iff] at hstep
    rw [show E.filter (fun e => e.1 = s ∧ e.2.2 = l) = [] from
      List.filter_eq_nil.2 (fun e he => by simpa using hstep e he)]
    rfl
  | some t =>
    show (E.filter _).any _ = acceptsB E t w
    rw [Bool.eq_iff_iff, List.any_eq_true]
    constructor
    · rintro ⟨e, he, hacc⟩
      have hm := List.mem_filter.1 he
      have hcond : e.1 = s ∧ e.2.2 = l := by simpa using hm.2
      have hmem : (s, e.2.1, l) ∈ E := by
        rw [show (s, e.2.1, l) = e from
          Prod.ext hcond.1.symm (Prod.ext rfl hcond.2.symm)]
        exact hm.1
      have hsome := (dfaStep_eq_some_iff E hdet s e.2.1 l).2 hmem
      rw [hstep] at hsome
      have het : t = e.2.1 := Option.some_injective _ hsome
      rw [het]
      exact hacc
    · intro hacc
      have hmem : (s, t, l) ∈ E := (dfaStep_eq_some_iff E hdet s t l).1 hstep
      exact ⟨(s, t, l), List.mem_filter.2 ⟨hmem, by simp⟩, hacc⟩

theorem acceptsO_det_cons {σ : Type} [DecidableEq σ]
    (E : List (σ × σ × FieldLabel)) (hdet : EdgeDet E) (o : Option σ) (l : FieldLabel)
    (w : List FieldLabel) :
    acceptsO E o (l :: w) = acceptsO E (stepO E o l) w := by
  cases o with
  | none => rfl
  | some s => exact acceptsB_det_cons E hdet s l w

theorem mem_unionSuccs {σ τ : Type} [DecidableEq σ] [DecidableEq τ]
    (E1 : List (σ × σ × FieldLabel)) (E2 : List (τ × τ × FieldLabel))
    (o1 : Option σ) (o2 : Option τ) (q : FieldLabel × Option σ × Option τ) :
    q ∈ unionSuccs E1 E2 (o1, o2) ↔
      ((∃ s, o1 = some s ∧ ∃ e ∈ E1, e.1 = s ∧ e.2.2 = q.1) ∨
       (∃ t, o2 = some t ∧ ∃ e ∈ E2, e.1 = t ∧ e.2.2 = q.1)) ∧
      q.2 = (stepO E1 o1 q.1, stepO E2 o2 q.1) := by
  simp only [unionSuccs]
  rw [List.mem_map]
  constructor
  · rintro ⟨l, hl, rfl⟩
    refine ⟨?_, rfl⟩
    have hl2 := (mem_dedupFirst _ _).1 hl
    rcases List.mem_append.1 hl2 with hl3 | hl3
    · left
      cases o1 with
      | none =>
        have hl4 : l ∈ ([] : List FieldLabel) := hl3
        cases hl4
      | some s =>
        have hl4 : l ∈ (E1.filter (fun e => e.1 = s)).map (fun e => e.2.2) := hl3
        obtain ⟨e, he, rfl⟩ := List.mem_map.1 hl4
        have hm := List.mem_filter.1 he
        exact ⟨s, rfl, e, hm.1, by simpa using hm.2, rfl⟩
    · right
      cases o2 with
      | none =>
        have hl4 : l ∈ ([] : List FieldLabel) := hl3
        cases hl4
      | some t =>
        have hl4 : l ∈ (E2.filter (fun e => e.1 = t)).map (fun e => e.2.2) := hl3
        obtain ⟨e, he, rfl⟩ := List.mem_map.1 hl4
        have hm := List.mem_filter.1 he
        exact ⟨t, rfl, e, hm.1, by simpa using hm.2, rfl⟩
  · rintro ⟨hcase, hq2⟩
    refine ⟨q.1, ?_, by rw [← hq2]⟩
    refine (mem_dedupFirst _ _).2 (List.mem_append.2 ?_)
    rcases hcase with ⟨s, hs, e, he, he1, he2⟩ | ⟨t, ht, e, he, he1, he2⟩
    · left
      subst hs
      show q.1 ∈ (E1.filter (fun e => e.1 = s)).map (fun e => e.2.2)
      exact List.mem_map.2 ⟨e, List.mem_filter.2 ⟨he, by simp [he1]⟩, he2⟩
    · right
      subst ht
      show q.1 ∈ (E2.filter (fun e => e.1 = t)).map (fun e => e.2.2)
      exact List.mem_map.2 ⟨e, List.mem_filter.2 ⟨he, by simp [he1]⟩, he2⟩

theorem mem_prodEdgesUnionAll {σ τ : Type} [DecidableEq σ] [DecidableEq τ]
    (d1 : DfaGraph σ) (d2 : DfaGraph τ)
    (q : (Option σ × Option τ) × (Option σ × Option τ) × FieldLabel) :
    q ∈ prodEdgesUnionAll d1 d2 ↔
      (q.1.1 ∈ none :: d1.states.map some ∧ q.1.2 ∈ none :: d2.states.map some ∧
        ¬(q.1.1 = none ∧ q.1.2 = none)) ∧
      (q.2.2, q.2.1) ∈ unionSuccs d1.edges d2.edges q.1 := by
  simp only [prodEdgesUnionAll]
  rw [List.mem_flatMap]
  constructor
  · rintro ⟨st, hst, hq⟩
    obtain ⟨r, hr, rfl⟩ := List.mem_map.1 hq
    have hm := List.mem_filter.1 hst
    have hcond : ¬(st.1 = none ∧ st.2 = none) := by
      have hd := hm.2
      simp only [decide_eq_true_eq] at hd
      exact hd
    obtain ⟨a, ha, hab⟩ := List.mem_flatMap.1 hm.1
    obtain ⟨b, hb, hst2⟩ := List.mem_map.1 hab
    subst hst2
    exact ⟨⟨ha, hb, hcond⟩, hr⟩
  · rintro ⟨⟨h1, h2, hnn⟩, hsucc⟩
    refine ⟨q.1, ?_, ?_⟩
    · refine List.mem_filter.2 ⟨?_, by simp only [decide_eq_true_eq]; exact hnn⟩
      exact List.mem_flatMap.2 ⟨q.1.1, h1, List.mem_map.2 ⟨q.1.2, h2, rfl⟩⟩
    · exact List.mem_map.2 ⟨(q.2.2, q.2.1), hsucc, rfl⟩

theorem acceptsB_prodUnion {σ τ : Type} [DecidableEq σ] [DecidableEq τ]
    (d1 : DfaGraph σ) (d2 : DfaGraph τ)
    (hdet1 : EdgeDet d1.edges) (hdet2 : EdgeDet d2.edges)
    (hwf1 : ∀ e ∈ d1.edges, e.1 ∈ d1.states ∧ e.2.1 ∈ d1.states)
    (hwf2 : ∀ e ∈ d2.edges, e.1 ∈ d2.states ∧ e.2.1 ∈ d2.states) :
    ∀ (w : List FieldLabel) (o1 : Option σ) (o2 : Option τ),
      (∀ s, o1 = some s → s ∈ d1.states) →
      (∀ t, o2 = some t → t ∈ d2.states) →
      ¬(o1 = none ∧ o2 = none) →
      acceptsB (prodEdgesUnionAll d1 d2) (o1, o2) w =
        (acceptsO d1.edges o1 w || acceptsO d2.edges o2 w) := by
  intro w
  induction w with
  | nil =>
    intro o1 o2 h1 h2 hnn
    show true = _
    cases o1 with
    | some s => rfl
    | none =>
      cases o2 with
      | none => exact absurd ⟨rfl, rfl⟩ hnn
      | some t => rfl
  | cons l w ih =>
    intro o1 o2 h1 h2 hnn
    rw [acceptsO_det_cons d1.edges hdet1, acceptsO_det_cons d2.edges hdet2]
    show ((prodEdgesUnionAll d1 d2).filter _).any _ = _
    by_cases hout : (∃ s, o1 = some s ∧ ∃ e ∈ d1.edges, e.1 = s ∧ e.2.2 = l) ∨
        (∃ t, o2 = some t ∧ ∃ e ∈ d2.edges, e.1 = t ∧ e.2.2 = l)
    · have hnn2 : ¬(stepO d1.edges o1 l = none ∧ stepO d2.edges o2 l = none) := by
        rintro ⟨hn1, hn2⟩
        rcases hout with ⟨s, hs, e, he, he1, he2⟩ | ⟨t, ht, e, he, he1, he2⟩
        · obtain ⟨u, hu⟩ := dfaStep_isSome_of_mem d1.edges s l e he he1 he2
          rw [hs] at hn1
          show False
          rw [show stepO d1.edges (some s) l = dfaStep d1.edges s l from rfl] at hn1
          rw [hu] at hn1
          cases hn1
        · obtain ⟨u, hu⟩ := dfaStep_isSome_of_mem d2.edges t l e he he1 he2
          rw [ht] at hn2
          show False
          rw [show stepO d2.edges (some t) l = dfaStep d2.edges t l from rfl] at hn2
          rw [hu] at hn2
          cases hn2
      have hstep1 : ∀ s u, o1 = some s → stepO d1.edges o1 l = some u → u ∈ d1.states := by
        intro s u hs hu
        rw [hs] at hu
        have hmem := (dfaStep_eq_some_iff d1.edges hdet1 s u l).1 hu
        exact (hwf1 _ hmem).2
      have hstep2 : ∀ t u, o2 = some t → stepO d2.edges o2 l = some u → u ∈ d2.states := by
        intro t u ht hu
        rw [ht] at hu
        have hmem := (dfaStep_eq_some_iff d2.edges hdet2 t u l).1 hu
        exact (hwf2 _ hmem).2
      have hihres := ih (stepO d1.edges o1 l) (stepO d2.edges o2 l)
        (by
          intro u hu
          cases ho1 : o1 with
          | none => rw [ho1] at hu; cases hu
          | some s => exact hstep1 s u ho1 hu)
        (by
          intro u hu
          cases ho2 : o2 with
          | none => rw [ho2] at hu; cases hu
          | some t => exact hstep2 t u ho2 hu)
        hnn2
      rw [← hihres]
      rw [Bool.eq_iff_iff, List.any_eq_true]
      constructor
      · rintro ⟨q, hq, hacc⟩
        have hm := List.mem_filter.1 hq
        have hcond : q.1 = (o1, o2) ∧ q.2.2 = l := by simpa using hm.2
        have hall := (mem_prodEdgesUnionAll d1 d2 q).1 hm.1
        have hsucc := hall.2
        rw [hcond.1, hcond.2] at hsucc
        have hq2 := ((mem_unionSuccs d1.edges d2.edges o1 o2 (l, q.2.1)).1 hsucc).2
        have hq21 : q.2.1 = (stepO d1.edges o1 l, stepO d2.edges o2 l) := hq2
        rw [← hq21]
        exact hacc
      · intro hacc
        refine ⟨((o1, o2), (stepO d1.edges o1 l, stepO d2.edges o2 l), l), ?_, hacc⟩
        refine List.mem_filter.2 ⟨?_, by simp⟩
        refine (mem_prodEdgesUnionAll d1 d2 _).2 ⟨⟨?_, ?_, hnn⟩, ?_⟩
        · cases ho1 : o1 with
          | none => simp
          | some s =>
            simp only [List.mem_cons]
            right
            exact List.mem_map.2 ⟨s, h1 s ho1, rfl⟩
        · cases ho2 : o2 with
          | none => simp
          | some t =>
            simp only [List.mem_cons]
            right
            exact List.mem_map.2 ⟨t, h2 t ho2, rfl⟩
        · exact (mem_unionSuccs d1.edges d2.edges o1 o2 _).2 ⟨hout, rfl⟩
    · have hlhs : ((prodEdgesUnionAll d1 d2).filter
          (fun q => q.1 = (o1, o2) ∧ q.2.2 = l)).any
          (fun q => acceptsB (prodEdgesUnionAll d1 d2) q.2.1 w) = false := by
        rw [List.any_eq_false]
        intro q hq
        exfalso
        have hm := List.mem_filter.1 hq
        have hcond : q.1 = (o1, o2) ∧ q.2.2 = l := by simpa using hm.2
        have hall := (mem_prodEdgesUnionAll d1 d2 q).1 hm.1
        have hsucc := hall.2
        rw [hcond.1, hcond.2] at hsucc
        exact hout ((mem_unionSuccs d1.edges d2.edges o1 o2 (l, q.2.1)).1 hsucc).1
      rw [hlhs]
      have hr1 : acceptsO d1.edges (stepO d1.edges o1 l) w = false := by
        cases ho1 : o1 with
        | none => rfl
        | some s =>
          have hn : dfaStep d1.edges s l = none := by
            rw [dfaStep_eq_none_iff]
            intro e he hc
            exact hout (Or.inl ⟨s, ho1, e, he, hc.1, hc.2⟩)
          show acceptsO d1.edges (dfaStep d1.edges s l) w = false
          rw [hn]
          rfl
      have hr2 : acceptsO d2.edges (stepO d2.edges o2 l) w = false := by
        cases ho2 : o2 with
        | none => rfl
        | some t =>
          have hn : dfaStep d2.edges t l = none := by
            rw [dfaStep_eq_none_iff]
            intro e he hc
            exact hout (Or.inr ⟨t, ho2, e, he, hc.1, hc.2⟩)
          show acceptsO d2.edges (dfaStep d2.edges t l) w = false
          rw [hn]
          rfl
      rw [hr1, hr2]
      rfl

theorem dfaIntersection_edges {σ τ : Type} [DecidableEq σ] [DecidableEq τ]
    (d1 : DfaGraph σ) (d2 : DfaGraph τ) :
    (dfaIntersection d1 d2).edges = (prodEdgesInter d1.edges d2.edges).filter
      (fun e => e.1 ∈ reachableStates (prodEdgesInter d1.edges d2.edges)
          (d1.entry, d2.entry) ∧
        e.2.1 ∈ reachableStates (prodEdgesInter d1.edges d2.edges)
          (d1.entry, d2.entry)) := rfl

theorem dfaUnion_edges {σ τ : Type} [DecidableEq σ] [DecidableEq τ]
    (d1 : DfaGraph σ) (d2 : DfaGraph τ) :
    (dfaUnion d1 d2).edges = (prodEdgesUnionAll d1 d2).filter
      (fun e => e.1 ∈ reachableStates (prodEdgesUnionAll d1 d2)
          (some d1.entry, some d2.entry) ∧
        e.2.1 ∈ reachableStates (prodEdgesUnionAll d1 d2)
          (some d1.entry, some d2.entry)) := rfl

theorem dfaIntersection_language {σ τ : Type} [DecidableEq σ] [DecidableEq τ]
    (d1 : DfaGraph σ) (d2 : DfaGraph τ) :
    ∀ w, acceptsB (dfaIntersection d1 d2).edges (d1.entry, d2.entry) w =
      (acceptsB d1.edges d1.entry w && acceptsB d2.edges d2.entry w) := by
  intro w
  have hcl := reachableStates_closed (prodEdgesInter d1.edges d2.edges)
    (d1.entry, d2.entry)
  have hself := reachableStates_self (prodEdgesInter d1.edges d2.edges)
    (d1.entry, d2.entry)
  rw [dfaIntersection_edges]
  refine (acceptsB_filter_closed (prodEdgesInter d1.edges d2.edges) _
    (reachableStates (prodEdgesInter d1.edges d2.edges) (d1.entry, d2.entry))
    ?_ hcl w _ hself).trans
    (acceptsB_prodInter d1.edges d2.edges w d1.entry d2.entry)
  intro e he h1
  simp only [decide_eq_true_eq]
  exact ⟨h1, hcl e he h1⟩

theorem dfaUnion_language {σ τ : Type} [DecidableEq σ] [DecidableEq τ]
    (d1 : DfaGraph σ) (d2 : DfaGraph τ)
    (hdet1 : EdgeDet d1.edges) (hdet2 : EdgeDet d2.edges)
    (hwf1 : ∀ e ∈ d1.edges, e.1 ∈ d1.states ∧ e.2.1 ∈ d1.states)
    (hwf2 : ∀ e ∈ d2.edges, e.1 ∈ d2.states ∧ e.2.1 ∈ d2.states)
    (hent1 : d1.entry ∈ d1.states) (hent2 : d2.entry ∈ d2.states) :
    ∀ w, acceptsB (dfaUnion d1 d2).edges (some d1.entry, some d2.entry) w =
      (acceptsB d1.edges d1.entry w || acceptsB d2.edges d2.entry w) := by
  intro w
  have hcl := reachableStates_closed (prodEdgesUnionAll d1 d2)
    (some d1.entry, some d2.entry)
  have hself := reachableStates_self (prodEdgesUnionAll d1 d2)
    (some d1.entry, some d2.entry)
  rw [dfaUnion_edges]
  refine (acceptsB_filter_closed (prodEdgesUnionAll d1 d2) _
    (reachableStates (prodEdgesUnionAll d1 d2) (some d1.entry, some d2.entry))
    ?_ hcl w _ hself).trans
    (acceptsB_prodUnion d1 d2 hdet1 hdet2 hwf1 hwf2 w (some d1.entry) (some d2.entry)
      (fun s hs => by cases hs; exact hent1) (fun t ht => by cases ht; exact hent2)
      (by rintro ⟨h, _⟩; cases h))
  intro e he h1
  simp only [decide_eq_true_eq]
  exact ⟨h1, hcl e he h1⟩

theorem indexOf?_cons {α : Type} [DecidableEq α] (b : α) (l : List α) (a : α) :
    (b :: l).indexOf? a = if b = a then some 0 else (l.indexOf? a).map (· + 1) := by
  show List.findIdx? (fun x => x == a) (b :: l) = _
  rw [List.findIdx?_cons, List.findIdx?_succ]
  by_cases hb : b = a
  · simp [hb]
  · simp only [hb, if_false]
    rw [if_neg (by simpa using hb)]
    rfl

theorem indexOf?_mem_some {α : Type} [DecidableEq α] (l : List α) (a : α)
    (h : a ∈ l) : ∃ i, l.indexOf? a = some i ∧ i < l.length := by
  induction l with
  | nil => cases h
  | cons b l ih =>
    rw [indexOf?_cons]
    by_cases hb : b = a
    · exact ⟨0, by rw [if_pos hb], by simp⟩
    · rcases List.mem_cons.1 h with rfl | h'
      · exact absurd rfl hb
      · obtain ⟨i, hi, hlt⟩ := ih h'
        refine ⟨i + 1, ?_, by simp; omega⟩
        rw [if_neg hb, hi]
        rfl

theorem indexOf?_lt_length {α : Type} [DecidableEq α] :
    ∀ (l : List α) (a : α) (i : Nat), l.indexOf? a = some i → i < l.length := by
  intro l
  induction l with
  | nil =>
    intro a i h
    cases h
  | cons b l ih =>
    intro a i h
    rw [indexOf?_cons] at h
    by_cases hb : b = a
    · rw [if_pos hb] at h
      cases h
      simp
    · rw [if_neg hb] at h
      cases hj : l.indexOf? a with
      | none => rw [hj] at h; cases h
      | some j =>
        rw [hj] at h
        cases h
        have := ih a j hj
        simp
        omega

theorem indexOf?_inj {α : Type} [DecidableEq α] :
    ∀ (l : List α) (a b : α) (i : Nat),
      l.indexOf? a = some i → l.indexOf? b = some i → a = b := by
  intro l
  induction l with
  | nil =>
    intro a b i h
    cases h
  | cons c l ih =>
    intro a b i h1 h2
    rw [indexOf?_cons] at h1 h2
    by_cases hca : c = a
    · by_cases hcb : c = b
      · rw [← hca, ← hcb]
      · rw [if_pos hca] at h1
        rw [if_neg hcb] at h2
        cases h1
        cases hj : l.indexOf? b with
        | none => rw [hj] at h2; cases h2
        | some j => rw [hj] at h2; cases h2
    · by_cases hcb : c = b
      · rw [if_neg hca] at h1
        rw [if_pos hcb] at h2
        cases h2
        cases hj : l.indexOf? a with
        | none => rw [hj] at h1; cases h1
        | some j => rw [hj] at h1; cases h1
      · rw [if_neg hca] at h1
        rw [if_neg hcb] at h2
        cases hj1 : l.indexOf? a with
        | none => rw [hj1] at h1; cases h1
        | some j1 =>
          rw [hj1] at h1
          cases hj2 : l.indexOf? b with
          | none => rw [hj2] at h2; cases h2
          | some j2 =>
            rw [hj2] at h2
            have e1 : j1 + 1 = i := by simpa using h1
            have e2 : j2 + 1 = i := by simpa using h2
            have : j1 = j2 := by omega
            exact ih a b j1 hj1 (by rw [this]; exact hj2)

theorem option_mapM_mem_forward {α β : Type} (f : α → Option β) :
    ∀ (l : List α) (l' : List β), l.mapM f = some l' →
      ∀ a ∈ l, ∀ b, f a = some b → b ∈ l' := by
  intro l
  induction l with
  | nil =>
    intro l' h a ha
    cases ha
  | cons x l ih =>
    intro l' h a ha b hb
    rw [List.mapM_cons] at h
    cases hfx : f x with
    | none => rw [hfx] at h; cases h
    | some b0 =>
      rw [hfx] at h
      cases hml : l.mapM f with
      | none => rw [hml] at h; cases h
      | some bs =>
        rw [hml] at h
        have hl' : b0 :: bs = l' := by simpa using h
        rw [← hl']
        rcases List.mem_cons.1 ha with rfl | ha'
        · rw [hfx] at hb
          cases hb
          simp
        · exact List.mem_cons_of_mem _ (ih bs hml a ha' b hb)

theorem option_mapM_length {α β : Type} (f : α → Option β) :
    ∀ (l : List α) (l' : List β), l.mapM f = some l' → l'.length = l.length := by
  intro l
  induction l with
  | nil =>
    intro l' h
    cases h
    rfl
  | cons x l ih =>
    intro l' h
    rw [List.mapM_cons] at h
    cases hfx : f x with
    | none => rw [hfx] at h; cases h
    | some b0 =>
      rw [hfx] at h
      cases hml : l.mapM f with
      | none => rw [hml] at h; cases h
      | some bs =>
        rw [hml] at h
        have hl' : b0 :: bs = l' := by simpa using h
        rw [← hl']
        simp [ih bs hml]

theorem acceptsB_indexOf_renumber {σ EL : Type} [DecidableEq σ] [DecidableEq EL]
    (states : List σ) (E : List (σ × σ × EL)) (E' : List (Nat × Nat × EL))
    (hfwd : ∀ e ∈ E, ∀ ia ib, states.indexOf? e.1 = some ia →
      states.indexOf? e.2.1 = some ib → (ia, ib, e.2.2) ∈ E')
    (hbwd : ∀ e' ∈ E', ∃ e ∈ E, states.indexOf? e.1 = some e'.1 ∧
      states.indexOf? e.2.1 = some e'.2.1 ∧ e'.2.2 = e.2.2)
    (hwf : ∀ e ∈ E, e.1 ∈ states ∧ e.2.1 ∈ states) :
    ∀ (w : List EL) (x : σ) (ix : Nat), states.indexOf? x = some ix →
      acceptsB E' ix w = acceptsB E x w := by
  intro w
  induction w with
  | nil => intro x ix _; rfl
  | cons l w ih =>
    intro x ix hix
    rw [Bool.eq_iff_iff, acceptsB_cons_iff, acceptsB_cons_iff]
    constructor
    · rintro ⟨e', he', h1, h2, hacc⟩
      obtain ⟨e, he, hia, hib, hlab⟩ := hbwd e' he'
      rw [h1] at hia
      have hx : e.1 = x := indexOf?_inj states e.1 x ix hia hix
      refine ⟨e, he, hx, hlab ▸ h2, ?_⟩
      rw [← ih e.2.1 e'.2.1 hib]
      exact hacc
    · rintro ⟨e, he, hx, hl, hacc⟩
      obtain ⟨ib, hib, _⟩ := indexOf?_mem_some states e.2.1 (hwf e he).2
      have hia : states.indexOf? e.1 = some ix := by
        rw [hx]
        exact hix
      refine ⟨(ix, ib, e.2.2), hfwd e he ix ib hia hib, rfl, hl, ?_⟩
      show acceptsB E' ib w = true
      rw [ih e.2.1 ib hib]
      exact hacc

theorem createGraphFromDfa_spec {σ U : Type} [DecidableEq σ] (d : DfaGraph σ) (u : U)
    (hwf : ∀ e ∈ d.edges, e.1 ∈ d.states ∧ e.2.1 ∈ d.states)
    (hent : d.entry ∈ d.states) :
    ∃ entry es, createGraphFromDfa d u = some (entry,
        { nodes := (List.range d.states.length).map (fun i => (i, u)),
          edges := es, assoc := [], freshIdx := d.states.length }) ∧
      entry < d.states.length ∧
      (∀ e' ∈ es, e'.1 < d.states.length ∧ e'.2.1 < d.states.length) ∧
      (∀ e' ∈ es, ∃ e ∈ d.edges, d.states.indexOf? e.1 = some e'.1 ∧
        d.states.indexOf? e.2.1 = some e'.2.1 ∧ e'.2.2 = e.2.2) ∧
      (∀ e ∈ d.edges, ∀ ia ib, d.states.indexOf? e.1 = some ia →
        d.states.indexOf? e.2.1 = some ib → (ia, ib, e.2.2) ∈ es) ∧
      (∀ w, acceptsB es entry w = acceptsB d.edges d.entry w) := by
  obtain ⟨es, hes⟩ := option_mapM_eq_some_of_forall
    (fun e => (d.states.indexOf? e.1).bind (fun a =>
      (d.states.indexOf? e.2.1).map (fun b => (a, b, e.2.2)))) d.edges
    (fun e he => by
      obtain ⟨a, ha, _⟩ := indexOf?_mem_some d.states e.1 (hwf e he).1
      obtain ⟨b, hb, _⟩ := indexOf?_mem_some d.states e.2.1 (hwf e he).2
      refine ⟨(a, b, e.2.2), ?_⟩
      show ((d.states.indexOf? e.1).bind (fun a =>
        (d.states.indexOf? e.2.1).map (fun b => (a, b, e.2.2)))) = _
      rw [ha]
      show ((d.states.indexOf? e.2.1).map (fun b => (a, b, e.2.2))) = _
      rw [hb]
      rfl)
  obtain ⟨entry, hentry, hentrylt⟩ := indexOf?_mem_some d.states d.entry hent
  have hbwd : ∀ e' ∈ es, ∃ e ∈ d.edges, d.states.indexOf? e.1 = some e'.1 ∧
      d.states.indexOf? e.2.1 = some e'.2.1 ∧ e'.2.2 = e.2.2 := by
    intro e' he'
    obtain ⟨e, he, hFe⟩ := option_mapM_mem _ d.edges es hes e' he'
    obtain ⟨a, ha, hmap⟩ := Option.bind_eq_some.1 hFe
    obtain ⟨b, hb, heq⟩ := Option.map_eq_some'.1 hmap
    subst heq
    exact ⟨e, he, ha, hb, rfl⟩
  have hfwd : ∀ e ∈ d.edges, ∀ ia ib, d.states.indexOf? e.1 = some ia →
      d.states.indexOf? e.2.1 = some ib → (ia, ib, e.2.2) ∈ es := by
    intro e he ia ib hia hib
    refine option_mapM_mem_forward _ d.edges es hes e he (ia, ib, e.2.2) ?_
    rw [hia]
    show ((d.states.indexOf? e.2.1).map (fun b => (ia, b, e.2.2))) = _
    rw [hib]
    rfl
  refine ⟨entry, es, ?_, hentrylt, ?_, hbwd, hfwd, ?_⟩
  · unfold createGraphFromDfa
    rw [hes, hentry]
  · intro e' he'
    obtain ⟨e, he, hia, hib, _⟩ := hbwd e' he'
    exact ⟨indexOf?_lt_length d.states e.1 e'.1 hia,
      indexOf?_lt_length d.states e.2.1 e'.2.1 hib⟩
  · intro w
    exact acceptsB_indexOf_renumber d.states d.edges es hfwd hbwd hwf w d.entry
      entry hentry

theorem alookup_map_keyfix_isSome {κ α β : Type} [DecidableEq κ]
    (l : List (κ × α)) (f : κ × α → κ × β) (hf : ∀ p, (f p).1 = p.1) (k : κ) :
    (alookup (l.map f) k).isSome = (alookup l k).isSome := by
  rw [alookup_map_keyfix l f hf k]
  unfold alookup
  cases l.find? (fun p => p.1 = k) <;> rfl

theorem foldl_graph_preserve {W K E α : Type} [DecidableEq K] [DecidableEq E]
    [DecidableEq W] (step : MappingGraph W K E → α → MappingGraph W K E)
    (hstep : ∀ h pr, (step h pr).edges = h.edges ∧ (step h pr).assoc = h.assoc ∧
      (step h pr).freshIdx = h.freshIdx ∧
      (∀ k, ((step h pr).weightAt k).isSome = (h.weightAt k).isSome) ∧
      (step h pr).nodes.map (fun p => p.1) = h.nodes.map (fun p => p.1)) :
    ∀ (L : List α) (g0 : MappingGraph W K E),
      (L.foldl step g0).edges = g0.edges ∧ (L.foldl step g0).assoc = g0.assoc ∧
      (L.foldl step g0).freshIdx = g0.freshIdx ∧
      (∀ k, ((L.foldl step g0).weightAt k).isSome = (g0.weightAt k).isSome) ∧
      (L.foldl step g0).nodes.map (fun p => p.1) = g0.nodes.map (fun p => p.1) := by
  intro L
  induction L with
  | nil => intro g0; exact ⟨rfl, rfl, rfl, fun k => rfl, rfl⟩
  | cons pr L ih =>
    intro g0
    rw [List.foldl_cons]
    obtain ⟨h1, h2, h3, h4, h5⟩ := ih (step g0 pr)
    obtain ⟨s1, s2, s3, s4, s5⟩ := hstep g0 pr
    exact ⟨h1.trans s1, h2.trans s2, h3.trans s3, fun k => (h4 k).trans (s4 k),
      h5.trans s5⟩

theorem alookup_map_const_mem {α : Type} (u : α) :
    ∀ (l : List Nat) (i : Nat), i ∈ l →
      alookup (l.map (fun j => (j, u))) i = some u := by
  intro l
  induction l with
  | nil => intro i h; cases h
  | cons j l ih =>
    intro i h
    rw [List.map_cons, alookup_cons]
    by_cases hj : j = i
    · rw [if_pos hj]
    · rw [if_neg hj]
      rcases List.mem_cons.1 h with rfl | h'
      · exact absurd rfl hj
      · exact ih i h'

/-! ### The trivial quotient: on a deterministic Load/Store-free graph the
edge-implication closure starting from the discrete partition never merges
anything. -/

theorem labGet_initLabeling (n i : Nat) : labGet (initLabeling n) i = i := by
  unfold labGet initLabeling
  rw [List.getD_eq_getElem?_getD]
  by_cases h : i < n
  · rw [List.getElem?_range h]
    rfl
  · rw [List.getElem?_eq_none (by simpa using Nat.le_of_not_lt h)]
    rfl

theorem ufUnion_self (L : Labeling) (a : Nat) : ufUnion L a a = L := by
  unfold ufUnion
  have h : ∀ x, (if x = labGet L a then labGet L a else x) = x := by
    intro x
    by_cases hx : x = labGet L a
    · rw [if_pos hx, hx]
    · rw [if_neg hx]
  calc L.map (fun x => if x = labGet L a then labGet L a else x)
      = L.map (fun x => x) := by rw [funext h]
    _ = L := List.map_id' L

theorem sweepStep_fix (EI : List EdgeImplication) :
    ∀ L : Labeling,
      (∀ im ∈ EI, labGet L im.eq.1 = labGet L im.eq.2 →
        ufUnion L im.edge.1 im.edge.2 = L) →
      (sweepStep EI L).2 = L := by
  induction EI with
  | nil => intro L _; rfl
  | cons im rest ih =>
    intro L h
    by_cases hc : labGet L im.eq.1 = labGet L im.eq.2
    · rw [sweepStep_cons_pos im rest L hc, h im (by simp) hc]
      exact ih L (fun im' h' => h im' (List.mem_cons_of_mem _ h'))
    · rw [sweepStep_cons_neg im rest L hc]
      exact ih L (fun im' h' => h im' (List.mem_cons_of_mem _ h'))

theorem quotientLoop_fix (fuel : Nat) (EI : List EdgeImplication) (L : Labeling)
    (h : (sweepStep EI L).2 = L) (hf : 0 < fuel) :
    (quotientLoop fuel EI L).2 = L := by
  cases fuel with
  | zero => omega
  | succ f =>
    simp only [quotientLoop]
    rw [if_pos h]
    exact h

theorem mem_getEdgeSet {W K : Type} [DecidableEq K]
    (g : MappingGraph W K FieldLabel) (im : EdgeImplication) :
    im ∈ getEdgeSet g ↔ ∃ e1 ∈ g.edges, ∃ e2 ∈ g.edges,
      (e1.2.2 = e2.2.2 ∨ (e1.2.2 = FieldLabel.load ∧ e2.2.2 = FieldLabel.store)) ∧
      im = ⟨(e1.1, e2.1), (e1.2.1, e2.2.1)⟩ := by
  unfold getEdgeSet
  rw [mem_dedupFirst, List.mem_filterMap]
  constructor
  · rintro ⟨q, hq, hif⟩
    obtain ⟨e1, he1, hmap⟩ := List.mem_flatMap.1 hq
    obtain ⟨e2, he2, hqe⟩ := List.mem_map.1 hmap
    subst hqe
    by_cases hcond : e1.2.2 = e2.2.2 ∨ (e1.2.2 = FieldLabel.load ∧ e2.2.2 = FieldLabel.store)
    · rw [if_pos hcond] at hif
      exact ⟨e1, he1, e2, he2, hcond, (Option.some_injective _ hif).symm⟩
    · rw [if_neg hcond] at hif
      cases hif
  · rintro ⟨e1, he1, e2, he2, hcond, him⟩
    refine ⟨(e1, e2), List.mem_flatMap.2 ⟨e1, he1, List.mem_map.2 ⟨e2, he2, rfl⟩⟩, ?_⟩
    rw [if_pos hcond, him]

theorem findIdx?_congr_pred {α : Type} (p q : α → Bool) (hpq : ∀ a, p a = q a) :
    ∀ l : List α, l.findIdx? p = l.findIdx? q := by
  intro l
  induction l with
  | nil => rfl
  | cons a l ih =>
    rw [List.findIdx?_cons, List.findIdx?_cons, hpq a]
    by_cases hq : q a = true
    · rw [if_pos hq, if_pos hq]
    · rw [if_neg hq, if_neg hq, List.findIdx?_succ, List.findIdx?_succ, ih]

theorem findIdx?_map_own {α β : Type} (f : α → β) (p : β → Bool) :
    ∀ l : List α, (l.map f).findIdx? p = l.findIdx? (fun a => p (f a)) := by
  intro l
  induction l with
  | nil => rfl
  | cons a l ih =>
    rw [List.map_cons, List.findIdx?_cons, List.findIdx?_cons]
    by_cases hp : p (f a) = true
    · rw [if_pos hp, if_pos hp]
    · rw [if_neg hp, if_neg hp, List.findIdx?_succ, List.findIdx?_succ, ih]

theorem range_findIdx_lt : ∀ (n i : Nat), i < n →
    (List.range n).findIdx? (fun r => r = i) = some i := by
  intro n
  induction n with
  | zero => intro i h; omega
  | succ n ih =>
    intro i h
    rw [List.range_succ_eq_map, List.findIdx?_cons]
    cases i with
    | zero => rw [if_pos (by simp)]
    | succ j =>
      rw [if_neg (by simp), List.findIdx?_succ, findIdx?_map_own]
      rw [findIdx?_congr_pred (fun a => decide (Nat.succ a = Nat.succ j))
        (fun a => decide (a = j)) (fun a => by rw [decide_eq_decide]; omega)]
      rw [ih j (by omega)]
      rfl

theorem range_filter_eq (n r : Nat) (h : r < n) :
    (List.range n).filter (fun i => i = r) = [r] := by
  induction n with
  | zero => omega
  | succ n ih =>
    rw [List.range_succ, List.filter_append]
    by_cases hr : r < n
    · rw [ih hr, show List.filter (fun i => decide (i = r)) [n] = [] by
        simp; omega]
      simp
    · have hrn : r = n := by omega
      subst hrn
      rw [show List.filter (fun i => decide (i = r)) (List.range r) = [] from
        List.filter_eq_nil.2 (fun i hi => by
          have := List.mem_range.1 hi
          simp
          omega)]
      simp

theorem dedupFirstAux_eq_self {α : Type} [DecidableEq α] :
    ∀ (l seen : List α), l.Nodup → (∀ a ∈ l, a ∉ seen) → dedupFirstAux seen l = l := by
  intro l
  induction l with
  | nil => intro seen _ _; rfl
  | cons a l ih =>
    intro seen hnd hs
    rw [show dedupFirstAux seen (a :: l) =
        if a ∈ seen then dedupFirstAux seen l else a :: dedupFirstAux (a :: seen) l
      from rfl]
    rw [if_neg (hs a (by simp))]
    rw [ih (a :: seen) (List.nodup_cons.1 hnd).2 (fun x hx => by
      intro hmem
      rcases List.mem_cons.1 hmem with rfl | hmem'
      · exact (List.nodup_cons.1 hnd).1 hx
      · exact hs x (List.mem_cons_of_mem _ hx) hmem')]

theorem dedupFirst_eq_self {α : Type} [DecidableEq α] (l : List α) (h : l.Nodup) :
    dedupFirst l = l :=
  dedupFirstAux_eq_self l [] h (fun a _ => by simp)

theorem option_mapM_id {α : Type} (f : α → Option α) :
    ∀ l : List α, (∀ a ∈ l, f a = some a) → l.mapM f = some l := by
  intro l
  induction l with
  | nil => intro _; rfl
  | cons a l ih =>
    intro h
    rw [List.mapM_cons, h a (by simp), ih (fun x hx => h x (List.mem_cons_of_mem _ hx))]
    rfl

theorem reprIdx_range_singleton (n i : Nat) (h : i < n) :
    MappingGraph.reprIdxOf ((List.range n).map (fun r => [r])) i = some i := by
  unfold MappingGraph.reprIdxOf
  rw [findIdx?_map_own]
  rw [findIdx?_congr_pred (fun a => decide (i ∈ [a])) (fun a => decide (a = i))
    (fun a => by rw [decide_eq_decide]; simp [eq_comm])]
  exact range_findIdx_lt n i h

theorem groupWeight_singleton {W K E : Type} [DecidableEq K] [DecidableEq E]
    [DecidableEq W] (op : W → W → W) (g : MappingGraph W K E) (r : Nat) :
    MappingGraph.groupWeight op g [r] = g.weightAt r := by
  unfold MappingGraph.groupWeight
  cases hw : g.weightAt r with
  | none =>
    rw [show (([r] : List Nat).mapM (fun i => g.weightAt i)) = none by
      rw [List.mapM_cons, hw]; rfl]
  | some w =>
    rw [show (([r] : List Nat).mapM (fun i => g.weightAt i)) = some [w] by
      rw [List.mapM_cons, hw]; rfl]
    rfl

theorem quoetientGraph_identity {W K E : Type} [DecidableEq K] [DecidableEq E]
    [DecidableEq W] (op : W → W → W) (g : MappingGraph W K E) (n : Nat)
    (hweights : ∀ i, i < n → (g.weightAt i).isSome = true)
    (hbound : ∀ e ∈ g.edges, e.1 < n ∧ e.2.1 < n)
    (hassoc : g.assoc = []) :
    ∃ ws, ws.length = n ∧
      MappingGraph.quoetientGraph op g ((List.range n).map (fun r => [r])) = some
        { nodes := (List.range n).zip ws, edges := dedupFirst g.edges, assoc := [],
          freshIdx := n } := by
  have hgs : ((List.range n).map (fun r => [r])).filter (fun grp => ¬grp.isEmpty) =
      (List.range n).map (fun r => [r]) :=
    List.filter_eq_self.2 (fun grp hgrp => by
      obtain ⟨r, _, rfl⟩ := List.mem_map.1 hgrp
      simp)
  obtain ⟨ws, hws⟩ := option_mapM_eq_some_of_forall (MappingGraph.groupWeight op g)
    ((List.range n).map (fun r => [r])) (fun grp hgrp => by
      obtain ⟨r, hr, rfl⟩ := List.mem_map.1 hgrp
      rw [groupWeight_singleton]
      exact Option.isSome_iff_exists.1 (hweights r (List.mem_range.1 hr)))
  have hlen : ws.length = n := by
    have := option_mapM_length _ _ _ hws
    simpa using this
  have hedges : g.edges.mapM (fun e =>
      (MappingGraph.reprIdxOf ((List.range n).map (fun r => [r])) e.1).bind (fun rs =>
        (MappingGraph.reprIdxOf ((List.range n).map (fun r => [r])) e.2.1).map
          (fun rd => (rs, rd, e.2.2)))) = some g.edges :=
    option_mapM_id _ g.edges (fun e he => by
      show ((MappingGraph.reprIdxOf ((List.range n).map (fun r => [r])) e.1).bind
        (fun rs => (MappingGraph.reprIdxOf ((List.range n).map (fun r => [r])) e.2.1).map
          (fun rd => (rs, rd, e.2.2)))) = _
      rw [reprIdx_range_singleton n e.1 (hbound e he).1]
      show ((MappingGraph.reprIdxOf ((List.range n).map (fun r => [r])) e.2.1).map
        (fun rd => (e.1, rd, e.2.2))) = _
      rw [reprIdx_range_singleton n e.2.1 (hbound e he).2]
      rfl)
  refine ⟨ws, hlen, ?_⟩
  simp only [MappingGraph.quoetientGraph]
  rw [hgs, hws, hedges, hassoc]
  show some (⟨(List.range ((List.range n).map (fun r => [r])).length).zip ws,
      dedupFirst g.edges, [],
      ((List.range n).map (fun r => [r])).length⟩ : MappingGraph W K E) = _
  rw [List.length_map, List.length_range]

theorem constraintQuotients_trivial {W : Type}
    (g : MappingGraph W DerivedTypeVar FieldLabel) (n : Nat) (hn : 0 < n)
    (hkeys : g.nodes.map (fun p => p.1) = List.range n) :
    constraintQuotients g [] = some (initLabeling n) := by
  have hmax : (List.range n).max? = some (n - 1) := by
    rw [List.max?_eq_some_iff (fun a => Nat.le_refl a)
      (fun a b => by
        rcases Nat.le_total a b with h | h
        · right; exact Nat.max_eq_right h
        · left; exact Nat.max_eq_left h)
      (fun a b c => Nat.max_le)]
    refine ⟨List.mem_range.2 (by omega), fun b hb => ?_⟩
    have := List.mem_range.1 hb
    omega
  unfold constraintQuotients
  rw [hkeys, hmax]
  show some (initLabeling (n - 1 + 1)) = some (initLabeling n)
  rw [Nat.sub_add_cancel hn]

theorem generateQuotientGroups_identity {W : Type}
    (g : MappingGraph W DerivedTypeVar FieldLabel) (n : Nat) (hn : 0 < n)
    (hkeys : g.nodes.map (fun p => p.1) = List.range n)
    (hweights : ∀ i, i < n → (g.weightAt i).isSome = true)
    (hdet : EdgeDet g.edges)
    (hls : ∀ e ∈ g.edges, e.2.2 ≠ FieldLabel.load ∧ e.2.2 ≠ FieldLabel.store) :
    generateQuotientGroups g [] = some ((List.range n).map (fun r => [r])) := by
  have hcq := constraintQuotients_trivial g n hn hkeys
  have hfix : (sweepStep (getEdgeSet g) (initLabeling n)).2 = initLabeling n := by
    apply sweepStep_fix
    intro im him heq
    obtain ⟨e1, he1, e2, he2, hcond, him2⟩ := (mem_getEdgeSet g im).1 him
    subst him2
    have hsame : e1.2.2 = e2.2.2 := by
      rcases hcond with h | h
      · exact h
      · exact absurd h.1 (hls e1 he1).1
    have heq' : labGet (initLabeling n) e1.1 = labGet (initLabeling n) e2.1 := heq
    rw [labGet_initLabeling n e1.1, labGet_initLabeling n e2.1] at heq'
    have htgt : e1.2.1 = e2.2.1 := hdet e1 he1 e2 he2 heq' hsame
    show ufUnion (initLabeling n) e1.2.1 e2.2.1 = initLabeling n
    rw [htgt]
    exact ufUnion_self _ _
  have hloop : (quotientLoop ((getEdgeSet g).length + 1) (getEdgeSet g)
      (initLabeling n)).2 = initLabeling n :=
    quotientLoop_fix _ _ _ hfix (by omega)
  simp only [generateQuotientGroups, hcq, Option.map_some']
  rw [hloop]
  have hlenL : (initLabeling n).length = n := List.length_range n
  rw [hlenL]
  have hids : (List.range n).filter (fun i => (g.weightAt i).isSome) = List.range n :=
    List.filter_eq_self.2 (fun i hi => hweights i (List.mem_range.1 hi))
  rw [hids]
  have hmap : (List.range n).map (labGet (initLabeling n)) = List.range n := by
    calc (List.range n).map (labGet (initLabeling n))
        = (List.range n).map (fun i => i) :=
          List.map_congr_left (fun i _ => labGet_initLabeling n i)
      _ = List.range n := List.map_id' _
  rw [hmap, dedupFirst_eq_self _ (List.nodup_range _)]
  refine congrArg some ?_
  apply List.map_congr_left
  intro r hr
  have hr' := List.mem_range.1 hr
  calc (List.range n).filter (fun i => labGet (initLabeling n) i = r)
      = (List.range n).filter (fun i => i = r) :=
        List.filter_congr (fun i _ => by rw [labGet_initLabeling n i])
    _ = [r] := range_filter_eq n r hr'

theorem map_fst_keyfix {κ α β : Type} (l : List (κ × α)) (f : κ × α → κ × β)
    (hf : ∀ p, (f p).1 = p.1) :
    (l.map f).map (fun p => p.1) = l.map (fun p => p.1) := by
  rw [List.map_map]
  exact List.map_congr_left (fun p _ => hf p)

theorem weightedOf_preserve {U : Type} [DecidableEq U] (self other : Sketch U)
    (latticeOp : U → U → U) (e1 e2 entry : Nat)
    (g0 : MappingGraph U DerivedTypeVar FieldLabel) :
    (weightedOf self other latticeOp e1 e2 entry g0).edges = g0.edges ∧
    (weightedOf self other latticeOp e1 e2 entry g0).assoc = g0.assoc ∧
    (weightedOf self other latticeOp e1 e2 entry g0).freshIdx = g0.freshIdx ∧
    (∀ k, ((weightedOf self other latticeOp e1 e2 entry g0).weightAt k).isSome =
      (g0.weightAt k).isSome) ∧
    (weightedOf self other latticeOp e1 e2 entry g0).nodes.map (fun p => p.1) =
      g0.nodes.map (fun p => p.1) := by
  unfold weightedOf
  apply foldl_graph_preserve
  intro h pr
  refine ⟨rfl, rfl, rfl, ?_, ?_⟩
  · intro k
    exact alookup_map_keyfix_isSome h.nodes _ (fun p => by
      by_cases hp : p.1 = pr.2
      · rw [if_pos hp]
      · rw [if_neg hp]) k
  · exact map_fst_keyfix h.nodes _ (fun p => by
      by_cases hp : p.1 = pr.2
      · rw [if_pos hp]
      · rw [if_neg hp])

theorem map_fst_pair_map {α β : Type} (u : β) (l : List α) :
    (l.map (fun i => (i, u))).map (fun p => p.1) = l := by
  rw [List.map_map]
  exact (List.map_congr_left (fun i _ => rfl)).trans (List.map_id' _)

/-- `binop_sketch` on a well-formed, deterministic, Load/Store-free resultant
DFA succeeds, and the produced sketch accepts exactly the language of the
resultant from its entry; determinism, Load/Store-freeness and
well-formedness carry over to the produced sketch. -/
theorem binopSketch_spec {σ U : Type} [DecidableEq σ] [DecidableEq U]
    (self other : Sketch U) (latticeOp magmaOp : U → U → U) (resultant : DfaGraph σ)
    (hcal : self.representing.toCallee = other.representing.toCallee)
    {e1 e2 : Nat} (hge1 : self.getEntry = some e1) (hge2 : other.getEntry = some e2)
    (hrwf : ∀ e ∈ resultant.edges, e.1 ∈ resultant.states ∧ e.2.1 ∈ resultant.states)
    (hrent : resultant.entry ∈ resultant.states)
    (hrdet : EdgeDet resultant.edges)
    (hrls : ∀ e ∈ resultant.edges, e.2.2 ≠ FieldLabel.load ∧ e.2.2 ≠ FieldLabel.store) :
    ∃ res, binopSketch self other latticeOp magmaOp resultant = some res ∧
      res.representing = self.representing ∧
      res.defaultLabel = self.defaultLabel ∧
      (∃ er, res.getEntry = some er ∧
        er ∈ res.quotientGraph.nodes.map (fun p => p.1)) ∧
      EdgeDet res.quotientGraph.edges ∧
      (∀ e ∈ res.quotientGraph.edges,
        e.2.2 ≠ FieldLabel.load ∧ e.2.2 ≠ FieldLabel.store) ∧
      (∀ e ∈ res.quotientGraph.edges,
        e.1 ∈ res.quotientGraph.nodes.map (fun p => p.1) ∧
        e.2.1 ∈ res.quotientGraph.nodes.map (fun p => p.1)) ∧
      (∀ w, sketchAccepts res w = acceptsB resultant.edges resultant.entry w) := by
  have hn : 0 < resultant.states.length :=
    List.length_pos.2 (List.ne_nil_of_mem hrent)
  obtain ⟨entry, es, hcreate, hentlt, hesbound, hbwd, hfwd, hacc⟩ :=
    createGraphFromDfa_spec resultant self.defaultLabel hrwf hrent
  have hesdet : EdgeDet es := by
    intro a ha b hb h1 h2
    obtain ⟨ea, hea, hia, hia2, hla⟩ := hbwd a ha
    obtain ⟨eb, heb, hib, hib2, hlb⟩ := hbwd b hb
    rw [h1] at hia
    have hsrc : ea.1 = eb.1 := indexOf?_inj resultant.states ea.1 eb.1 b.1 hia hib
    have hlab : ea.2.2 = eb.2.2 := by
      rw [← hla, ← hlb]
      exact h2
    have htgt : ea.2.1 = eb.2.1 := hrdet ea hea eb heb hsrc hlab
    rw [htgt] at hia2
    rw [hia2] at hib2
    exact Option.some_injective _ hib2
  have hesls : ∀ e ∈ es, e.2.2 ≠ FieldLabel.load ∧ e.2.2 ≠ FieldLabel.store := by
    intro e he
    obtain ⟨e0, he0, _, _, hl⟩ := hbwd e he
    rw [hl]
    exact hrls e0 he0
  set n := resultant.states.length with hnn
  set G0 : MappingGraph U DerivedTypeVar FieldLabel :=
    { nodes := (List.range n).map (fun i => (i, self.defaultLabel)),
      edges := es, assoc := [], freshIdx := n } with hG0
  obtain ⟨hWe, hWa, hWf, hWw, hWn⟩ :=
    weightedOf_preserve self other latticeOp e1 e2 entry G0
  have hkeys : (weightedOf self other latticeOp e1 e2 entry G0).nodes.map
      (fun p => p.1) = List.range n := by
    rw [hWn]
    exact map_fst_pair_map self.defaultLabel (List.range n)
  have hweights : ∀ i, i < n →
      ((weightedOf self other latticeOp e1 e2 entry G0).weightAt i).isSome = true := by
    intro i hi
    rw [hWw i]
    show (alookup ((List.range n).map (fun j => (j, self.defaultLabel))) i).isSome = true
    rw [alookup_map_const_mem self.defaultLabel (List.range n) i (List.mem_range.2 hi)]
    rfl
  have hquotgroups : generateQuotientGroups
      (weightedOf self other latticeOp e1 e2 entry G0) [] =
      some ((List.range n).map (fun r => [r])) := by
    refine generateQuotientGroups_identity _ n hn hkeys hweights ?_ ?_
    · rw [hWe]
      exact hesdet
    · rw [hWe]
      exact hesls
  obtain ⟨ws, hwslen, hquot⟩ := quoetientGraph_identity magmaOp
    (weightedOf self other latticeOp e1 e2 entry G0) n hweights
    (by rw [hWe]; exact hesbound) (by rw [hWa])
  have hrun : binopSketch self other latticeOp magmaOp resultant = some
      { quotientGraph := { nodes := (List.range n).zip ws, edges := dedupFirst es,
                           assoc := [(self.representing, entry)], freshIdx := n },
        representing := self.representing, defaultLabel := self.defaultLabel } := by
    unfold binopSketch
    rw [if_pos hcal, hge1, hge2, hcreate]
    show ((match generateQuotientGroups
        (weightedOf self other latticeOp e1 e2 entry G0) [] with
      | none => none
      | some groups =>
        match (weightedOf self other latticeOp e1 e2 entry G0).quoetientGraph
            magmaOp groups with
        | none => none
        | some quotG =>
          some { quotientGraph := { quotG with assoc := [(self.representing, entry)] },
                 representing := self.representing,
                 defaultLabel := self.defaultLabel }) : Option (Sketch U)) = _
    rw [hquotgroups]
    show ((match (weightedOf self other latticeOp e1 e2 entry G0).quoetientGraph
        magmaOp ((List.range n).map (fun r => [r])) with
      | none => none
      | some quotG =>
        some { quotientGraph := { quotG with assoc := [(self.representing, entry)] },
               representing := self.representing,
               defaultLabel := self.defaultLabel }) : Option (Sketch U)) = _
    rw [hquot, hWe]
  have hzipfst : ((List.range n).zip ws).map (fun p => p.1) = List.range n := by
    have h1 : ((List.range n).zip ws).map (fun p => p.1) =
        ((List.range n).zip ws).map Prod.fst := List.map_congr_left (fun p _ => rfl)
    rw [h1, List.map_fst_zip]
    rw [List.length_range, hwslen]
  refine ⟨_, hrun, rfl, rfl, ⟨entry, ?_, ?_⟩, ?_, ?_, ?_, ?_⟩
  · show alookup [(self.representing, entry)] self.representing = some entry
    rw [alookup_cons, if_pos rfl]
  · show entry ∈ ((List.range n).zip ws).map (fun p => p.1)
    rw [hzipfst]
    exact List.mem_range.2 hentlt
  · intro a ha b hb h1 h2
    exact hesdet a ((mem_dedupFirst _ _).1 ha) b ((mem_dedupFirst _ _).1 hb) h1 h2
  · intro e he
    exact hesls e ((mem_dedupFirst _ _).1 he)
  · intro e he
    have he' := (mem_dedupFirst _ _).1 he
    have hb := hesbound e he'
    show e.1 ∈ ((List.range n).zip ws).map (fun p => p.1) ∧
      e.2.1 ∈ ((List.range n).zip ws).map (fun p => p.1)
    rw [hzipfst]
    exact ⟨List.mem_range.2 hb.1, List.mem_range.2 hb.2⟩
  · intro w
    have hentr : ({ quotientGraph := { nodes := (List.range n).zip ws,
                                       edges := dedupFirst es,
                                       assoc := [(self.representing, entry)],
                                       freshIdx := n },
                    representing := self.representing,
                    defaultLabel := self.defaultLabel } : Sketch U).getEntry =
        some entry := by
      show alookup [(self.representing, entry)] self.representing = some entry
      rw [alookup_cons, if_pos rfl]
    unfold sketchAccepts
    rw [hentr]
    show acceptsB (dedupFirst es) entry w = _
    rw [acceptsB_congr (dedupFirst es) es (fun e => mem_dedupFirst es e) w entry]
    exact hacc w

/-- Well-formedness of a sketch as needed by the binary operations: a
present entry among the nodes, deterministic edges, no Load/Store edges,
and edges staying among the nodes. -/
def GoodSketch {U : Type} [DecidableEq U] (s : Sketch U) : Prop :=
  (∃ e, s.getEntry = some e ∧ e ∈ s.quotientGraph.nodes.map (fun p => p.1)) ∧
  EdgeDet s.quotientGraph.edges ∧
  (∀ e ∈ s.quotientGraph.edges, e.2.2 ≠ FieldLabel.load ∧ e.2.2 ≠ FieldLabel.store) ∧
  (∀ e ∈ s.quotientGraph.edges,
    e.1 ∈ s.quotientGraph.nodes.map (fun p => p.1) ∧
    e.2.1 ∈ s.quotientGraph.nodes.map (fun p => p.1))

theorem toDfa_of_entry {U : Type} [DecidableEq U] (s : Sketch U) (e : Nat)
    (h : s.getEntry = some e) :
    s.toDfa = some { entry := e, states := s.quotientGraph.nodes.map (fun p => p.1),
                     edges := s.quotientGraph.edges } := by
  unfold Sketch.toDfa
  rw [h]
  rfl

theorem dfaIntersection_states {σ τ : Type} [DecidableEq σ] [DecidableEq τ]
    (d1 : DfaGraph σ) (d2 : DfaGraph τ) :
    (dfaIntersection d1 d2).states =
      reachableStates (prodEdgesInter d1.edges d2.edges) (d1.entry, d2.entry) := rfl

theorem dfaIntersection_entry {σ τ : Type} [DecidableEq σ] [DecidableEq τ]
    (d1 : DfaGraph σ) (d2 : DfaGraph τ) :
    (dfaIntersection d1 d2).entry = (d1.entry, d2.entry) := rfl

theorem dfaUnion_states {σ τ : Type} [DecidableEq σ] [DecidableEq τ]
    (d1 : DfaGraph σ) (d2 : DfaGraph τ) :
    (dfaUnion d1 d2).states =
      reachableStates (prodEdgesUnionAll d1 d2) (some d1.entry, some d2.entry) := rfl

theorem dfaUnion_entry {σ τ : Type} [DecidableEq σ] [DecidableEq τ]
    (d1 : DfaGraph σ) (d2 : DfaGraph τ) :
    (dfaUnion d1 d2).entry = (some d1.entry, some d2.entry) := rfl

theorem edgeDet_of_sub {σ : Type} (E E' : List (σ × σ × FieldLabel))
    (hsub : ∀ e ∈ E', e ∈ E) (hdet : EdgeDet E) : EdgeDet E' :=
  fun e he e' he' h1 h2 => hdet e (hsub e he) e' (hsub e' he') h1 h2

theorem prodEdgesInter_det {σ τ : Type} [DecidableEq σ] [DecidableEq τ]
    (E1 : List (σ × σ × FieldLabel)) (E2 : List (τ × τ × FieldLabel))
    (hdet1 : EdgeDet E1) (hdet2 : EdgeDet E2) : EdgeDet (prodEdgesInter E1 E2) := by
  intro q hq q' hq' h1 h2
  obtain ⟨e1, he1, e2, he2, hl, hqe⟩ := (mem_prodEdgesInter E1 E2 q).1 hq
  obtain ⟨f1, hf1, f2, hf2, hl', hqe'⟩ := (mem_prodEdgesInter E1 E2 q').1 hq'
  subst hqe
  subst hqe'
  have hq1 : (e1.1, e2.1) = (f1.1, f2.1) := h1
  injection hq1 with hs1 hs2
  have hlab1 : e1.2.2 = f1.2.2 := h2
  have hlab2 : e2.2.2 = f2.2.2 := by rw [hl, hl', hlab1]
  have ht1 := hdet1 e1 he1 f1 hf1 hs1 hlab1
  have ht2 := hdet2 e2 he2 f2 hf2 hs2 hlab2
  show (e1.2.1, e2.2.1) = (f1.2.1, f2.2.1)
  rw [ht1, ht2]

theorem prodEdgesUnionAll_det {σ τ : Type} [DecidableEq σ] [DecidableEq τ]
    (d1 : DfaGraph σ) (d2 : DfaGraph τ) : EdgeDet (prodEdgesUnionAll d1 d2) := by
  intro q hq q' hq' h1 h2
  have hs := ((mem_prodEdgesUnionAll d1 d2 q).1 hq).2
  have hs' := ((mem_prodEdgesUnionAll d1 d2 q').1 hq').2
  have h3 := ((mem_unionSuccs d1.edges d2.edges q.1.1 q.1.2 (q.2.2, q.2.1)).1 (by
    rw [show (q.1.1, q.1.2) = q.1 from rfl]
    exact hs)).2
  have h4 := ((mem_unionSuccs d1.edges d2.edges q'.1.1 q'.1.2 (q'.2.2, q'.2.1)).1 (by
    rw [show (q'.1.1, q'.1.2) = q'.1 from rfl]
    exact hs')).2
  show q.2.1 = q'.2.1
  have h3' : q.2.1 = (stepO d1.edges q.1.1 q.2.2, stepO d2.edges q.1.2 q.2.2) := h3
  have h4' : q'.2.1 = (stepO d1.edges q'.1.1 q'.2.2, stepO d2.edges q'.1.2 q'.2.2) := h4
  rw [h3', h4', h1, h2]

theorem prodEdgesInter_ls {σ τ : Type} [DecidableEq σ] [DecidableEq τ]
    (E1 : List (σ × σ × FieldLabel)) (E2 : List (τ × τ × FieldLabel))
    (hls1 : ∀ e ∈ E1, e.2.2 ≠ FieldLabel.load ∧ e.2.2 ≠ FieldLabel.store) :
    ∀ q ∈ prodEdgesInter E1 E2, q.2.2 ≠ FieldLabel.load ∧ q.2.2 ≠ FieldLabel.store := by
  intro q hq
  obtain ⟨e1, he1, e2, he2, hl, hqe⟩ := (mem_prodEdgesInter E1 E2 q).1 hq
  subst hqe
  exact hls1 e1 he1

theorem prodEdgesUnionAll_ls {σ τ : Type} [DecidableEq σ] [DecidableEq τ]
    (d1 : DfaGraph σ) (d2 : DfaGraph τ)
    (hls1 : ∀ e ∈ d1.edges, e.2.2 ≠ FieldLabel.load ∧ e.2.2 ≠ FieldLabel.store)
    (hls2 : ∀ e ∈ d2.edges, e.2.2 ≠ FieldLabel.load ∧ e.2.2 ≠ FieldLabel.store) :
    ∀ q ∈ prodEdgesUnionAll d1 d2,
      q.2.2 ≠ FieldLabel.load ∧ q.2.2 ≠ FieldLabel.store := by
  intro q hq
  have hs := ((mem_prodEdgesUnionAll d1 d2 q).1 hq).2
  have hcase := ((mem_unionSuccs d1.edges d2.edges q.1.1 q.1.2 (q.2.2, q.2.1)).1 (by
    rw [show (q.1.1, q.1.2) = q.1 from rfl]
    exact hs)).1
  rcases hcase with ⟨s, _, e, he, _, hl⟩ | ⟨t, _, e, he, _, hl⟩
  · rw [show q.2.2 = (q.2.2, q.2.1).1 from rfl, ← hl]
    exact hls1 e he
  · rw [show q.2.2 = (q.2.2, q.2.1).1 from rfl, ← hl]
    exact hls2 e he

/-- `Sketch::union` of two well-formed sketches representing the same callee
succeeds and — because it builds on `dfa_operations::intersection` — accepts
exactly the *intersection* of the two languages. -/
theorem unionS_spec {U : Type} [DecidableEq U] (j m mg : U → U → U)
    (self other : Sketch U)
    (hcal : self.representing.toCallee = other.representing.toCallee)
    (hg1 : GoodSketch self) (hg2 : GoodSketch other) :
    ∃ res, Sketch.unionS j m mg self other = some res ∧
      res.representing = self.representing ∧ res.defaultLabel = self.defaultLabel ∧
      GoodSketch res ∧
      ∀ w, sketchAccepts res w = (sketchAccepts self w && sketchAccepts other w) := by
  obtain ⟨⟨e1, hge1, he1mem⟩, hdet1, hls1, hwf1⟩ := hg1
  obtain ⟨⟨e2, hge2, he2mem⟩, hdet2, hls2, hwf2⟩ := hg2
  have hd1 := toDfa_of_entry self e1 hge1
  have hd2 := toDfa_of_entry other e2 hge2
  set D1 : DfaGraph Nat := { entry := e1,
                             states := self.quotientGraph.nodes.map (fun p => p.1),
                             edges := self.quotientGraph.edges } with hD1
  set D2 : DfaGraph Nat := { entry := e2,
                             states := other.quotientGraph.nodes.map (fun p => p.1),
                             edges := other.quotientGraph.edges } with hD2
  have hrwf : ∀ e ∈ (dfaIntersection D1 D2).edges,
      e.1 ∈ (dfaIntersection D1 D2).states ∧ e.2.1 ∈ (dfaIntersection D1 D2).states := by
    intro e he
    rw [dfaIntersection_edges] at he
    rw [dfaIntersection_states]
    have := (List.mem_filter.1 he).2
    simpa using this
  have hrent : (dfaIntersection D1 D2).entry ∈ (dfaIntersection D1 D2).states := by
    rw [dfaIntersection_entry, dfaIntersection_states]
    exact reachableStates_self _ _
  have hrdet : EdgeDet (dfaIntersection D1 D2).edges := by
    rw [dfaIntersection_edges]
    exact edgeDet_of_sub _ _ (fun e he => (List.mem_filter.1 he).1)
      (prodEdgesInter_det D1.edges D2.edges hdet1 hdet2)
  have hrls : ∀ e ∈ (dfaIntersection D1 D2).edges,
      e.2.2 ≠ FieldLabel.load ∧ e.2.2 ≠ FieldLabel.store := by
    intro e he
    rw [dfaIntersection_edges] at he
    exact prodEdgesInter_ls D1.edges D2.edges hls1 e (List.mem_filter.1 he).1
  obtain ⟨res, hrun, hrep, hdef, hent, hdet, hls, hwf, hlang⟩ :=
    binopSketch_spec self other j mg (dfaIntersection D1 D2) hcal hge1 hge2
      hrwf hrent hrdet hrls
  refine ⟨res, ?_, hrep, hdef, ⟨hent, hdet, hls, hwf⟩, ?_⟩
  · show Sketch.unionS j m mg self other = some res
    unfold Sketch.unionS
    rw [hd1, hd2]
    exact hrun
  · intro w
    rw [hlang w, dfaIntersection_entry, dfaIntersection_language D1 D2 w]
    have ha1 : acceptsB D1.edges D1.entry w = sketchAccepts self w := by
      unfold sketchAccepts
      rw [hge1]
    have ha2 : acceptsB D2.edges D2.entry w = sketchAccepts other w := by
      unfold sketchAccepts
      rw [hge2]
    rw [ha1, ha2]

/-- `Sketch::intersect` of two well-formed sketches representing the same
callee succeeds and — because it builds on `dfa_operations::union` — accepts
exactly the *union* of the two languages. -/
theorem intersectS_spec {U : Type} [DecidableEq U] (j m mg : U → U → U)
    (self other : Sketch U)
    (hcal : self.representing.toCallee = other.representing.toCallee)
    (hg1 : GoodSketch self) (hg2 : GoodSketch other) :
    ∃ res, Sketch.intersectS j m mg self other = some res ∧
      res.representing = self.representing ∧ res.defaultLabel = self.defaultLabel ∧
      GoodSketch res ∧
      ∀ w, sketchAccepts res w = (sketchAccepts self w || sketchAccepts other w) := by
  obtain ⟨⟨e1, hge1, he1mem⟩, hdet1, hls1, hwf1⟩ := hg1
  obtain ⟨⟨e2, hge2, he2mem⟩, hdet2, hls2, hwf2⟩ := hg2
  have hd1 := toDfa_of_entry self e1 hge1
  have hd2 := toDfa_of_entry other e2 hge2
  set D1 : DfaGraph Nat := { entry := e1,
                             states := self.quotientGraph.nodes.map (fun p => p.1),
                             edges := self.quotientGraph.edges } with hD1
  set D2 : DfaGraph Nat := { entry := e2,
                             states := other.quotientGraph.nodes.map (fun p => p.1),
                             edges := other.quotientGraph.edges } with hD2
  have hrwf : ∀ e ∈ (dfaUnion D1 D2).edges,
      e.1 ∈ (dfaUnion D1 D2).states ∧ e.2.1 ∈ (dfaUnion D1 D2).states := by
    intro e he
    rw [dfaUnion_edges] at he
    rw [dfaUnion_states]
    have := (List.mem_filter.1 he).2
    simpa using this
  have hrent : (dfaUnion D1 D2).entry ∈ (dfaUnion D1 D2).states := by
    rw [dfaUnion_entry, dfaUnion_states]
    exact reachableStates_self _ _
  have hrdet : EdgeDet (dfaUnion D1 D2).edges := by
    rw [dfaUnion_edges]
    exact edgeDet_of_sub _ _ (fun e he => (List.mem_filter.1 he).1)
      (prodEdgesUnionAll_det D1 D2)
  have hrls : ∀ e ∈ (dfaUnion D1 D2).edges,
      e.2.2 ≠ FieldLabel.load ∧ e.2.2 ≠ FieldLabel.store := by
    intro e he
    rw [dfaUnion_edges] at he
    exact prodEdgesUnionAll_ls D1 D2 hls1 hls2 e (List.mem_filter.1 he).1
  obtain ⟨res, hrun, hrep, hdef, hent, hdet, hls, hwf, hlang⟩ :=
    binopSketch_spec self other m mg (dfaUnion D1 D2) hcal hge1 hge2
      hrwf hrent hrdet hrls
  refine ⟨res, ?_, hrep, hdef, ⟨hent, hdet, hls, hwf⟩, ?_⟩
  · show Sketch.intersectS j m mg self other = some res
    unfold Sketch.intersectS
    rw [hd1, hd2]
    exact hrun
  · intro w
    rw [hlang w, dfaUnion_entry,
      dfaUnion_language D1 D2 hdet1 hdet2 hwf1 hwf2 he1mem he2mem w]
    have ha1 : acceptsB D1.edges D1.entry w = sketchAccepts self w := by
      unfold sketchAccepts
      rw [hge1]
    have ha2 : acceptsB D2.edges D2.entry w = sketchAccepts other w := by
      unfold sketchAccepts
      rw [hge2]
    rw [ha1, ha2]

theorem foldlM_unionS_lang {U : Type} [DecidableEq U] (j m mg : U → U → U) :
    ∀ (rest : List (Sketch U)) (acc : Sketch U), GoodSketch acc →
      (∀ t ∈ rest, GoodSketch t ∧ t.representing.toCallee = acc.representing.toCallee) →
      ∃ res, rest.foldlM (Sketch.unionS j m mg) acc = some res ∧
        res.representing = acc.representing ∧ GoodSketch res ∧
        ∀ w, sketchAccepts res w =
          (sketchAccepts acc w && rest.all (fun t => sketchAccepts t w)) := by
  intro rest
  induction rest with
  | nil =>
    intro acc hga _
    refine ⟨acc, rfl, rfl, hga, fun w => ?_⟩
    show sketchAccepts acc w = (sketchAccepts acc w && true)
    rw [Bool.and_true]
  | cons t rest ih =>
    intro acc hga hall
    obtain ⟨ht, hcal⟩ := hall t (by simp)
    obtain ⟨r1, hr1, hrep1, _, hgood1, hlang1⟩ :=
      unionS_spec j m mg acc t hcal.symm hga ht
    obtain ⟨res, hres, hrepres, hgoodres, hlangres⟩ := ih r1 hgood1 (fun u hu => by
      obtain ⟨hg', hc'⟩ := hall u (List.mem_cons_of_mem _ hu)
      exact ⟨hg', by rw [hrep1]; exact hc'⟩)
    refine ⟨res, ?_, hrepres.trans hrep1, hgoodres, fun w => ?_⟩
    · rw [List.foldlM_cons, hr1]
      show rest.foldlM (Sketch.unionS j m mg) r1 = some res
      exact hres
    · rw [hlangres w, hlang1 w, List.all_cons, Bool.and_assoc]

theorem foldlM_intersectS_lang {U : Type} [DecidableEq U] (j m mg : U → U → U) :
    ∀ (rest : List (Sketch U)) (acc : Sketch U), GoodSketch acc →
      (∀ t ∈ rest, GoodSketch t ∧ t.representing.toCallee = acc.representing.toCallee) →
      ∃ res, rest.foldlM (Sketch.intersectS j m mg) acc = some res ∧
        res.representing = acc.representing ∧ GoodSketch res ∧
        ∀ w, sketchAccepts res w =
          (sketchAccepts acc w || rest.any (fun t => sketchAccepts t w)) := by
  intro rest
  induction rest with
  | nil =>
    intro acc hga _
    refine ⟨acc, rfl, rfl, hga, fun w => ?_⟩
    show sketchAccepts acc w = (sketchAccepts acc w || false)
    rw [Bool.or_false]
  | cons t rest ih =>
    intro acc hga hall
    obtain ⟨ht, hcal⟩ := hall t (by simp)
    obtain ⟨r1, hr1, hrep1, _, hgood1, hlang1⟩ :=
      intersectS_spec j m mg acc t hcal.symm hga ht
    obtain ⟨res, hres, hrepres, hgoodres, hlangres⟩ := ih r1 hgood1 (fun u hu => by
      obtain ⟨hg', hc'⟩ := hall u (List.mem_cons_of_mem _ hu)
      exact ⟨hg', by rw [hrep1]; exact hc'⟩)
    refine ⟨res, ?_, hrepres.trans hrep1, hgoodres, fun w => ?_⟩
    · rw [List.foldlM_cons, hr1]
      show rest.foldlM (Sketch.intersectS j m mg) r1 = some res
      exact hres
    · rw [hlangres w, hlang1 w, List.any_cons, Bool.or_assoc]

/-! ## C1 — the callsite-merge languages of `refine_formal` -/

/-- C1 amended: merging the k ≥ 1 callsite sketches of a callee formal as
`refine_formal` does yields languages *swapped* with respect to the claim:
the input formal, merged by `Sketch::union` (which is built on the
`dfa_operations::intersection` product), accepts exactly the language
intersection L(S1) ∩ … ∩ L(Sk); the output formal, merged by
`Sketch::intersect` (built on the `dfa_operations::union` product), accepts
exactly the language union L(S1) ∪ … ∪ L(Sk).  Proven for well-formed
callsite sketches (present entry, deterministic, Load/Store-free, edges
among nodes) of a single callee. -/
theorem mergeCallsiteSketches_language {U : Type} [DecidableEq U]
    (j m mg : U → U → U) (s : Sketch U) (rest : List (Sketch U)) (orig : Sketch U)
    (hgood : ∀ t ∈ s :: rest, GoodSketch t)
    (hcal : ∀ t ∈ s :: rest, t.representing.toCallee = s.representing.toCallee) :
    (∃ res, mergeCallsiteSketches (Sketch.unionS j m mg) (s :: rest) orig =
        some res ∧
      ∀ w, sketchAccepts res w = (s :: rest).all (fun t => sketchAccepts t w)) ∧
    (∃ res, mergeCallsiteSketches (Sketch.intersectS j m mg) (s :: rest) orig =
        some res ∧
      ∀ w, sketchAccepts res w = (s :: rest).any (fun t => sketchAccepts t w)) := by
  constructor
  · obtain ⟨res, hres, _, _, hlang⟩ := foldlM_unionS_lang j m mg rest s
      (hgood s (by simp)) (fun t ht => ⟨hgood t (List.mem_cons_of_mem _ ht),
        hcal t (List.mem_cons_of_mem _ ht)⟩)
    refine ⟨res, hres, fun w => ?_⟩
    rw [hlang w, List.all_cons]
  · obtain ⟨res, hres, _, _, hlang⟩ := foldlM_intersectS_lang j m mg rest s
      (hgood s (by simp)) (fun t ht => ⟨hgood t (List.mem_cons_of_mem _ ht),
        hcal t (List.mem_cons_of_mem _ ht)⟩)
    refine ⟨res, hres, fun w => ?_⟩
    rw [hlang w, List.any_cons]

/-- The represented callee variable of the C1 example sketches. -/
def dtvF : DerivedTypeVar := ⟨TypeVariable.named "f" none, []⟩

/-- A sketch accepting exactly the words `[]` and `[In 0]`. -/
def s1c : Sketch Nat :=
  { quotientGraph := { nodes := [(0, 0), (1, 0)],
                       edges := [(0, 1, FieldLabel.inL 0)],
                       assoc := [(dtvF, 0)], freshIdx := 2 },
    representing := dtvF, defaultLabel := 0 }

/-- A sketch accepting exactly the word `[]`. -/
def s2c : Sketch Nat :=
  { quotientGraph := { nodes := [(0, 0)], edges := [],
                       assoc := [(dtvF, 0)], freshIdx := 1 },
    representing := dtvF, defaultLabel := 0 }

/-- C1 counterexample: the word `[In 0]` lies in L(s1c) and hence in
L(s1c) ∪ L(s2c), yet the sketch obtained by merging the two callsite
sketches with `Sketch::union` — which the claim asserts accepts exactly the
language union — rejects it. -/
theorem sketch_union_rejects_union_word :
    sketchAccepts s1c [FieldLabel.inL 0] = true ∧
    (mergeCallsiteSketches
        (Sketch.unionS (fun a _ : Nat => a) (fun a _ => a) (fun a _ => a))
        [s1c, s2c] s1c).map
      (fun res => sketchAccepts res [FieldLabel.inL 0]) = some false := by
  constructor
  · decide
  · decide

theorem mergeCallsiteSketches_language_witness :
    (GoodSketch s1c ∧ GoodSketch s2c ∧
      (∀ t ∈ [s1c, s2c], t.representing.toCallee = s1c.representing.toCallee)) ∧
    ((∃ res, mergeCallsiteSketches
          (Sketch.unionS (fun a _ : Nat => a) (fun a _ => a) (fun a _ => a))
          [s1c, s2c] s1c = some res ∧
        ∀ w, sketchAccepts res w = [s1c, s2c].all (fun t => sketchAccepts t w)) ∧
     (∃ res, mergeCallsiteSketches
          (Sketch.intersectS (fun a _ : Nat => a) (fun a _ => a) (fun a _ => a))
          [s1c, s2c] s1c = some res ∧
        ∀ w, sketchAccepts res w = [s1c, s2c].any (fun t => sketchAccepts t w))) := by
  have hg1 : GoodSketch s1c :=
    ⟨⟨0, by decide, by decide⟩, by unfold EdgeDet; decide, by decide, by decide⟩
  have hg2 : GoodSketch s2c :=
    ⟨⟨0, by decide, by decide⟩, by unfold EdgeDet; decide, by decide, by decide⟩
  refine ⟨⟨hg1, hg2, by decide⟩, ?_⟩
  exact mergeCallsiteSketches_language (fun a _ : Nat => a) (fun a _ => a)
    (fun a _ => a) s1c [s2c] s1c
    (fun t ht => by
      rcases List.mem_cons.1 ht with rfl | ht'
      · exact hg1
      · rcases List.mem_cons.1 ht' with rfl | ht''
        · exact hg2
        · cases ht'')
    (fun t ht => by
      rcases List.mem_cons.1 ht with rfl | ht'
      · rfl
      · rcases List.mem_cons.1 ht' with rfl | ht''
        · rfl
        · cases ht'')

/-! ## C4 — `replace_node` re-attachment and key carry-forward -/

/-- C4: on a well-formed graph (edge endpoints below `fresh_idx`, no duplicate
keys), with a nonempty replacement graph whose edges stay among its own nodes,
containing a node for the key, and whose keys only collide with keys of nodes
being removed, `replace_node(key, repl)` succeeds, and in the result:
(a) every recorded edge entering the reachable set `R` from an outside source
`s` toward the node at label path `p` from the key's node is re-attached from
`s` to the inserted copy of the node the replacement reaches from its own root
by `p`, whenever such a node exists; (b) conversely, every edge of the result
from an old node into the inserted index range arises exactly that way — a
recorded edge whose path finds no node in the replacement is dropped; and
(c) every key `k0` of a removed node `nd` that is not among the replacement's
own keys is carried forward to the inserted node at `nd`'s recorded path when
the replacement has one. -/
theorem replaceNode_spec {W K E : Type} [DecidableEq K] [DecidableEq E]
    [DecidableEq W] (g repl : MappingGraph W K E) (key : K) {origIdx rroot : Nat}
    (hkey : g.getNode key = some origIdx)
    (hrroot : repl.getNode key = some rroot)
    (hrootmem : rroot ∈ repl.nodes.map (fun p => p.1))
    (hEdgeBound : ∀ e ∈ g.edges, e.1 < g.freshIdx ∧ e.2.1 < g.freshIdx)
    (hReplEdges : ∀ e ∈ repl.edges, e.1 ∈ repl.nodes.map (fun p => p.1) ∧
      e.2.1 ∈ repl.nodes.map (fun p => p.1))
    (hgKeysNodup : (g.assoc.map Prod.fst).Nodup)
    (hdisjoint : ∀ p ∈ repl.assoc, ∀ v, alookup g.assoc p.1 = some v →
      v ∈ g.getReachableIdxs origIdx) :
    ∃ g', MappingGraph.replaceNode g key repl = some g' ∧
      (∀ p tgt s w, (p, tgt) ∈ explorePaths g.edges origIdx →
        (s, tgt, w) ∈ g.edges → s ∉ g.getReachableIdxs origIdx →
        ∀ t, findNode repl.edges rroot p = some t →
        ∀ nt, MappingGraph.newIdxOf g repl t = some nt →
        (s, nt, w) ∈ g'.edges) ∧
      (∀ s d w, (s, d, w) ∈ g'.edges → s < g.freshIdx → g.freshIdx ≤ d →
        ∃ p tgt t, (p, tgt) ∈ explorePaths g.edges origIdx ∧
          (s, tgt, w) ∈ g.edges ∧ s ∉ g.getReachableIdxs origIdx ∧
          findNode repl.edges rroot p = some t ∧
          MappingGraph.newIdxOf g repl t = some d) ∧
      (∀ k0 nd, alookup g.assoc k0 = some nd → nd ∈ g.getReachableIdxs origIdx →
        k0 ∉ repl.assoc.map Prod.fst →
        ∀ p, (p, nd) ∈ explorePaths g.edges origIdx →
        ∀ t, findNode repl.edges rroot p = some t →
        ∀ nt, MappingGraph.newIdxOf g repl t = some nt →
        g'.getNode k0 = some nt) := by
  have hempty : repl.nodes.isEmpty = false := by
    cases hn : repl.nodes with
    | nil =>
      rw [hn] at hrootmem
      cases hrootmem
    | cons a l => rfl
  obtain ⟨newEdges, hnewE⟩ :=
    option_mapM_eq_some_of_forall
      (fun e => (MappingGraph.newIdxOf g repl e.1).bind (fun s =>
        (MappingGraph.newIdxOf g repl e.2.1).map (fun d => (s, d, e.2.2))))
      repl.edges
      (fun e he => by
        obtain ⟨s', hs', _⟩ := MappingGraph.newIdxOf_of_mem g repl e.1 (hReplEdges e he).1
        obtain ⟨d', hd', _⟩ := MappingGraph.newIdxOf_of_mem g repl e.2.1 (hReplEdges e he).2
        refine ⟨(s', d', e.2.2), ?_⟩
        show ((MappingGraph.newIdxOf g repl e.1).bind (fun s =>
          (MappingGraph.newIdxOf g repl e.2.1).map (fun d => (s, d, e.2.2)))) =
            some (s', d', e.2.2)
        rw [hs']
        show ((MappingGraph.newIdxOf g repl e.2.1).map (fun d => (s', d, e.2.2))) = _
        rw [hd']
        rfl)
  have hguard : ((MappingGraph.keyAddsOf g repl).any (fun p =>
      (alookup (MappingGraph.removedGraph g (g.getReachableIdxs origIdx)).assoc
        p.1).isSome)) = false := by
    rw [List.any_eq_false]
    intro p hp
    obtain ⟨i, hi⟩ := MappingGraph.mem_keyAddsOf_exists g repl p hp
    have hnone : alookup
        (MappingGraph.removedGraph g (g.getReachableIdxs origIdx)).assoc p.1 = none := by
      rw [MappingGraph.removedGraph_assoc, alookup_eq_none_iff]
      intro q hq hq1
      have hmemg := (List.mem_filter.1 hq).1
      have hcond : q.2 ∉ g.getReachableIdxs origIdx := by
        simpa using (List.mem_filter.1 hq).2
      have hqm : (p.1, q.2) ∈ g.assoc := by
        rw [show (p.1, q.2) = q from Prod.ext hq1.symm rfl]
        exact hmemg
      exact hcond (hdisjoint (p.1, i) hi q.2
        (alookup_eq_of_mem_nodup g.assoc p.1 q.2 hgKeysNodup hqm))
    simp [hnone]
  have hside : ∀ tr ∈ MappingGraph.recordedEdges g origIdx, ∀ t,
      findNode repl.edges rroot tr.2.2 = some t →
      ∃ nt, MappingGraph.newIdxOf g repl t = some nt ∧ tr.2.1 ≠ nt := by
    intro tr htr t hfindt
    obtain ⟨p, tgt, s, w, hpt, hsw, hout, htreq⟩ :=
      (MappingGraph.mem_recordedEdges g origIdx tr).1 htr
    subst htreq
    have htids : t ∈ repl.nodes.map (fun q => q.1) :=
      MappingGraph.findNode_mem_ids (repl.nodes.map (fun q => q.1)) repl.edges
        (fun e he => (hReplEdges e he).2) _ rroot hrootmem t hfindt
    obtain ⟨nt, hnt, hge⟩ := MappingGraph.newIdxOf_of_mem g repl t htids
    have hslt : s < g.freshIdx := (hEdgeBound _ hsw).1
    exact ⟨nt, hnt, by show s ≠ nt; omega⟩
  have hrun : MappingGraph.replaceNode g key repl =
      (MappingGraph.recordedEdges g origIdx).foldlM
        (MappingGraph.reattachStep g repl rroot)
        { nodes := (MappingGraph.removedGraph g (g.getReachableIdxs origIdx)).nodes ++
            repl.nodes.enum.map (fun q => (g.freshIdx + q.1, q.2.2)),
          edges := (MappingGraph.removedGraph g (g.getReachableIdxs origIdx)).edges ++
            newEdges,
          assoc := (MappingGraph.recordedLabels g repl origIdx rroot).foldl (fun acc pr =>
            match MappingGraph.newIdxOf g repl pr.2 with
            | some nidx => orInsertAssoc acc pr.1 nidx
            | none => acc)
            ((MappingGraph.removedGraph g (g.getReachableIdxs origIdx)).assoc ++
              MappingGraph.keyAddsOf g repl),
          freshIdx := g.freshIdx + repl.nodes.length } := by
    unfold MappingGraph.replaceNode
    simp only [hkey, hrroot, hempty, hnewE, hguard, Bool.false_eq_true, if_false]
  rw [MappingGraph.foldlM_reattach g repl rroot (MappingGraph.recordedEdges g origIdx)
    _ hside] at hrun
  refine ⟨_, hrun, ?_, ?_, ?_⟩
  · intro p tgt s w hpt hsw hout t hfindt nt hnt
    have hattach : (s, nt, w) ∈
        MappingGraph.attachOf g repl rroot (MappingGraph.recordedEdges g origIdx) :=
      (MappingGraph.mem_attachOf g repl rroot _ _).2
        ⟨(w, s, p),
          (MappingGraph.mem_recordedEdges g origIdx _).2
            ⟨p, tgt, s, w, hpt, hsw, hout, rfl⟩,
          t, nt, hfindt, hnt, rfl⟩
    exact List.mem_append.2 (Or.inr hattach)
  · intro s d w hmem hs hd
    rcases List.mem_append.1 hmem with hmem1 | hattach
    · rcases List.mem_append.1 hmem1 with hg1 | hnew2
      · exfalso
        rw [MappingGraph.removedGraph_edges] at hg1
        have hge : d < g.freshIdx := (hEdgeBound _ (List.mem_filter.1 hg1).1).2
        omega
      · exfalso
        obtain ⟨e, he, hfe⟩ := option_mapM_mem _ repl.edges newEdges hnewE (s, d, w) hnew2
        obtain ⟨s0, hs0, hmap⟩ := Option.bind_eq_some.1 hfe
        obtain ⟨d0, hd0, heq⟩ := Option.map_eq_some'.1 hmap
        have hseq : s0 = s := congrArg (fun x => x.1) heq
        have := MappingGraph.newIdxOf_ge g repl e.1 s0 hs0
        omega
    · obtain ⟨tr, htr, t, nt, hfindt, hnewt, heq⟩ :=
        (MappingGraph.mem_attachOf g repl rroot _ _).1 hattach
      obtain ⟨p, tgt, s', w', hpt, hsw, hout, htreq⟩ :=
        (MappingGraph.mem_recordedEdges g origIdx tr).1 htr
      subst htreq
      have hs' : s = s' := congrArg (fun x => x.1) heq
      have hd' : d = nt := congrArg (fun x => x.2.1) heq
      have hw' : w = w' := congrArg (fun x => x.2.2) heq
      subst hs'
      subst hd'
      subst hw'
      exact ⟨p, tgt, t, hpt, hsw, hout, hfindt, hnewt⟩
  · intro k0 nd hk0 hndR hk0nr p hpexp t hfindt nt hnt
    show alookup ((MappingGraph.recordedLabels g repl origIdx rroot).foldl (fun acc pr =>
        match MappingGraph.newIdxOf g repl pr.2 with
        | some nidx => orInsertAssoc acc pr.1 nidx
        | none => acc)
        ((MappingGraph.removedGraph g (g.getReachableIdxs origIdx)).assoc ++
          MappingGraph.keyAddsOf g repl)) k0 = some nt
    rw [foldl_orInsert_match, alookup_foldl_orInsert, alookup_append]
    have hnone1 : alookup
        (MappingGraph.removedGraph g (g.getReachableIdxs origIdx)).assoc k0 = none := by
      rw [MappingGraph.removedGraph_assoc, alookup_eq_none_iff]
      intro q hq hq1
      have hmemg := (List.mem_filter.1 hq).1
      have hcond : q.2 ∉ g.getReachableIdxs origIdx := by
        simpa using (List.mem_filter.1 hq).2
      have hqm : (k0, q.2) ∈ g.assoc := by
        rw [show (k0, q.2) = q from Prod.ext hq1.symm rfl]
        exact hmemg
      have hlk := alookup_eq_of_mem_nodup g.assoc k0 q.2 hgKeysNodup hqm
      rw [hk0] at hlk
      have hq2 : nd = q.2 := Option.some_injective _ hlk
      exact hcond (hq2 ▸ hndR)
    have hnone2 : alookup (MappingGraph.keyAddsOf g repl) k0 = none := by
      rw [alookup_eq_none_iff]
      intro q hq hq1
      obtain ⟨i, hqi⟩ := MappingGraph.mem_keyAddsOf_exists g repl q hq
      exact hk0nr (hq1 ▸ List.mem_map.2 ⟨(q.1, i), hqi, rfl⟩)
    have hmapped : alookup ((MappingGraph.recordedLabels g repl origIdx rroot).filterMap
        (fun pr => (MappingGraph.newIdxOf g repl pr.2).map (fun n => (pr.1, n))))
        k0 = some nt := by
      apply alookup_of_unique_entry
      · refine List.mem_filterMap.2 ⟨(k0, t), ?_, ?_⟩
        · exact (MappingGraph.mem_recordedLabels g repl origIdx rroot (k0, t)).2
            ⟨p, nd, hpexp,
              (MappingGraph.mem_keysOf g nd k0).2 (alookup_some_mem g.assoc k0 nd hk0),
              hfindt⟩
        · show ((MappingGraph.newIdxOf g repl t).map (fun n => (k0, n))) = some (k0, nt)
          rw [hnt]
          rfl
      · intro w' hw'
        obtain ⟨pr, hpr, hF⟩ := List.mem_filterMap.1 hw'
        obtain ⟨n0, hn0, heq2⟩ := Option.map_eq_some'.1 hF
        have hpr1 : pr.1 = k0 := congrArg (fun x => x.1) heq2
        have hn0w : n0 = w' := congrArg (fun x => x.2) heq2
        obtain ⟨p', nd', hpexp', hkd', hfind'⟩ :=
          (MappingGraph.mem_recordedLabels g repl origIdx rroot pr).1 hpr
        have hmem' : (k0, nd') ∈ g.assoc := by
          have hh := (MappingGraph.mem_keysOf g nd' pr.1).1 hkd'
          rw [hpr1] at hh
          exact hh
        have hnd' : nd' = nd := by
          have hlk := alookup_eq_of_mem_nodup g.assoc k0 nd' hgKeysNodup hmem'
          rw [hk0] at hlk
          exact (Option.some_injective _ hlk).symm
        have hp' : p' = p := mem_eq_of_nodup_snd (explorePaths g.edges origIdx) nd p' p
          (explorePaths_nodes_nodup g.edges origIdx) (hnd' ▸ hpexp') hpexp
        have hfind'' : findNode repl.edges rroot p = some pr.2 := hp' ▸ hfind'
        rw [hfindt] at hfind''
        have hprt : pr.2 = t := (Option.some_injective _ hfind'').symm
        have hnn : MappingGraph.newIdxOf g repl t = some n0 := hprt ▸ hn0
        rw [hnt] at hnn
        have hntn0 : nt = n0 := Option.some_injective _ hnn
        omega
    rw [hnone1, hnone2, hmapped]
    rfl

/-- A spec-§8-style scenario for the witness: `A --load--> B --store--> C`
inside the removed set, an outside node `X --load--> B`, an extra key on `B`,
and a two-node replacement whose root has a single load edge. -/
def gC4 : MappingGraph Nat Nat FieldLabel :=
  { nodes := [(0, 10), (1, 11), (2, 12), (3, 13)],
    edges := [(0, 1, FieldLabel.load), (1, 2, FieldLabel.store), (3, 1, FieldLabel.load)],
    assoc := [(100, 0), (200, 3), (300, 1)],
    freshIdx := 4 }

/-- The replacement graph for the C4 witness. -/
def replC4 : MappingGraph Nat Nat FieldLabel :=
  { nodes := [(0, 20), (1, 21)],
    edges := [(0, 1, FieldLabel.load)],
    assoc := [(100, 0)],
    freshIdx := 2 }

theorem replaceNode_spec_witness :
    (gC4.getNode 100 = some 0 ∧ replC4.getNode 100 = some 0 ∧
      (0 : Nat) ∈ replC4.nodes.map (fun p => p.1)) ∧
    (∃ g', MappingGraph.replaceNode gC4 100 replC4 = some g' ∧
      (∀ p tgt s w, (p, tgt) ∈ explorePaths gC4.edges 0 →
        (s, tgt, w) ∈ gC4.edges → s ∉ gC4.getReachableIdxs 0 →
        ∀ t, findNode replC4.edges 0 p = some t →
        ∀ nt, MappingGraph.newIdxOf gC4 replC4 t = some nt →
        (s, nt, w) ∈ g'.edges) ∧
      (∀ s d w, (s, d, w) ∈ g'.edges → s < gC4.freshIdx → gC4.freshIdx ≤ d →
        ∃ p tgt t, (p, tgt) ∈ explorePaths gC4.edges 0 ∧
          (s, tgt, w) ∈ gC4.edges ∧ s ∉ gC4.getReachableIdxs 0 ∧
          findNode replC4.edges 0 p = some t ∧
          MappingGraph.newIdxOf gC4 replC4 t = some d) ∧
      (∀ k0 nd, alookup gC4.assoc k0 = some nd → nd ∈ gC4.getReachableIdxs 0 →
        k0 ∉ replC4.assoc.map Prod.fst →
        ∀ p, (p, nd) ∈ explorePaths gC4.edges 0 →
        ∀ t, findNode replC4.edges 0 p = some t →
        ∀ nt, MappingGraph.newIdxOf gC4 replC4 t = some nt →
        g'.getNode k0 = some nt)) :=
  ⟨⟨rfl, rfl, by decide⟩,
    replaceNode_spec gC4 replC4 100 rfl rfl (by decide) (by decide) (by decide)
      (by decide)
      (by
        intro pq hpq v hv
        have hpq' : pq ∈ [((100 : Nat), (0 : Nat))] := hpq
        have hpe : pq = ((100 : Nat), (0 : Nat)) := by simpa using hpq'
        subst hpe
        have hv' : some (0 : Nat) = some v := hv
        injection hv' with hv2
        subst hv2
        decide)⟩

end BTI
